import Mathlib

/-!
Jaqen, a DNS rebinding harness.

A shallow embedding of the Go sources (address.go, pool.go, manager.go, http.go,
rebind-ttl.go, rebind-threshold.go, rebind-multi.go, offers.go, dns.go) and the
properties of its strategies, DNS responder, offer engine, pool, listener
registry and address parser. The functions of the Go library that the sources
call (net.IP.String, net.IP.Equal, net.SplitHostPort, net.ParseIP) are embedded
next to them.

Conventions of the embedding:
* a Go byte slice is a list of naturals, the nil slice is the empty list;
* a Go pointer to an object that is never nil at the point of use is the object;
  a pointer that may be nil is an Option;
* a Go map is an association list with unique keys;
* a fault (index out of range, rand.Intn of zero) is the result none;
* goroutines blocked on a Done channel are entries of a pending list that a
  separate step runs;
* the lease table is also embedded at the level of slice values and backing
  arrays, where a release goroutine runs in two steps, as it holds no lock.
-/

namespace Jaqen

/-! ## net.IP -/

/-- A net.IP value: a byte slice, nil being the empty list. -/
abbrev IP := List Nat

/-- The twelve bytes that start an IPv4 address written in 16 bytes. -/
def v4InV6Pfx : List Nat := [0, 0, 0, 0, 0, 0, 0, 0, 0, 0, 0xff, 0xff]

/-- The Go method net.IP.To4: the 4-byte form of the address, or nil. -/
def IP.To4 (ip : IP) : IP :=
  if ip.length = 4 then ip
  else if ip.length = 16 ∧ ip.take 10 = List.replicate 10 0 ∧
      ip.get? 10 = some 0xff ∧ ip.get? 11 = some 0xff then ip.drop 12
  else []

/-- The Go method net.IP.Equal: equality up to the 4-byte and 16-byte forms. -/
def IP.Equal (ip x : IP) : Bool :=
  if ip.length = x.length then decide (ip = x)
  else if ip.length = 4 ∧ x.length = 16 then
    decide (x.take 12 = v4InV6Pfx) && decide (ip = x.drop 12)
  else if ip.length = 16 ∧ x.length = 4 then
    decide (ip.take 12 = v4InV6Pfx) && decide (ip.drop 12 = x)
  else false

/-- The digits of the Go table hextable. -/
def hextable : List Char := "0123456789abcdef".toList

/-- The hexadecimal digit of a value below sixteen. -/
def hexDigit (v : Nat) : Char := hextable.getD v '0'

/-- The 16-bit groups of a 16-byte address, read two bytes at a time. -/
def ipGroups : List Nat → List Nat
  | a :: b :: rest => (a * 256 + b) :: ipGroups rest
  | _ => []

/-- The index of the first nonzero group at or after position j (the inner loop
of net.IP.String), in a list of groups that starts at position j. -/
def zeroRunEnd : List Nat → Nat → Nat
  | [], j => j
  | g :: gs, j => if g = 0 then zeroRunEnd gs (j + 1) else j

/-- The outer loop of net.IP.String that finds the longest run of zero groups:
best holds (e0, e1), none standing for (-1, -1); i is the current group index. -/
def longestZeroRun (gs : List Nat) : Nat → Nat → Option (Nat × Nat) → Option (Nat × Nat)
  | 0, _, best => best
  | fuel + 1, i, best =>
    if i < gs.length then
      let j := zeroRunEnd (gs.drop i) i
      let len := match best with
        | some (e0, e1) => e1 - e0
        | none => 0
      if j > i ∧ j - i > len then longestZeroRun gs fuel (j + 1) (some (i, j))
      else longestZeroRun gs fuel (i + 1) best
    else best

/-- The printing loop of net.IP.String over the groups, with the two colons in
place of the run (e0, e1). -/
def printGroups (gs : List Nat) (run : Option (Nat × Nat)) : Nat → Nat → List Char → List Char
  | 0, _, b => b
  | fuel + 1, i, b =>
    if i < gs.length then
      match run with
      | some (e0, e1) =>
        if i = e0 then
          if e1 ≥ gs.length then b ++ [':', ':']
          else printGroups gs run fuel (e1 + 1) (b ++ [':', ':'] ++ Nat.toDigits 16 (gs.getD e1 0))
        else
          printGroups gs run fuel (i + 1)
            ((if i > 0 then b ++ [':'] else b) ++ Nat.toDigits 16 (gs.getD i 0))
      | none =>
        printGroups gs run fuel (i + 1)
          ((if i > 0 then b ++ [':'] else b) ++ Nat.toDigits 16 (gs.getD i 0))
    else b

/-- The Go method net.IP.String: dotted decimal for an address with a 4-byte
form, the compressed groups for the other 16-byte addresses. -/
def IP.String (ip : IP) : String :=
  if ip.length = 0 then "<nil>"
  else if (IP.To4 ip).length = 4 then
    String.intercalate "." ((IP.To4 ip).map fun b => String.mk (Nat.toDigits 10 b))
  else if ip.length ≠ 16 then
    String.mk ('?' :: (ip.map fun b => [hexDigit (b / 16 % 16), hexDigit (b % 16)]).flatten)
  else
    let gs := ipGroups ip
    let run := match longestZeroRun gs 8 0 none with
      | some (e0, e1) => if e1 - e0 ≤ 1 then none else some (e0, e1)
      | none => none
    String.mk (printGroups gs run 8 0 [])

/-! ## address.go -/

/-- The struct Address of address.go. -/
structure Address where
  Port : String
  Host : String
  InternalIP : IP
  ExternalIP : IP
  deriving DecidableEq, Repr

/-- The method Address.IP: an alias of InternalIP. -/
def Address.IP (a : Address) : IP := a.InternalIP

/-- The method Address.IsUnknownHost. -/
def Address.IsUnknownHost (a : Address) : Bool :=
  decide (a.Host ≠ "") && decide (a.InternalIP = [])

/-- The method Address.Equal: Port, InternalIP and ExternalIP, not Host. -/
def Address.Equal (a c : Address) : Bool :=
  if a.Port ≠ c.Port then false
  else if !(IP.Equal a.InternalIP c.InternalIP) then false
  else if !(IP.Equal a.ExternalIP c.ExternalIP) then false
  else true

/-- The method Address.Clone. -/
def Address.Clone (a : Address) : Address :=
  { Port := a.Port, Host := a.Host, InternalIP := a.InternalIP, ExternalIP := a.ExternalIP }

/-- The method Address.String, the key of the lease table and of the listener
registry. -/
def Address.String (a : Address) : String :=
  if a.IsUnknownHost then a.Host ++ ":" ++ a.Port
  else a.ExternalIP.String ++ String.singleton (Char.ofNat 92) ++ a.InternalIP.String ++ ":" ++ a.Port

/-! ## Strategies: rebind-ttl.go, rebind-threshold.go, rebind-multi.go -/

/-- The query types and codes of the DNS library that the sources use. -/
def TypeA : Nat := 1
def TypeCNAME : Nat := 5
def TypeAAAA : Nat := 28
def ClassINET : Nat := 1
def RcodeSuccess : Nat := 0
def RcodeServerFailure : Nat := 2
def RcodeRefused : Nat := 5

/-- The struct DNSAnswer of dns.go. -/
structure DNSAnswer where
  TTL : Nat
  Address : Address
  deriving DecidableEq, Repr

/-- A pointer to an HTTPServer as a strategy holds it: the identity of the
object and its Address field, which is set once at creation. The counter of its
WaitGroup lives in the manager state. -/
structure HTTPServer where
  ptr : Nat
  Address : Address
  deriving DecidableEq, Repr

/-- The struct TTLRebind. -/
structure TTLRebind where
  target : Address
  ttl : Nat
  rebind : Bool
  v4Server : Option HTTPServer
  v6Server : Option HTTPServer
  deriving DecidableEq, Repr

/-- The method TTLRebind.HandleDNS: the answers and the strategy afterwards. -/
def TTLRebind.HandleDNS (r : TTLRebind) (qType : Nat) : List DNSAnswer × TTLRebind :=
  if r.rebind = false then
    let r1 := { r with rebind := true }
    if qType = TypeAAAA then
      match r.v6Server with
      | some srv => ([{ TTL := r.ttl, Address := srv.Address }], r1)
      | none => ([], r1)
    else
      match r.v4Server with
      | some srv => ([{ TTL := r.ttl, Address := srv.Address }], r1)
      | none => ([], r1)
  else
    if (r.target.IP.To4 = [] ∧ qType = TypeAAAA) ∨ (r.target.IP.To4 ≠ [] ∧ qType = TypeA) then
      ([{ TTL := r.ttl, Address := r.target }], r)
    else ([], r)

/-- The struct ThresholdRebind; threshold is a uint64. -/
structure ThresholdRebind where
  target : Address
  threshold : Nat
  ttl : Nat
  v4Server : Option HTTPServer
  v6Server : Option HTTPServer
  deriving DecidableEq, Repr

/-- The method ThresholdRebind.HandleDNS; the decrement is that of a uint64. -/
def ThresholdRebind.HandleDNS (r : ThresholdRebind) (qType : Nat) :
    List DNSAnswer × ThresholdRebind :=
  if r.threshold > 0 then
    let r1 := { r with threshold := (r.threshold + (2 ^ 64 - 1)) % 2 ^ 64 }
    if qType = TypeAAAA then
      match r.v6Server with
      | some srv => ([{ TTL := r.ttl, Address := srv.Address }], r1)
      | none => ([], r1)
    else
      match r.v4Server with
      | some srv => ([{ TTL := r.ttl, Address := srv.Address }], r1)
      | none => ([], r1)
  else
    if (r.target.IP.To4 = [] ∧ qType = TypeAAAA) ∨ (r.target.IP.To4 ≠ [] ∧ qType = TypeA) then
      ([{ TTL := r.ttl, Address := r.target }], r)
    else ([], r)

/-- The struct MultiRecordRebind. -/
structure MultiRecordRebind where
  target : Address
  ttl : Nat
  v4Server : Option HTTPServer
  v6Server : Option HTTPServer
  deriving DecidableEq, Repr

/-- The method MultiRecordRebind.HandleDNS. -/
def MultiRecordRebind.HandleDNS (r : MultiRecordRebind) (qType : Nat) :
    List DNSAnswer × MultiRecordRebind :=
  if qType = TypeAAAA then
    match r.v6Server with
    | some srv =>
      if r.target.IP.To4 = [] then
        ([{ TTL := r.ttl, Address := srv.Address }, { TTL := r.ttl, Address := r.target }], r)
      else ([], r)
    | none => ([], r)
  else
    match r.v4Server with
    | some srv =>
      if r.target.IP.To4 ≠ [] then
        ([{ TTL := r.ttl, Address := srv.Address }, { TTL := r.ttl, Address := r.target }], r)
      else ([], r)
    | none => ([], r)

/-- The interface RebindMethod with its three implementations. -/
inductive RebindMethod where
  | ttl (r : TTLRebind)
  | threshold (r : ThresholdRebind)
  | multi (r : MultiRecordRebind)
  deriving DecidableEq, Repr

/-- The interface method HandleDNS, by dynamic dispatch. -/
def RebindMethod.HandleDNS (meth : RebindMethod) (qType : Nat) :
    List DNSAnswer × RebindMethod :=
  match meth with
  | .ttl r => ((r.HandleDNS qType).1, .ttl (r.HandleDNS qType).2)
  | .threshold r => ((r.HandleDNS qType).1, .threshold (r.HandleDNS qType).2)
  | .multi r => ((r.HandleDNS qType).1, .multi (r.HandleDNS qType).2)

/-! ## Go maps -/

/-- Reading a Go map: the value stored under the key, if any. -/
def mapGet {κ α : Type} [DecidableEq κ] (k : κ) : List (κ × α) → Option α
  | [] => none
  | (k1, v) :: m => if k1 = k then some v else mapGet k m

/-- Writing a Go map: the value under the key is replaced, or the key added. -/
def mapSet {κ α : Type} [DecidableEq κ] (k : κ) (v : α) : List (κ × α) → List (κ × α)
  | [] => [(k, v)]
  | (k1, v1) :: m => if k1 = k then (k, v) :: m else (k1, v1) :: mapSet k v m

/-- The Go builtin delete on a map. -/
def mapDelete {κ α : Type} [DecidableEq κ] (k : κ) : List (κ × α) → List (κ × α)
  | [] => []
  | (k1, v1) :: m => if k1 = k then mapDelete k m else (k1, v1) :: mapDelete k m

/-- The keys of a Go map. -/
def mapKeys {κ α : Type} (m : List (κ × α)) : List κ := m.map Prod.fst

/-! ## pool.go -/

/-- A context.Context value, by identity. -/
abbrev Ctx := Nat

/-- A goroutine that the code starts and that blocks until its event: the
release of a lease and the decrement of a listener wait for the Done channel of
a context, the teardown of a listener waits for its WaitGroup. -/
inductive Goroutine where
  | releaseLease (ctx : Ctx) (key : String)
  | wgDone (ctx : Ctx) (ptr : Nat)
  | teardown (ptr : Nat) (key : String)
  deriving DecidableEq, Repr

/-- The struct Pool (the mutex is not modelled). -/
structure Pool where
  addrs : List Address
  leases : List (String × List Ctx)
  deriving DecidableEq, Repr

/-- The function NewPool. -/
def NewPool (addrs : List Address) : Pool :=
  { addrs := addrs
    leases := addrs.foldl (fun leases addr => mapSet addr.String [] leases) [] }

/-- The implementations of the interface PoolCriteria. -/
inductive PoolCriteria where
  | AddressFamily (IPv6 : Bool)
  | ExternalIPMatch (Addr : Address)
  deriving DecidableEq, Repr

/-- The methods Eligible of the two criteria. -/
def PoolCriteria.Eligible (c : PoolCriteria) (_ctxs : List Ctx) (addr : Address) : Bool :=
  match c with
  | .AddressFamily ipv6 => decide ((addr.IP.To4 = []) ↔ (ipv6 = true))
  | .ExternalIPMatch a => IP.Equal addr.ExternalIP a.ExternalIP

/-- Reading the lease table: a missing key reads as the nil slice. -/
def Pool.leasesOf (p : Pool) (key : String) : List Ctx := (mapGet key p.leases).getD []

/-- The first loop of Pool.Lease: the eligible addresses, in pool order. -/
def Pool.eligibleAddrs (p : Pool) (criteriaList : List PoolCriteria) : List Address :=
  p.addrs.foldl (fun eligibleAddrs addr =>
    let eligible := criteriaList.foldl (fun eligible criteria =>
      if !(criteria.Eligible (p.leasesOf addr.String) addr) then false else eligible) true
    if eligible then eligibleAddrs ++ [addr] else eligibleAddrs) []

/-- The method Pool.Lease. The argument rnd is the raw random value that
rand.Intn reduces below the number of eligible addresses; rand.Intn faults when
that number is zero. The result is the leased address, the pool afterwards and
the goroutine that releases the lease. -/
def Pool.Lease (p : Pool) (ctx : Ctx) (criteriaList : List PoolCriteria) (rnd : Nat) :
    Option (Address × Pool × Goroutine) :=
  let eligibleAddrs := p.eligibleAddrs criteriaList
  if eligibleAddrs.length = 0 then none
  else
    match eligibleAddrs.get? (rnd % eligibleAddrs.length) with
    | none => none
    | some addr =>
      some (addr,
        { p with leases := mapSet addr.String (p.leasesOf addr.String ++ [ctx]) p.leases },
        .releaseLease ctx addr.String)

/-- The body of the goroutine of Pool.Lease once the context is done: the first
occurrence of the context is cut out of the lease list of the address. -/
def Pool.release (p : Pool) (ctx : Ctx) (key : String) : Pool :=
  if ctx ∈ p.leasesOf key then
    { p with leases := mapSet key ((p.leasesOf key).erase ctx) p.leases }
  else p

/-! ## UUIDs (the library satori/go.uuid) and the pattern SubdomainRegex -/

/-- A uuid.UUID value: sixteen bytes. -/
abbrev UUID := List Nat

/-- The Go function hex.Encode on a byte slice. -/
def hexEncode : List Nat → List Char
  | [] => []
  | b :: bs => hexDigit (b / 16 % 16) :: hexDigit (b % 16) :: hexEncode bs

/-- The method UUID.String: the canonical text of 36 characters. -/
def UUID.String (u : UUID) : String :=
  String.mk (hexEncode (u.take 4) ++ '-' :: hexEncode ((u.drop 4).take 2) ++
    '-' :: hexEncode ((u.drop 6).take 2) ++ '-' :: hexEncode ((u.drop 8).take 2) ++
    '-' :: hexEncode ((u.drop 10).take 6))

/-- The Go function fromHexChar of encoding/hex. -/
def fromHexChar (c : Char) : Option Nat :=
  if '0' ≤ c ∧ c ≤ '9' then some (c.toNat - 48)
  else if 'a' ≤ c ∧ c ≤ 'f' then some (c.toNat - 97 + 10)
  else if 'A' ≤ c ∧ c ≤ 'F' then some (c.toNat - 65 + 10)
  else none

/-- The Go function hex.Decode: pairs of digits to bytes, an error on a
character that is no digit or on an odd length. -/
def hexDecode : List Char → Option (List Nat)
  | [] => some []
  | [_] => none
  | a :: b :: rest =>
    match fromHexChar a, fromHexChar b, hexDecode rest with
    | some x, some y, some bs => some ((x * 16 + y) :: bs)
    | _, _, _ => none

/-- The method decodeCanonical: dashes at 8, 13, 18 and 23, digits elsewhere. -/
def decodeCanonical (t : List Char) : Option UUID :=
  if t.get? 8 ≠ some '-' ∨ t.get? 13 ≠ some '-' ∨ t.get? 18 ≠ some '-' ∨
      t.get? 23 ≠ some '-' then none
  else
    match hexDecode (t.take 8), hexDecode ((t.drop 9).take 4), hexDecode ((t.drop 14).take 4),
      hexDecode ((t.drop 19).take 4), hexDecode ((t.drop 24).take 12) with
    | some d1, some d2, some d3, some d4, some d5 => some (d1 ++ d2 ++ d3 ++ d4 ++ d5)
    | _, _, _, _, _ => none

/-- The method decodePlain: the canonical form or 32 digits. -/
def decodePlain (t : List Char) : Option UUID :=
  if t.length = 36 then decodeCanonical t
  else if t.length = 32 then hexDecode t
  else none

/-- The function uuid.FromString (UnmarshalText), by the length of the text. -/
def uuidFromString (s : String) : Option UUID :=
  let t := s.toList
  if t.length = 32 then hexDecode t
  else if t.length = 36 then decodeCanonical t
  else if t.length = 38 then
    if t.head? ≠ some (Char.ofNat 123) ∨ t.getLast? ≠ some (Char.ofNat 125) then none
    else decodePlain ((t.drop 1).take 36)
  else if t.length = 41 ∨ t.length = 45 then
    if t.take 9 ≠ "urn:uuid:".toList then none else decodePlain (t.drop 9)
  else none

/-- The character class [0-9a-f] of SubdomainRegex. -/
def isLowerHex (c : Char) : Bool := decide (c ∈ hextable)

/-- The piece [0-9a-f]{n} of the pattern: the n characters read and the rest. -/
def takeHex : Nat → List Char → Option (List Char × List Char)
  | 0, cs => some ([], cs)
  | _ + 1, [] => none
  | n + 1, c :: cs =>
    if isLowerHex c then
      match takeHex n cs with
      | some (g, rest) => some (c :: g, rest)
      | none => none
    else none

/-- A literal character of the pattern: the rest of the text after it. -/
def takeChar (d : Char) : List Char → Option (List Char)
  | [] => none
  | c :: cs => if c = d then some cs else none

/-- The pattern SubdomainRegex, anchored at the start of the text: five groups
of 8, 4, 4, 4 and 12 lowercase hex digits with dashes between them, then a dot.
The result is the captured group. -/
def matchSubdomain (cs : List Char) : Option (List Char) :=
  match takeHex 8 cs with
  | none => none
  | some (g1, r1) =>
  match takeChar '-' r1 with
  | none => none
  | some r1 =>
  match takeHex 4 r1 with
  | none => none
  | some (g2, r2) =>
  match takeChar '-' r2 with
  | none => none
  | some r2 =>
  match takeHex 4 r2 with
  | none => none
  | some (g3, r3) =>
  match takeChar '-' r3 with
  | none => none
  | some r3 =>
  match takeHex 4 r3 with
  | none => none
  | some (g4, r4) =>
  match takeChar '-' r4 with
  | none => none
  | some r4 =>
  match takeHex 12 r4 with
  | none => none
  | some (g5, r5) =>
  match takeChar '.' r5 with
  | none => none
  | some _ => some (g1 ++ '-' :: g2 ++ '-' :: g3 ++ '-' :: g4 ++ '-' :: g5)

/-- The call SubdomainRegex.FindStringSubmatch: nil when the text does not
match, else the whole match followed by the captured group. -/
def SubdomainRegex.FindStringSubmatch (name : String) : List String :=
  match matchSubdomain name.toList with
  | none => []
  | some cap => [String.mk (cap ++ ['.']), String.mk cap]

/-! ## manager.go, http.go -/

/-- The mutable part of an HTTPServer object: the counter of its WaitGroup,
whether the goroutine blocked in WG.Wait has been released, and whether the
server has been stopped. -/
structure ServerState where
  WG : Nat
  released : Bool
  stopped : Bool
  deriving DecidableEq, Repr

/-- The sources of values the program does not compute: the raw value behind
the k-th call of rand.Intn and the result of the k-th call of uuid.NewV4. -/
structure Oracle where
  Intn : Nat → Nat
  NewV4 : Nat → UUID

/-- The struct RebindManager (locks, mux and DNS servers are not modelled),
with the state of the runtime next to it: the HTTPServer objects by pointer,
the goroutines that are blocked, the contexts that are done, and how many
random draws and UUIDs have been taken. -/
structure RebindManager where
  base : String
  pool : Pool
  Rebinds : List (UUID × RebindMethod)
  HTTPServers : List (String × HTTPServer)
  heap : List ServerState
  goroutines : List Goroutine
  cancelled : List Ctx
  draws : Nat
  minted : Nat
  deriving DecidableEq, Repr

/-- The function NewRebindManager. -/
def NewRebindManager (base : String) (poolIPs : List Address) : RebindManager :=
  { base := base, pool := NewPool poolIPs, Rebinds := [], HTTPServers := [],
    heap := [], goroutines := [], cancelled := [], draws := 0, minted := 0 }

/-- The method CreateHTTPServer: a new object with its WaitGroup at one, the
goroutine that waits for the WaitGroup, and the entry of the registry under the
string of the address. Opening the socket is outside the embedding. -/
def RebindManager.CreateHTTPServer (m : RebindManager) (_ctx : Ctx) (addr : Address) :
    HTTPServer × RebindManager :=
  let srv : HTTPServer := { ptr := m.heap.length, Address := addr }
  (srv, { m with
    heap := m.heap ++ [{ WG := 1, released := false, stopped := false }]
    goroutines := m.goroutines ++ [.teardown srv.ptr addr.String]
    HTTPServers := mapSet addr.String srv m.HTTPServers })

/-- The call srv.WG.Add(1). -/
def RebindManager.wgAdd (m : RebindManager) (ptr : Nat) : RebindManager :=
  { m with heap := m.heap.modify (fun st => { st with WG := st.WG + 1 }) ptr }

/-- The lookup loop of GetHTTPServer: the last server of the registry whose
address is Equal to the bind address (the registry is walked in list order). -/
def RebindManager.findServer (m : RebindManager) (bindAddr : Address) : Option HTTPServer :=
  m.HTTPServers.foldl (fun srv kv => if kv.2.Address.Equal bindAddr then some kv.2 else srv) none

/-- The method GetHTTPServer. -/
def RebindManager.GetHTTPServer (m : RebindManager) (ctx : Ctx) (bind addr : Address) :
    HTTPServer × RebindManager :=
  let bindAddr := { bind.Clone with Port := addr.Port }
  let (srv, m1) := match m.findServer bindAddr with
    | some srv => (srv, m.wgAdd srv.ptr)
    | none => m.CreateHTTPServer ctx bindAddr
  (srv, { m1 with goroutines := m1.goroutines ++ [.wgDone ctx srv.ptr] })

/-- The call m.pool.Lease on the manager: it takes the next random draw and
starts the goroutine that releases the lease. -/
def RebindManager.Lease (o : Oracle) (m : RebindManager) (ctx : Ctx)
    (criteriaList : List PoolCriteria) : Option (Address × RebindManager) :=
  match m.pool.Lease ctx criteriaList (o.Intn m.draws) with
  | none => none
  | some (addr, pool, g) =>
    some (addr, { m with pool := pool, goroutines := m.goroutines ++ [g], draws := m.draws + 1 })

/-- The expression m.GetHTTPServer(ctx, m.pool.Lease(ctx, AddressFamily), target)
that the three constructors share. -/
def RebindManager.leaseServer (o : Oracle) (m : RebindManager) (ctx : Ctx) (ipv6 : Bool)
    (target : Address) : Option (HTTPServer × RebindManager) :=
  match m.Lease o ctx [.AddressFamily ipv6] with
  | none => none
  | some (bind, m1) => some (m1.GetHTTPServer ctx bind target)

/-- The function NewTTLRebind. -/
def NewTTLRebind (o : Oracle) (ctx : Ctx) (m : RebindManager) (target : Address) (ttl : Nat) :
    Option (TTLRebind × RebindManager) :=
  let r : TTLRebind :=
    { target := target, ttl := ttl, rebind := false, v4Server := none, v6Server := none }
  if target.IP = [] then
    match m.leaseServer o ctx false target with
    | none => none
    | some (s4, m1) =>
      match m1.leaseServer o ctx true target with
      | none => none
      | some (s6, m2) => some ({ r with v4Server := some s4, v6Server := some s6 }, m2)
  else if target.IP.To4 = [] then
    match m.leaseServer o ctx true target with
    | none => none
    | some (s6, m1) => some ({ r with v6Server := some s6 }, m1)
  else
    match m.leaseServer o ctx false target with
    | none => none
    | some (s4, m1) => some ({ r with v4Server := some s4 }, m1)

/-- The function NewThresholdRebind. -/
def NewThresholdRebind (o : Oracle) (ctx : Ctx) (m : RebindManager) (target : Address)
    (threshold ttl : Nat) : Option (ThresholdRebind × RebindManager) :=
  let r : ThresholdRebind :=
    { target := target, threshold := threshold, ttl := ttl, v4Server := none, v6Server := none }
  if target.IP = [] then
    match m.leaseServer o ctx false target with
    | none => none
    | some (s4, m1) =>
      match m1.leaseServer o ctx true target with
      | none => none
      | some (s6, m2) => some ({ r with v4Server := some s4, v6Server := some s6 }, m2)
  else if target.IP.To4 = [] then
    match m.leaseServer o ctx true target with
    | none => none
    | some (s6, m1) => some ({ r with v6Server := some s6 }, m1)
  else
    match m.leaseServer o ctx false target with
    | none => none
    | some (s4, m1) => some ({ r with v4Server := some s4 }, m1)

/-- The function NewMultiRecordRebind. -/
def NewMultiRecordRebind (o : Oracle) (ctx : Ctx) (m : RebindManager) (target : Address)
    (ttl : Nat) : Option (MultiRecordRebind × RebindManager) :=
  let r : MultiRecordRebind :=
    { target := target, ttl := ttl, v4Server := none, v6Server := none }
  if target.IP = [] then
    match m.leaseServer o ctx false target with
    | none => none
    | some (s4, m1) =>
      match m1.leaseServer o ctx true target with
      | none => none
      | some (s6, m2) => some ({ r with v4Server := some s4, v6Server := some s6 }, m2)
  else if target.IP.To4 = [] then
    match m.leaseServer o ctx true target with
    | none => none
    | some (s6, m1) => some ({ r with v6Server := some s6 }, m1)
  else
    match m.leaseServer o ctx false target with
    | none => none
    | some (s4, m1) => some ({ r with v4Server := some s4 }, m1)

/-! ## offers.go -/

/-- The struct RebindOffer. -/
structure RebindOffer where
  ID : UUID
  URL : String
  deriving DecidableEq, Repr

/-- The struct WebSocketHostRequest; Host is a pointer that the JSON decoder
leaves nil when the message has no host. -/
structure WebSocketHostRequest where
  Host : Option Address
  deriving DecidableEq, Repr

/-- A constructor call of the slice literal methods of MakeOffer. -/
inductive MethodCall where
  | NewTTLRebind (ttl : Nat)
  | NewThresholdRebind (threshold ttl : Nat)
  deriving DecidableEq, Repr

/-- The slice literal methods of MakeOffer, in source order. -/
def offerMethods : List MethodCall :=
  [.NewTTLRebind 1, .NewTTLRebind 2, .NewTTLRebind 4, .NewTTLRebind 8, .NewTTLRebind 16,
   .NewThresholdRebind 1 2, .NewThresholdRebind 2 2, .NewThresholdRebind 3 4,
   .NewThresholdRebind 4 4]

/-- One element of the slice literal, evaluated. -/
def MethodCall.run (c : MethodCall) (o : Oracle) (ctx : Ctx) (m : RebindManager)
    (host : Address) : Option (RebindMethod × RebindManager) :=
  match c with
  | .NewTTLRebind ttl =>
    match Jaqen.NewTTLRebind o ctx m host ttl with
    | none => none
    | some (r, m1) => some (.ttl r, m1)
  | .NewThresholdRebind threshold ttl =>
    match Jaqen.NewThresholdRebind o ctx m host threshold ttl with
    | none => none
    | some (r, m1) => some (.threshold r, m1)

/-- The elements of the slice literal evaluated from left to right. -/
def buildMethods (o : Oracle) (ctx : Ctx) (host : Address) :
    List MethodCall → RebindManager → Option (List RebindMethod × RebindManager)
  | [], m => some ([], m)
  | c :: cs, m =>
    match c.run o ctx m host with
    | none => none
    | some (meth, m1) =>
      match buildMethods o ctx host cs m1 with
      | none => none
      | some (meths, m2) => some (meth :: meths, m2)

/-- The URL that MakeOffer formats for an id. -/
def offerURL (id : UUID) (base port : String) : String :=
  "http://" ++ id.String ++ "." ++ base ++ ":" ++ port ++ "/.well-known/rebind/v1.frame"

/-- The loop of MakeOffer over the methods: an id is minted, the offer appended
and the method stored in Rebinds under the id. -/
def offerLoop (o : Oracle) (port : String) :
    List RebindMethod → List RebindOffer → RebindManager → List RebindOffer × RebindManager
  | [], offers, m => (offers, m)
  | method :: methods, offers, m =>
    let id := o.NewV4 m.minted
    offerLoop o port methods (offers ++ [{ ID := id, URL := offerURL id m.base port }])
      { m with Rebinds := mapSet id method m.Rebinds, minted := m.minted + 1 }

/-- The method MakeOffer; a nil Host faults in the first constructor. -/
def RebindManager.MakeOffer (o : Oracle) (m : RebindManager) (ctx : Ctx)
    (req : WebSocketHostRequest) : Option (List RebindOffer × RebindManager) :=
  match req.Host with
  | none => none
  | some host =>
    match buildMethods o ctx host offerMethods m with
    | none => none
    | some (methods, m1) => some (offerLoop o host.Port methods [] m1)

/-! ## dns.go -/

/-- The struct dns.Question. -/
structure Question where
  Name : String
  Qtype : Nat
  Qclass : Nat
  deriving DecidableEq, Repr

/-- The struct dns.RR_Header (without the length of the data). -/
structure RR_Header where
  Name : String
  Rrtype : Nat
  Class : Nat
  Ttl : Nat
  deriving DecidableEq, Repr

/-- The records that ServeDNS builds. -/
inductive RR where
  | A (Hdr : RR_Header) (A : IP)
  | AAAA (Hdr : RR_Header) (AAAA : IP)
  | CNAME (Hdr : RR_Header) (Target : String)
  deriving DecidableEq, Repr

/-- The struct dns.Msg, with the fields that SetReply and ServeDNS write. A slot
of Answer is an interface value: none is the nil that make leaves in it. -/
structure Msg where
  Id : Nat
  Response : Bool
  Opcode : Nat
  Rcode : Nat
  Question : List Question
  Answer : List (Option RR)
  deriving DecidableEq, Repr

/-- The method Msg.SetReply on a new message. -/
def SetReply (request : Msg) : Msg :=
  { Id := request.Id, Response := true, Opcode := request.Opcode, Rcode := RcodeSuccess,
    Question := request.Question.take 1, Answer := [] }

/-- The method ServeDefaultDNS: the reply that it writes. -/
def ServeDefaultDNS (req : Msg) : Msg :=
  { SetReply req with Rcode := RcodeRefused }

/-- The body of the loop of ServeDNS: the slot of the answer section for one
answer; no case of the switch writes the slot for another query type. -/
def answerRR (q : Question) (answer : DNSAnswer) : Option RR :=
  let hdr : RR_Header :=
    { Name := q.Name, Rrtype := q.Qtype, Class := ClassINET, Ttl := answer.TTL }
  if q.Qtype = TypeA then some (.A hdr answer.Address.IP)
  else if q.Qtype = TypeAAAA then some (.AAAA hdr answer.Address.IP)
  else if q.Qtype = TypeCNAME then some (.CNAME hdr answer.Address.Host)
  else none

/-- The method ServeDNS: the reply that it writes and the manager afterwards
(the strategy that handled the query is updated in place). Reading the first
question of a request without questions faults. -/
def RebindManager.ServeDNS (m : RebindManager) (req : Msg) : Option (Msg × RebindManager) :=
  match req.Question with
  | [] => none
  | q :: _ =>
    match SubdomainRegex.FindStringSubmatch q.Name with
    | [_, cap] =>
      match uuidFromString cap with
      | none => some (ServeDefaultDNS req, m)
      | some u =>
        match mapGet u m.Rebinds with
        | none => some (ServeDefaultDNS req, m)
        | some rebind =>
          let (answers, rebind1) := rebind.HandleDNS q.Qtype
          some ({ SetReply req with Answer := answers.map (answerRR q) },
            { m with Rebinds := mapSet u rebind1 m.Rebinds })
    | _ => some (ServeDefaultDNS req, m)

/-! ## Contexts and goroutines -/

/-- The cancellation of a context: its Done channel is closed. -/
def RebindManager.cancel (m : RebindManager) (ctx : Ctx) : RebindManager :=
  { m with cancelled := ctx :: m.cancelled }

/-- The i-th blocked goroutine runs, if its event has happened (else nothing
changes). A release cuts the lease; WG.Done decrements the counter, faults on a
counter of zero and releases the waiter at zero; the teardown stops the server
and deletes its key from the registry, and faults in WG.Wait when the counter
was raised again after the release. -/
def RebindManager.runGoroutine (m : RebindManager) (i : Nat) : Option RebindManager :=
  match m.goroutines.get? i with
  | none => some m
  | some (.releaseLease ctx key) =>
    if ctx ∈ m.cancelled then
      some { m with pool := m.pool.release ctx key, goroutines := m.goroutines.eraseIdx i }
    else some m
  | some (.wgDone ctx ptr) =>
    if ctx ∈ m.cancelled then
      match m.heap.get? ptr with
      | none => none
      | some st =>
        if st.WG = 0 then none
        else some { m with
          heap := m.heap.set ptr { st with WG := st.WG - 1, released := st.released || st.WG = 1 }
          goroutines := m.goroutines.eraseIdx i }
    else some m
  | some (.teardown ptr key) =>
    match m.heap.get? ptr with
    | none => none
    | some st =>
      if st.released then
        if st.WG ≠ 0 then none
        else some { m with
          heap := m.heap.set ptr { st with stopped := true }
          HTTPServers := mapDelete key m.HTTPServers
          goroutines := m.goroutines.eraseIdx i }
      else some m

/-- What can happen to a manager: a host request, a DNS query, the cancellation
of a context, the run of a blocked goroutine. -/
inductive Event where
  | makeOffer (ctx : Ctx) (req : WebSocketHostRequest)
  | serveDNS (req : Msg)
  | cancel (ctx : Ctx)
  | goroutine (i : Nat)
  deriving DecidableEq, Repr

/-- One event on the manager; none is a fault. -/
def RebindManager.step (o : Oracle) (m : RebindManager) : Event → Option RebindManager
  | .makeOffer ctx req => (m.MakeOffer o ctx req).map Prod.snd
  | .serveDNS req => (m.ServeDNS req).map Prod.snd
  | .cancel ctx => some (m.cancel ctx)
  | .goroutine i => m.runGoroutine i

/-- A sequence of events, in order. -/
def RebindManager.run (o : Oracle) : RebindManager → List Event → Option RebindManager
  | m, [] => some m
  | m, e :: es =>
    match m.step o e with
    | none => none
    | some m1 => RebindManager.run o m1 es

/-! ## Strategies over sequences of queries -/

/-- The address-record type of the family of an address: AAAA when the address
has no 4-byte form, A otherwise. -/
def familyQType (a : Address) : Nat := if a.IP.To4 = [] then TypeAAAA else TypeA

/-- The listener that a strategy prepared for the family of its victim. -/
def familyServer (target : Address) (v4Server v6Server : Option HTTPServer) : Option HTTPServer :=
  if target.IP.To4 = [] then v6Server else v4Server

/-- A sequence of calls of TTLRebind.HandleDNS: the answers of each call, in
order, and the strategy afterwards. -/
def TTLRebind.handleAll : TTLRebind → List Nat → List (List DNSAnswer) × TTLRebind
  | r, [] => ([], r)
  | r, q :: qs =>
    ((r.HandleDNS q).1 :: ((r.HandleDNS q).2.handleAll qs).1, ((r.HandleDNS q).2.handleAll qs).2)

/-- A sequence of calls of ThresholdRebind.HandleDNS. -/
def ThresholdRebind.handleAll :
    ThresholdRebind → List Nat → List (List DNSAnswer) × ThresholdRebind
  | r, [] => ([], r)
  | r, q :: qs =>
    ((r.HandleDNS q).1 :: ((r.HandleDNS q).2.handleAll qs).1, ((r.HandleDNS q).2.handleAll qs).2)

/-- An IPv4 address in the 16-byte form that net.ParseIP returns. -/
def exIPv4 (a b c d : Nat) : IP := [0, 0, 0, 0, 0, 0, 0, 0, 0, 0, 255, 255, a, b, c, d]

/-- The pool entry 10.0.0.1:80. -/
def exPoolAddr : Address :=
  { Port := "80", Host := "10.0.0.1", InternalIP := exIPv4 10 0 0 1, ExternalIP := exIPv4 10 0 0 1 }

/-- The victim 203.0.113.5:8080. -/
def exVictim : Address :=
  { Port := "8080", Host := "203.0.113.5", InternalIP := exIPv4 203 0 113 5,
    ExternalIP := exIPv4 203 0 113 5 }

/-- An oracle: some random draws, and ids that differ in their first byte. -/
def exOracle : Oracle :=
  { Intn := fun k => 7 * k + 3
    NewV4 := fun k => [k % 256, 1, 2, 3, 4, 5, 0x40, 7, 0x80, 9, 10, 11, 12, 13, 14, 15] }

/-- A manager with base r.test over the pool of the one entry. -/
def exManager : RebindManager := NewRebindManager "r.test" [exPoolAddr]

/-- The TTLRebind with TTL 1 that NewTTLRebind builds for the victim on the
manager. -/
def exTTL : TTLRebind :=
  { target := exVictim, ttl := 1, rebind := false,
    v4Server := some { ptr := 0, Address := { exPoolAddr with Port := "8080" } },
    v6Server := none }

/-- The manager after that call of NewTTLRebind. -/
def exManagerTTL : RebindManager :=
  ((NewTTLRebind exOracle 1 exManager exVictim 1).map Prod.snd).getD exManager

/-- The ThresholdRebind with threshold 2 and TTL 2 that NewThresholdRebind
builds for the victim on the manager. -/
def exThreshold : ThresholdRebind :=
  { target := exVictim, threshold := 2, ttl := 2,
    v4Server := some { ptr := 0, Address := { exPoolAddr with Port := "8080" } },
    v6Server := none }

/-- The manager after that call of NewThresholdRebind. -/
def exManagerThreshold : RebindManager :=
  ((NewThresholdRebind exOracle 1 exManager exVictim 2 2).map Prod.snd).getD exManager

/-! ## The leading label of a DNS name, in the words of the specification -/

/-- The name begins with a label of the canonical lowercase 8-4-4-4-12 hex form
followed by a dot: label is five groups of 8, 4, 4, 4 and 12 characters of
0-9 and a-f, joined by dashes, and the name is the label, a dot and a rest. -/
def BeginsWithUUIDLabel (name label : String) : Prop :=
  ∃ g1 g2 g3 g4 g5 rest : List Char,
    g1.length = 8 ∧ g2.length = 4 ∧ g3.length = 4 ∧ g4.length = 4 ∧ g5.length = 12 ∧
    (∀ c ∈ g1 ++ g2 ++ g3 ++ g4 ++ g5, c ∈ "0123456789abcdef".toList) ∧
    label.toList = g1 ++ '-' :: g2 ++ '-' :: g3 ++ '-' :: g4 ++ '-' :: g5 ∧
    name.toList = label.toList ++ '.' :: rest

/-- The host request for the victim. -/
def exHostRequest : WebSocketHostRequest := { Host := some exVictim }

/-- The manager after MakeOffer has served the host request under context 1. -/
def exManagerOffers : RebindManager :=
  ((exManager.MakeOffer exOracle 1 exHostRequest).map Prod.snd).getD exManager

/-- A DNS query with one question. -/
def exQuery (name : String) (qType : Nat) : Msg :=
  { Id := 7, Response := false, Opcode := 0, Rcode := 0,
    Question := [{ Name := name, Qtype := qType, Qclass := ClassINET }], Answer := [] }

/-- The name is the text of a UUID under which Rebinds holds a strategy,
followed by a dot and a rest. -/
def RegisteredName (m : RebindManager) (name : String) : Prop :=
  ∃ (u : UUID) (rest : String) (rebind : RebindMethod),
    u.length = 16 ∧ (∀ b ∈ u, b < 256) ∧ name = UUID.String u ++ "." ++ rest ∧
    mapGet u m.Rebinds = some rebind

/-- The first id that the oracle mints. -/
def exID0 : UUID := exOracle.NewV4 0

/-- The reply to the first A query for the first offer. -/
def exReplyA : Msg :=
  { SetReply (exQuery "00010203-0405-4007-8009-0a0b0c0d0e0f.r.test." TypeA) with
    Answer := [some (RR.A ⟨"00010203-0405-4007-8009-0a0b0c0d0e0f.r.test.", TypeA, ClassINET, 1⟩
      (exIPv4 10 0 0 1))] }

/-- The manager after that query. -/
def exManagerServed : RebindManager :=
  ((exManagerOffers.ServeDNS
    (exQuery "00010203-0405-4007-8009-0a0b0c0d0e0f.r.test." TypeA)).map Prod.snd).getD
    exManagerOffers

/-- The pool entry 10.0.0.1:80 after the bind-map 10.0.0.1/198.51.100.7 of
cli.go has set its ExternalIP. -/
def exMappedAddr : Address :=
  { Port := "80", Host := "10.0.0.1", InternalIP := exIPv4 10 0 0 1,
    ExternalIP := exIPv4 198 51 100 7 }

/-- A manager over the pool of the mapped entry. -/
def exManagerMapped : RebindManager := NewRebindManager "r.test" [exMappedAddr]

/-- A criterion holds of a pool entry, in the words of the specification:
AddressFamily when (the InternalIP of the entry has no 4-byte form) == ipv6,
ExternalIPMatch when the ExternalIP of the entry equals that of the address. -/
def CriterionHolds (c : PoolCriteria) (entry : Address) : Prop :=
  match c with
  | .AddressFamily ipv6 => decide (entry.InternalIP.To4 = []) = ipv6
  | .ExternalIPMatch addr => IP.Equal entry.ExternalIP addr.ExternalIP = true

/-- The pool can serve a victim: it has an entry of each family that the
constructors lease for the victim (both for a name, else the family of the
literal IP). -/
def PoolCanServe (p : Pool) (victim : Address) : Prop :=
  (victim.InternalIP = [] ∨ victim.InternalIP.To4 ≠ [] →
    ∃ a ∈ p.addrs, a.InternalIP.To4 ≠ []) ∧
  (victim.InternalIP.To4 = [] → ∃ a ∈ p.addrs, a.InternalIP.To4 = [])

/-- An entry of the menu of the offer engine, in the words of the
specification: TTL(ttl) or Threshold(threshold, ttl). -/
inductive MenuEntry where
  | TTL (ttl : Nat)
  | Threshold (threshold ttl : Nat)
  deriving DecidableEq, Repr

/-- The fixed menu of the specification. -/
def specMenu : List MenuEntry :=
  [.TTL 1, .TTL 2, .TTL 4, .TTL 8, .TTL 16, .Threshold 1 2, .Threshold 2 2, .Threshold 3 4,
   .Threshold 4 4]

/-- A strategy is the one that a menu entry names, fresh, for the victim. -/
def IsMenuStrategy (meth : RebindMethod) (entry : MenuEntry) (victim : Address) : Prop :=
  match meth, entry with
  | .ttl r, .TTL ttl => r.ttl = ttl ∧ r.target = victim ∧ r.rebind = false
  | .threshold r, .Threshold threshold ttl =>
    r.threshold = threshold ∧ r.ttl = ttl ∧ r.target = victim
  | _, _ => False

/-- The menu entry that a constructor call of MakeOffer stands for. -/
def MethodCall.entry : MethodCall → MenuEntry
  | .NewTTLRebind ttl => .TTL ttl
  | .NewThresholdRebind threshold ttl => .Threshold threshold ttl

/-- What the constructors leave alone in the manager. -/
def SameRegistry (m m1 : RebindManager) : Prop :=
  m1.base = m.base ∧ m1.Rebinds = m.Rebinds ∧ m1.minted = m.minted ∧
  m1.pool.addrs = m.pool.addrs

/-- The cancellation of context 1 followed by the run of every goroutine that
the host request left blocked: the first lease release, the other releases and
decrements in turn, and at last the teardown of the listener. -/
def exShutdown : List Event :=
  [.cancel 1, .goroutine 0] ++ List.replicate 17 (.goroutine 1) ++ [.goroutine 0]

/-- The offers that MakeOffer returns for the host request. -/
def exOffers : List RebindOffer :=
  ((exManager.MakeOffer exOracle 1 exHostRequest).map Prod.fst).getD []

/-- The manager after the shutdown of context 1. -/
def exManagerShutdown : RebindManager :=
  (exManagerOffers.run exOracle exShutdown).getD exManager

/-- The IPv6 victim [2001:db8::5]:8080. -/
def exVictim6 : Address :=
  { Port := "8080", Host := "2001:db8::5",
    InternalIP := [0x20, 1, 0xd, 0xb8, 0, 0, 0, 0, 0, 0, 0, 0, 0, 0, 0, 5],
    ExternalIP := [0x20, 1, 0xd, 0xb8, 0, 0, 0, 0, 0, 0, 0, 0, 0, 0, 0, 5] }

/-- The query type TXT of the DNS library. -/
def TypeTXT : Nat := 16

/-- A sequence of calls of RebindMethod.HandleDNS: the strategy afterwards. -/
def RebindMethod.afterAll : RebindMethod → List Nat → RebindMethod
  | meth, [] => meth
  | meth, q :: qs => RebindMethod.afterAll (meth.HandleDNS q).2 qs

/-! ## The lease table in memory: slices, contexts and the two halves of a release -/

/-- A Go slice value: its backing array, by index in the store of arrays, and
its length; the capacity is the size of the array. -/
structure Slice where
  arr : Nat
  len : Nat
  deriving DecidableEq, Repr

/-- A release goroutine of Pool.Lease: blocked on the Done channel of its
context, or past the right-hand side of its assignment to p.leases, which it
has evaluated to a slice, and before the store into the map. The goroutine
holds no lock. -/
inductive Release where
  | blocked (ctx : Ctx) (key : String)
  | storing (key : String) (s : Slice)
  deriving DecidableEq, Repr

/-- The pool as the goroutines see it: the map p.leases holds slice values over
shared backing arrays (a cell past every length holds nil, here none), next to
the contexts that are done and the release goroutines that have not ended. -/
structure PoolRun where
  addrs : List Address
  leases : List (String × Slice)
  arrays : List (List (Option Ctx))
  cancelled : List Ctx
  releases : List Release
  deriving DecidableEq, Repr

/-- The function NewPool on this state: every key holds the empty slice literal,
of length and capacity zero. -/
def NewPoolRun (addrs : List Address) : PoolRun :=
  { addrs := addrs
    leases := addrs.foldl (fun leases addr => mapSet addr.String ⟨0, 0⟩ leases) []
    arrays := [[]], cancelled := [], releases := [] }

/-- Reading the map p.leases: a missing key reads as the nil slice. -/
def PoolRun.sliceOf (r : PoolRun) (key : String) : Slice := (mapGet key r.leases).getD ⟨0, 0⟩

/-- The elements of a slice. -/
def PoolRun.elems (r : PoolRun) (s : Slice) : List (Option Ctx) :=
  (r.arrays.getD s.arr []).take s.len

/-- The pool of the state, with every slice read as the list of its elements. -/
def PoolRun.view (r : PoolRun) : Pool :=
  { addrs := r.addrs
    leases := r.leases.map fun kv => (kv.1, (r.elems kv.2).filterMap id) }

/-- The Go builtin append of one element: in place when the capacity allows,
else into a new array of twice the capacity (of capacity one for an empty
array), as the runtime grows a small slice. -/
def PoolRun.append (r : PoolRun) (s : Slice) (ctx : Ctx) : PoolRun × Slice :=
  if s.len < (r.arrays.getD s.arr []).length then
    ({ r with arrays := r.arrays.set s.arr ((r.arrays.getD s.arr []).set s.len (some ctx)) },
      { s with len := s.len + 1 })
  else
    ({ r with arrays := r.arrays ++
        [(r.arrays.getD s.arr []).take s.len ++ [some ctx] ++
          List.replicate
            ((if (r.arrays.getD s.arr []).length = 0 then 1
              else 2 * (r.arrays.getD s.arr []).length) - (s.len + 1)) none] },
      { arr := r.arrays.length, len := s.len + 1 })

/-- The method Pool.Lease on this state, under the mutex: the address is chosen
as Pool.Lease chooses it, the context is appended to its slice, and the release
goroutine starts. -/
def PoolRun.Lease (r : PoolRun) (ctx : Ctx) (criteriaList : List PoolCriteria) (rnd : Nat) :
    Option (Address × PoolRun) :=
  match r.view.Lease ctx criteriaList rnd with
  | none => none
  | some (addr, _, _) =>
    some (addr,
      { (r.append (r.sliceOf addr.String) ctx).1 with
        leases := mapSet addr.String (r.append (r.sliceOf addr.String) ctx).2 r.leases
        releases := r.releases ++ [.blocked ctx addr.String] })

/-- The first half of the i-th release goroutine, once its context is done: the
loop finds the first index idx whose element is the context, and the right-hand
side append(p.leases[key][:idx], p.leases[key][idx+1:]...) is evaluated, which
moves the elements after idx down by one cell inside the backing array and
gives a slice that is one shorter. Without a match the goroutine ends. -/
def PoolRun.load (r : PoolRun) (i : Nat) : PoolRun :=
  match r.releases.get? i with
  | some (.blocked ctx key) =>
    if ctx ∈ r.cancelled then
      match (r.elems (r.sliceOf key)).indexOf? (some ctx) with
      | none => { r with releases := r.releases.eraseIdx i }
      | some idx =>
        { r with
          arrays := r.arrays.set (r.sliceOf key).arr
            ((r.arrays.getD (r.sliceOf key).arr []).take idx ++
              ((r.arrays.getD (r.sliceOf key).arr []).take (r.sliceOf key).len).drop (idx + 1) ++
              (r.arrays.getD (r.sliceOf key).arr []).drop ((r.sliceOf key).len - 1))
          releases := r.releases.set i
            (.storing key ⟨(r.sliceOf key).arr, (r.sliceOf key).len - 1⟩) }
    else r
  | _ => r

/-- The second half of the i-th release goroutine: the store of the slice into
p.leases[key], after which the goroutine ends. -/
def PoolRun.store (r : PoolRun) (i : Nat) : PoolRun :=
  match r.releases.get? i with
  | some (.storing key s) =>
    { r with leases := mapSet key s r.leases, releases := r.releases.eraseIdx i }
  | _ => r

/-- What happens to the pool: a call of Pool.Lease, the cancellation of a
context, and the two halves of a release goroutine. -/
inductive PoolEvent where
  | lease (ctx : Ctx) (criteriaList : List PoolCriteria) (rnd : Nat)
  | cancel (ctx : Ctx)
  | load (i : Nat)
  | store (i : Nat)
  deriving DecidableEq, Repr

/-- One event on the pool; none is the fault of a lease without eligible
entry. -/
def PoolRun.step (r : PoolRun) : PoolEvent → Option PoolRun
  | .lease ctx criteriaList rnd => (r.Lease ctx criteriaList rnd).map Prod.snd
  | .cancel ctx => some { r with cancelled := ctx :: r.cancelled }
  | .load i => some (r.load i)
  | .store i => some (r.store i)

/-- A sequence of events on the pool, in order. -/
def PoolRun.run : PoolRun → List PoolEvent → Option PoolRun
  | r, [] => some r
  | r, e :: es =>
    match r.step e with
    | none => none
    | some r1 => PoolRun.run r1 es

/-- The nine leases that MakeOffer takes for an IPv4 victim under the context
1, with the random draws of the oracle. -/
def exNineLeases : List PoolEvent :=
  (List.range 9).map fun k => .lease 1 [.AddressFamily false] (exOracle.Intn k)

/-- The pool of the one entry after the nine leases. -/
def exPoolLeased : PoolRun :=
  ((NewPoolRun [exPoolAddr]).run exNineLeases).getD (NewPoolRun [])

/-- The context is cancelled and the nine release goroutines run one after the
other, each to its end. -/
def exReleasesInTurn : List PoolEvent :=
  .cancel 1 :: (List.replicate 9 [PoolEvent.load 0, PoolEvent.store 0]).flatten

/-- The context is cancelled, the nine release goroutines all evaluate their
right-hand side, and then they all store. -/
def exReleasesTogether : List PoolEvent :=
  .cancel 1 :: ((List.range 9).map PoolEvent.load ++ List.replicate 9 (PoolEvent.store 0))

/-- Two scopes, 1 and 2, lease the one entry; both are cancelled, both release
goroutines evaluate their right-hand side, and then both store. -/
def exTwoScopes : List PoolEvent :=
  [.lease 1 [.AddressFamily false] 0, .lease 2 [.AddressFamily false] 0, .cancel 1, .cancel 2,
   .load 0, .load 1, .store 0, .store 0]

/-! ## Sequences of listener acquisitions -/

/-- A sequence of calls of GetHTTPServer, one after the other; a call is the
context, the pool choice and the victim. -/
def RebindManager.acquireAll : RebindManager → List (Ctx × Address × Address) → RebindManager
  | m, [] => m
  | m, call :: calls =>
    RebindManager.acquireAll (m.GetHTTPServer call.1 call.2.1 call.2.2).2 calls

/-- No two listeners of the registry have Equal addresses. -/
def ListenersDistinct (m : RebindManager) : Prop :=
  m.HTTPServers.Pairwise fun e1 e2 => e1.2.Address.Equal e2.2.Address = false

/-- Every listener of the registry is an object of the heap. -/
def ListenersInHeap (m : RebindManager) : Prop :=
  ∀ e ∈ m.HTTPServers, e.2.ptr < m.heap.length

/-! ## The Go library: net.SplitHostPort and net.ParseIP

Strings are read as their lists of characters; the inputs of interest are
ASCII, where a character is a byte. -/

/-- The Go helper last: the index of the last occurrence, none for -1. -/
def lastIndex (c : Char) : List Char → Option Nat
  | [] => none
  | x :: xs =>
    match lastIndex c xs with
    | some i => some (i + 1)
    | none => if x = c then some 0 else none

/-- The Go helper byteIndex: the index of the first occurrence, none for -1. -/
def byteIndex (c : Char) : List Char → Option Nat
  | [] => none
  | x :: xs => if x = c then some 0 else (byteIndex c xs).map (· + 1)

/-- The error texts of net.SplitHostPort that a missing port and a surplus
colon give. -/
def missingPort : String := "missing port in address"
def tooManyColons : String := "too many colons in address"

/-- The Go function net.SplitHostPort; an error is the text of its AddrError.
The refusal of a percent sign in a host without brackets, which the library
made until it accepted zones there, is switched by zoneCheck. -/
def SplitHostPort (zoneCheck : Bool) (hostport : List Char) :
    Except String (List Char × List Char) :=
  match lastIndex ':' hostport with
  | none => .error missingPort
  | some i =>
    if hostport.head? = some '[' then
      match byteIndex ']' hostport with
      | none => .error "missing ']' in address"
      | some e =>
        if e + 1 = hostport.length then .error missingPort
        else if e + 1 = i then
          if (byteIndex '[' (hostport.drop 1)).isSome then .error "unexpected '[' in address"
          else if (byteIndex ']' (hostport.drop (e + 1))).isSome then
            .error "unexpected ']' in address"
          else .ok ((hostport.take e).drop 1, hostport.drop (i + 1))
        else if hostport.get? (e + 1) = some ':' then .error tooManyColons
        else .error missingPort
    else
      if (byteIndex ':' (hostport.take i)).isSome then .error tooManyColons
      else if zoneCheck && (byteIndex '%' (hostport.take i)).isSome then
        .error "missing brackets in address"
      else if (byteIndex '[' hostport).isSome then .error "unexpected '[' in address"
      else if (byteIndex ']' hostport).isSome then .error "unexpected ']' in address"
      else .ok (hostport.take i, hostport.drop (i + 1))

/-- The Go constant big of the number readers. -/
def big : Nat := 0xFFFFFF

/-- The loop of the Go function dtoi: the number read so far and the count of
characters consumed. -/
def dtoiLoop : List Char → Nat → Nat → Nat × Nat × Bool
  | [], n, i => if i = 0 then (0, 0, false) else (n, i, true)
  | c :: cs, n, i =>
    if '0' ≤ c ∧ c ≤ '9' then
      if n * 10 + (c.toNat - '0'.toNat) ≥ big then (big, i, false)
      else dtoiLoop cs (n * 10 + (c.toNat - '0'.toNat)) (i + 1)
    else if i = 0 then (0, 0, false) else (n, i, true)

/-- The Go function dtoi: number, characters consumed, success. -/
def dtoi (s : List Char) : Nat × Nat × Bool := dtoiLoop s 0 0

/-- The loop of the Go function xtoi. -/
def xtoiLoop : List Char → Nat → Nat → Nat × Nat × Bool
  | [], n, i => if i = 0 then (0, i, false) else (n, i, true)
  | c :: cs, n, i =>
    if '0' ≤ c ∧ c ≤ '9' then
      if n * 16 + (c.toNat - '0'.toNat) ≥ big then (0, i, false)
      else xtoiLoop cs (n * 16 + (c.toNat - '0'.toNat)) (i + 1)
    else if 'a' ≤ c ∧ c ≤ 'f' then
      if n * 16 + (c.toNat - 'a'.toNat + 10) ≥ big then (0, i, false)
      else xtoiLoop cs (n * 16 + (c.toNat - 'a'.toNat + 10)) (i + 1)
    else if 'A' ≤ c ∧ c ≤ 'F' then
      if n * 16 + (c.toNat - 'A'.toNat + 10) ≥ big then (0, i, false)
      else xtoiLoop cs (n * 16 + (c.toNat - 'A'.toNat + 10)) (i + 1)
    else if i = 0 then (0, i, false) else (n, i, true)

/-- The Go function xtoi: number, characters consumed, success. -/
def xtoi (s : List Char) : Nat × Nat × Bool := xtoiLoop s 0 0

/-- The loop of the Go function parseIPv4 over the octets that are left: the
octets read and the rest of the text, none for the nil result. -/
def parseIPv4Octets : Nat → Nat → List Char → Option (List Nat × List Char)
  | 0, _, s => some ([], s)
  | k + 1, i, s =>
    if s = [] then none
    else if i > 0 ∧ s.head? ≠ some '.' then none
    else
      let s1 := if i > 0 then s.tail else s
      if !(dtoi s1).2.2 || (dtoi s1).1 > 0xFF then none
      else
        match parseIPv4Octets k (i + 1) (s1.drop (dtoi s1).2.1) with
        | none => none
        | some (p, rest) => some ((dtoi s1).1 :: p, rest)

/-- The Go function parseIPv4: the 16-byte form of the address, or nil. -/
def parseIPv4 (s : List Char) : IP :=
  match parseIPv4Octets 4 0 s with
  | some (p, []) => v4InV6Pfx ++ p
  | _ => []

/-- The main loop of the Go function parseIPv6, on the address under
construction, the position of the ellipsis (none for -1), the byte index and the
text that is left; none is the nil result. -/
def parseIPv6Loop : Nat → List Nat → Option Nat → Nat → List Char →
    Option (List Nat × Option Nat × Nat × List Char)
  | 0, ip, ellipsis, i, s => some (ip, ellipsis, i, s)
  | fuel + 1, ip, ellipsis, i, s =>
    if ¬ i < 16 then some (ip, ellipsis, i, s)
    else if !(xtoi s).2.2 || (xtoi s).1 > 0xFFFF then none
    else if (xtoi s).2.1 < s.length ∧ s.get? (xtoi s).2.1 = some '.' then
      if ellipsis.isNone ∧ i ≠ 12 then none
      else if i + 4 > 16 then none
      else if parseIPv4 s = [] then none
      else
        some ((((ip.set i ((parseIPv4 s).getD 12 0)).set (i + 1) ((parseIPv4 s).getD 13 0)).set
          (i + 2) ((parseIPv4 s).getD 14 0)).set (i + 3) ((parseIPv4 s).getD 15 0),
          ellipsis, i + 4, [])
    else
      let ip1 := (ip.set i ((xtoi s).1 / 256 % 256)).set (i + 1) ((xtoi s).1 % 256)
      let s1 := s.drop (xtoi s).2.1
      if s1 = [] then some (ip1, ellipsis, i + 2, s1)
      else if s1.head? ≠ some ':' ∨ s1.length = 1 then none
      else if s1.tail.head? = some ':' then
        if ellipsis.isSome then none
        else if s1.tail.tail = [] then some (ip1, some (i + 2), i + 2, [])
        else parseIPv6Loop fuel ip1 (some (i + 2)) (i + 2) s1.tail.tail
      else parseIPv6Loop fuel ip1 ellipsis (i + 2) s1.tail

/-- The first loop that expands the ellipsis: ip[j+n] = ip[j] for j from
e + count - 1 down to e. -/
def shiftUp (n e : Nat) : Nat → List Nat → List Nat
  | 0, ip => ip
  | k + 1, ip => shiftUp n e k (ip.set (e + k + n) (ip.getD (e + k) 0))

/-- The second loop that expands the ellipsis: ip[j] = 0 for j from
e + count - 1 down to e. -/
def zeroFill (e : Nat) : Nat → List Nat → List Nat
  | 0, ip => ip
  | k + 1, ip => zeroFill e k (ip.set (e + k) 0)

/-- The Go function parseIPv6 without zone. -/
def parseIPv6 (s : List Char) : IP :=
  let lead : Bool := decide (s.length ≥ 2) && decide (s.get? 0 = some ':') &&
    decide (s.get? 1 = some ':')
  if lead ∧ s.drop 2 = [] then List.replicate 16 0
  else
    match parseIPv6Loop 16 (List.replicate 16 0) (if lead then some 0 else none) 0
        (if lead then s.drop 2 else s) with
    | none => []
    | some (ip, ellipsis, i, rest) =>
      if rest ≠ [] then []
      else if i < 16 then
        match ellipsis with
        | none => []
        | some e => zeroFill e (16 - i) (shiftUp (16 - i) e (i - e) ip)
      else if ellipsis.isSome then []
      else ip

/-- The Go function net.ParseIP: the first dot or colon of the text decides
between the two readers. The readers are those of the library at the time of
the sources: an octet may start with zeros, and a zone is not read. -/
def ParseIP (s : List Char) : IP :=
  match s.find? (fun c => c = '.' || c = ':') with
  | none => []
  | some c => if c = '.' then parseIPv4 s else parseIPv6 s

/-! ## address.go: NewAddress and the formatters -/

/-- The end of NewAddress: the Address of a host and a port, with the address
that the host parses to, if any, in both IP fields. -/
def Address.ofHostPort (host port : List Char) : Address :=
  { Port := String.mk port, Host := String.mk host,
    InternalIP := ParseIP host, ExternalIP := ParseIP host }

/-- The function NewAddress; none is the nil result. After the second call of
SplitHostPort the error is not read, and host and port are then the empty
strings that the failed call returned. -/
def NewAddress (zoneCheck : Bool) (rawAddr : String) : Option Address :=
  match SplitHostPort zoneCheck rawAddr.toList with
  | .ok (host, port) => some (Address.ofHostPort host port)
  | .error err =>
    if err = missingPort then
      match SplitHostPort zoneCheck (rawAddr ++ ":80").toList with
      | .ok (host, port) => some (Address.ofHostPort host port)
      | .error _ => some (Address.ofHostPort [] [])
    else none

/-- The Go type string, under a name that the methods of Address can use next
to the method String. -/
abbrev GoString : Type := String

/-- The method Address.InternalAddr. -/
def Address.InternalAddr (a : Address) : GoString :=
  if IP.To4 a.InternalIP = [] then "[" ++ a.InternalIP.String ++ "]:" ++ a.Port
  else a.InternalIP.String ++ ":" ++ a.Port

/-- The method Address.ExternalAddr. -/
def Address.ExternalAddr (a : Address) : GoString :=
  if IP.To4 a.ExternalIP = [] then "[" ++ a.ExternalIP.String ++ "]:" ++ a.Port
  else a.ExternalIP.String ++ ":" ++ a.Port

/-- The method Address.UnmarshalJSON on the payload b: the receiver after the
call and the error it returns, which is always nil; none is a fault, of the
slice expression b[1 : len(b)-1] on a payload shorter than two bytes and of the
field reads on the nil result of NewAddress. -/
def Address.UnmarshalJSON (zoneCheck : Bool) (_a : Address) (b : List Char) :
    Option (Address × Option GoString) :=
  if b.length < 2 then none
  else
    match NewAddress zoneCheck (String.mk ((b.take (b.length - 1)).drop 1)) with
    | none => none
    | some addr =>
      some ({ Port := addr.Port, Host := addr.Host, InternalIP := addr.InternalIP,
              ExternalIP := addr.ExternalIP }, none)

/-- The JSON string literal of a text without escapes: the text between two
double quotes. -/
def quoted (s : String) : List Char := Char.ofNat 34 :: s.toList ++ [Char.ofNat 34]

/-- The Address that NewAddress returns for the bracketed IPv6 literal
2001:db8::5 without a port. -/
def exParsed6 : Address :=
  { Port := "80", Host := "2001:db8::5",
    InternalIP := [0x20, 0x01, 0x0d, 0xb8, 0, 0, 0, 0, 0, 0, 0, 0, 0, 0, 0, 5],
    ExternalIP := [0x20, 0x01, 0x0d, 0xb8, 0, 0, 0, 0, 0, 0, 0, 0, 0, 0, 0, 5] }

/-! ## The life of a listener: acquisitions and cancellations -/

/-- Whether the event that a blocked goroutine waits for has happened: the
context is done, or the WaitGroup has released its waiter. -/
def Goroutine.ready (m : RebindManager) : Goroutine → Bool
  | .releaseLease ctx _ => decide (ctx ∈ m.cancelled)
  | .wgDone ctx _ => decide (ctx ∈ m.cancelled)
  | .teardown ptr _ =>
    match m.heap.get? ptr with
    | some st => st.released
    | none => true

/-- The index of the first goroutine of the list whose event has happened, the
list starting at index i. -/
def firstReady (m : RebindManager) : List Goroutine → Nat → Option Nat
  | [], _ => none
  | g :: gs, i => if g.ready m then some i else firstReady m gs (i + 1)

/-- The goroutines whose event has happened run, one after the other, until
none is left; none is a fault. -/
def RebindManager.settleLoop : Nat → RebindManager → Option RebindManager
  | 0, m => some m
  | fuel + 1, m =>
    match firstReady m m.goroutines 0 with
    | none => some m
    | some i =>
      match m.runGoroutine i with
      | none => none
      | some m1 => RebindManager.settleLoop fuel m1

/-- The manager once every goroutine whose event has happened has run: a
goroutine that runs leaves the list, so the length of the list bounds the
rounds. -/
def RebindManager.settle (m : RebindManager) : Option RebindManager :=
  m.settleLoop m.goroutines.length

/-- What happens to the listeners: a scope acquires the listener for a pool
choice and a victim, or a scope is cancelled. -/
inductive ListenerEvent where
  | acquire (ctx : Ctx) (poolChoice victim : Address)
  | cancelScope (ctx : Ctx)
  deriving DecidableEq, Repr

/-- One event on the manager, followed by the run of the goroutines that it
wakes; the log records every acquisition with the listener it returned. -/
def listenerStep (s : RebindManager × List (Ctx × HTTPServer)) :
    ListenerEvent → Option (RebindManager × List (Ctx × HTTPServer))
  | .acquire ctx poolChoice victim =>
    ((s.1.GetHTTPServer ctx poolChoice victim).2.settle).map fun m1 =>
      (m1, s.2 ++ [(ctx, (s.1.GetHTTPServer ctx poolChoice victim).1)])
  | .cancelScope ctx => ((s.1.cancel ctx).settle).map fun m1 => (m1, s.2)

/-- A sequence of listener events, in order. -/
def listenerRun : RebindManager × List (Ctx × HTTPServer) → List ListenerEvent →
    Option (RebindManager × List (Ctx × HTTPServer))
  | s, [] => some s
  | s, e :: es =>
    match listenerStep s e with
    | none => none
    | some s1 => listenerRun s1 es

/-- The scopes of the logged acquisitions of the listener ptr that are not
cancelled, one entry for each acquisition. -/
def liveLog (ptr : Nat) (cancelled : List Ctx) (log : List (Ctx × HTTPServer)) : List Ctx :=
  log.filterMap fun e => if e.2.ptr = ptr ∧ e.1 ∉ cancelled then some e.1 else none

/-- The number of acquisitions of the listener ptr whose scope is not
cancelled. -/
def liveAcquisitions (ptr : Nat) (cancelled : List Ctx) (log : List (Ctx × HTTPServer)) : Nat :=
  (liveLog ptr cancelled log).length

/-- The number of scopes that acquired the listener ptr and are not cancelled. -/
def liveScopes (ptr : Nat) (cancelled : List Ctx) (log : List (Ctx × HTTPServer)) : Nat :=
  (liveLog ptr cancelled log).dedup.length

/-- The scope of a pending decrement of the listener ptr. -/
def doneOf (ptr : Nat) : Goroutine → Option Ctx
  | .wgDone ctx p => if p = ptr then some ctx else none
  | _ => none

/-- The scope of a pending decrement of the listener ptr whose scope is not
cancelled. -/
def liveDoneOf (ptr : Nat) (cancelled : List Ctx) : Goroutine → Option Ctx
  | .wgDone ctx p => if p = ptr ∧ ctx ∉ cancelled then some ctx else none
  | _ => none

/-- The registry key of a pending teardown of the listener ptr. -/
def teardownOf (ptr : Nat) : Goroutine → Option String
  | .teardown p key => if p = ptr then some key else none
  | _ => none

/-- The goroutine belongs to a listener of a heap of n objects. -/
def Goroutine.inHeap (n : Nat) : Goroutine → Prop
  | .releaseLease _ _ => False
  | .wgDone _ p => p < n
  | .teardown p _ => p < n

/-- The bind addresses of the acquisitions of a sequence of events. -/
def bindAddrs : List ListenerEvent → List Address
  | [] => []
  | .acquire _ poolChoice victim :: es =>
    { poolChoice with Port := victim.Port } :: bindAddrs es
  | .cancelScope _ :: es => bindAddrs es

/-- The registry key tells the bind addresses apart: two addresses of the list
with the same string are Equal. -/
def KeysFaithful (binds : List Address) : Prop :=
  ∀ a ∈ binds, ∀ b ∈ binds, a.String = b.String → a.Equal b = true

instance (binds : List Address) : Decidable (KeysFaithful binds) := by
  unfold KeysFaithful
  infer_instance

/-- No goroutine of the manager can run. -/
def Quiescent (m : RebindManager) : Prop :=
  ∀ g ∈ m.goroutines, g.ready m = false

/-- The bookkeeping that ties the heap, the goroutines, the registry and the
log of acquisitions together. -/
structure ListenerInv (binds : List Address) (m : RebindManager)
    (log : List (Ctx × HTTPServer)) : Prop where
  ptrs : ∀ g ∈ m.goroutines, g.inHeap m.heap.length
  count : ∀ p st, m.heap.get? p = some st →
    st.WG = (m.goroutines.filterMap (doneOf p)).length
  released : ∀ p st, m.heap.get? p = some st → (st.released = true ↔ st.WG = 0)
  stopped : ∀ p st, m.heap.get? p = some st → st.stopped = true → st.released = true
  teardowns : ∀ p st, m.heap.get? p = some st →
    (m.goroutines.filterMap (teardownOf p)).length = if st.stopped then 0 else 1
  registry : ∀ p k, k ∈ m.goroutines.filterMap (teardownOf p) ↔
    ∃ srv, (k, srv) ∈ m.HTTPServers ∧ srv.ptr = p
  keys : ∀ k s1 s2, (k, s1) ∈ m.HTTPServers → (k, s2) ∈ m.HTTPServers → s1 = s2
  keyOf : ∀ e ∈ m.HTTPServers, e.1 = e.2.Address.String ∧ e.2.Address ∈ binds
  history : ∀ p, liveLog p m.cancelled log = m.goroutines.filterMap (liveDoneOf p m.cancelled)
  logged : ∀ e ∈ log, e.2.ptr < m.heap.length

/-- Two scopes, 1 and 2, acquire the listener of the pool entry for the
victim, scope 1 twice; then scope 1 is cancelled. -/
def exListenerEvents : List ListenerEvent :=
  [.acquire 1 exPoolAddr exVictim, .acquire 1 exPoolAddr exVictim,
   .acquire 2 exPoolAddr exVictim, .cancelScope 1]

/-- The scopes that a sequence of events cancels, in order. -/
def cancelledScopes : List ListenerEvent → List Ctx
  | [] => []
  | .acquire _ _ _ :: es => cancelledScopes es
  | .cancelScope ctx :: es => ctx :: cancelledScopes es

/-- The scopes of the acquisitions of a sequence of events, in order. -/
def acquiringScopes : List ListenerEvent → List Ctx
  | [] => []
  | .acquire ctx _ _ :: es => ctx :: acquiringScopes es
  | .cancelScope _ :: es => acquiringScopes es

/-- The manager and the log after scope 1 has acquired the listener of the
pool entry for the victim twice. -/
def exListenerTwice : RebindManager × List (Ctx × HTTPServer) :=
  (listenerRun (exManager, [])
    [.acquire 1 exPoolAddr exVictim, .acquire 1 exPoolAddr exVictim]).getD (exManager, [])

/-! # Properties -/

theorem IP.To4_nil : IP.To4 [] = [] := by decide

theorem NewTTLRebind_fresh {o : Oracle} {ctx : Ctx} {m m1 : RebindManager} {target : Address}
    {ttl : Nat} {r : TTLRebind} (h : NewTTLRebind o ctx m target ttl = some (r, m1)) :
    r.target = target ∧ r.ttl = ttl ∧ r.rebind = false ∧
    (target.IP = [] → r.v4Server.isSome ∧ r.v6Server.isSome) ∧
    (target.IP ≠ [] → target.IP.To4 = [] → r.v4Server = none ∧ r.v6Server.isSome) ∧
    (target.IP.To4 ≠ [] → r.v4Server.isSome ∧ r.v6Server = none) := by
  unfold NewTTLRebind at h
  by_cases h1 : target.IP = []
  · have h2 : target.IP.To4 = [] := by rw [h1]; exact IP.To4_nil
    simp only [h1, if_true] at h
    cases h4 : m.leaseServer o ctx false target with
    | none => simp [h4] at h
    | some p4 =>
      obtain ⟨s4, m4⟩ := p4
      simp only [h4] at h
      cases h6 : m4.leaseServer o ctx true target with
      | none => simp [h6] at h
      | some p6 =>
        obtain ⟨s6, m6⟩ := p6
        simp only [h6, Option.some.injEq, Prod.mk.injEq] at h
        obtain ⟨rfl, -⟩ := h
        simp [h1, IP.To4_nil]
  · simp only [h1, if_false] at h
    by_cases h2 : target.IP.To4 = []
    · simp only [h2, if_true] at h
      cases h6 : m.leaseServer o ctx true target with
      | none => simp [h6] at h
      | some p6 =>
        obtain ⟨s6, m6⟩ := p6
        simp only [h6, Option.some.injEq, Prod.mk.injEq] at h
        obtain ⟨rfl, -⟩ := h
        simp [h1, h2]
    · simp only [h2, if_false] at h
      cases h4 : m.leaseServer o ctx false target with
      | none => simp [h4] at h
      | some p4 =>
        obtain ⟨s4, m4⟩ := p4
        simp only [h4, Option.some.injEq, Prod.mk.injEq] at h
        obtain ⟨rfl, -⟩ := h
        simp [h1, h2]

theorem NewThresholdRebind_fresh {o : Oracle} {ctx : Ctx} {m m1 : RebindManager}
    {target : Address} {threshold ttl : Nat} {r : ThresholdRebind}
    (h : NewThresholdRebind o ctx m target threshold ttl = some (r, m1)) :
    r.target = target ∧ r.ttl = ttl ∧ r.threshold = threshold ∧
    (target.IP = [] → r.v4Server.isSome ∧ r.v6Server.isSome) ∧
    (target.IP ≠ [] → target.IP.To4 = [] → r.v4Server = none ∧ r.v6Server.isSome) ∧
    (target.IP.To4 ≠ [] → r.v4Server.isSome ∧ r.v6Server = none) := by
  unfold NewThresholdRebind at h
  by_cases h1 : target.IP = []
  · simp only [h1, if_true] at h
    cases h4 : m.leaseServer o ctx false target with
    | none => simp [h4] at h
    | some p4 =>
      obtain ⟨s4, m4⟩ := p4
      simp only [h4] at h
      cases h6 : m4.leaseServer o ctx true target with
      | none => simp [h6] at h
      | some p6 =>
        obtain ⟨s6, m6⟩ := p6
        simp only [h6, Option.some.injEq, Prod.mk.injEq] at h
        obtain ⟨rfl, -⟩ := h
        simp [h1, IP.To4_nil]
  · simp only [h1, if_false] at h
    by_cases h2 : target.IP.To4 = []
    · simp only [h2, if_true] at h
      cases h6 : m.leaseServer o ctx true target with
      | none => simp [h6] at h
      | some p6 =>
        obtain ⟨s6, m6⟩ := p6
        simp only [h6, Option.some.injEq, Prod.mk.injEq] at h
        obtain ⟨rfl, -⟩ := h
        simp [h1, h2]
    · simp only [h2, if_false] at h
      cases h4 : m.leaseServer o ctx false target with
      | none => simp [h4] at h
      | some p4 =>
        obtain ⟨s4, m4⟩ := p4
        simp only [h4, Option.some.injEq, Prod.mk.injEq] at h
        obtain ⟨rfl, -⟩ := h
        simp [h1, h2]

/-- The listener of the family of the victim exists once the constructor has
returned, for a victim that is a literal IP. -/
theorem TTLRebind.ttl_familyServer_of_fresh {o : Oracle} {ctx : Ctx} {m m1 : RebindManager}
    {target : Address} {ttl : Nat} {r : TTLRebind}
    (h : NewTTLRebind o ctx m target ttl = some (r, m1)) (hip : target.IP ≠ []) :
    ∃ srv, familyServer target r.v4Server r.v6Server = some srv := by
  obtain ⟨-, -, -, -, h6, h4⟩ := NewTTLRebind_fresh h
  unfold familyServer
  by_cases h2 : target.IP.To4 = []
  · simp only [h2, if_true]
    exact Option.isSome_iff_exists.mp (h6 hip h2).2
  · simp only [h2, if_false]
    exact Option.isSome_iff_exists.mp (h4 h2).1

/-- A primed TTLRebind answers every query from its victim and stays primed. -/
theorem TTLRebind.handleAll_primed (r : TTLRebind) (hr : r.rebind = true) (qs : List Nat) :
    (r.handleAll qs).1 =
      qs.map (fun q => if q = familyQType r.target then [⟨r.ttl, r.target⟩] else []) ∧
    (r.handleAll qs).2 = r := by
  induction qs with
  | nil => simp [TTLRebind.handleAll]
  | cons q qs ih =>
    have hstep : r.HandleDNS q =
        (if q = familyQType r.target then [⟨r.ttl, r.target⟩] else [], r) := by
      unfold TTLRebind.HandleDNS familyQType
      simp only [hr, Bool.true_eq_false, if_false]
      by_cases h2 : r.target.IP.To4 = []
      · by_cases hq : q = TypeAAAA <;> simp [h2, hq]
      · by_cases hq : q = TypeA <;> simp [h2, hq]
    simp only [TTLRebind.handleAll, hstep, List.map_cons]
    exact ⟨by rw [ih.1], ih.2⟩

/-- C1 (amended): for a TTLRebind as NewTTLRebind returns it for a victim that
is a literal IP, the first query of a sequence, when its type is that of the
family of the victim, is answered with exactly one answer carrying the address
of the listener, and every query after the first one is answered with exactly
one answer carrying the address of the victim when its type is that of the
family of the victim and with no answer otherwise. -/
theorem ttl_first_query_listener_then_victim (o : Oracle) (ctx : Ctx) (m m1 : RebindManager)
    (target : Address) (ttl : Nat) (r : TTLRebind) (q : Nat) (qs : List Nat)
    (hnew : NewTTLRebind o ctx m target ttl = some (r, m1)) (hip : target.IP ≠ []) :
    ∃ srv, familyServer target r.v4Server r.v6Server = some srv ∧
      (q = familyQType target →
        (r.handleAll (q :: qs)).1.head? = some [⟨ttl, srv.Address⟩]) ∧
      (r.handleAll (q :: qs)).1.tail =
        qs.map (fun q1 => if q1 = familyQType target then [⟨ttl, target⟩] else []) := by
  obtain ⟨srv, hsrv⟩ := TTLRebind.ttl_familyServer_of_fresh hnew hip
  obtain ⟨ht, httl, hr, -, h6, h4⟩ := NewTTLRebind_fresh hnew
  have hprimed : (r.HandleDNS q).2 = { r with rebind := true } := by
    unfold TTLRebind.HandleDNS
    simp only [hr, if_true]
    by_cases hq : q = TypeAAAA
    · simp only [hq, if_true]; cases r.v6Server <;> rfl
    · simp only [hq, if_false]; cases r.v4Server <;> rfl
  refine ⟨srv, hsrv, ?_, ?_⟩
  · intro hq
    simp only [TTLRebind.handleAll, List.head?_cons, Option.some.injEq]
    unfold TTLRebind.HandleDNS
    unfold familyServer at hsrv
    unfold familyQType at hq
    by_cases h2 : target.IP.To4 = []
    · simp only [h2, if_true] at hsrv hq
      simp [hr, hq, hsrv, httl]
    · simp only [h2, if_false] at hsrv hq
      simp [hr, hq, hsrv, httl, TypeA, TypeAAAA]
  · simp only [TTLRebind.handleAll, List.tail_cons, hprimed]
    have := (TTLRebind.handleAll_primed { r with rebind := true } rfl qs).1
    simpa [ht, httl] using this

theorem ttl_first_query_listener_then_victim_witness :
    NewTTLRebind exOracle 1 exManager exVictim 1 = some (exTTL, exManagerTTL) ∧
    exVictim.IP ≠ [] ∧
    ∃ srv, familyServer exVictim exTTL.v4Server exTTL.v6Server = some srv ∧
      (TypeA = familyQType exVictim →
        (exTTL.handleAll (TypeA :: [TypeAAAA, TypeA])).1.head? = some [⟨1, srv.Address⟩]) ∧
      (exTTL.handleAll (TypeA :: [TypeAAAA, TypeA])).1.tail =
        [TypeAAAA, TypeA].map
          (fun q1 => if q1 = familyQType exVictim then [⟨1, exVictim⟩] else []) :=
  ⟨by decide, by decide,
    ttl_first_query_listener_then_victim exOracle 1 exManager exManagerTTL exVictim 1 exTTL
      TypeA [TypeAAAA, TypeA] (by decide) (by decide)⟩

/-- C1 (counterexample): the victim is 203.0.113.5, so A is the type of its
family; after an AAAA query, which is answered with nothing, the first A query
is answered with the address of the victim and not with that of the listener. -/
theorem ttl_first_matched_query_counterexample :
    ∃ r srv, (NewTTLRebind exOracle 1 exManager exVictim 1).map Prod.fst = some r ∧
      r.v4Server = some srv ∧ familyQType exVictim = TypeA ∧
      (r.handleAll [TypeAAAA, TypeA]).1 = [[], [⟨1, exVictim⟩]] ∧
      (r.handleAll [TypeAAAA, TypeA]).1 ≠ [[], [⟨1, srv.Address⟩]] :=
  ⟨exTTL, ⟨0, { exPoolAddr with Port := "8080" }⟩, by decide, rfl, by decide, by decide,
    by decide⟩

theorem ThresholdRebind.HandleDNS_family (r : ThresholdRebind) (srv : HTTPServer)
    (hsrv : familyServer r.target r.v4Server r.v6Server = some srv) (hk : r.threshold < 2 ^ 64) :
    r.HandleDNS (familyQType r.target) =
      if 0 < r.threshold then ([⟨r.ttl, srv.Address⟩], { r with threshold := r.threshold - 1 })
      else ([⟨r.ttl, r.target⟩], r) := by
  unfold ThresholdRebind.HandleDNS
  unfold familyServer at hsrv
  unfold familyQType
  by_cases ht : 0 < r.threshold
  · have hdec : (r.threshold + 18446744073709551615) % 18446744073709551616 =
        r.threshold - 1 := by
      norm_num at hk
      omega
    by_cases h2 : r.target.IP.To4 = []
    · simp only [h2, if_true] at hsrv
      simp [ht, h2, hsrv, hdec]
    · simp only [h2, if_false] at hsrv
      simp [ht, h2, hsrv, hdec, TypeA, TypeAAAA]
  · by_cases h2 : r.target.IP.To4 = []
    · simp [ht, h2]
    · simp [ht, h2, TypeA, TypeAAAA]

theorem ThresholdRebind.handleAll_family (n : Nat) : ∀ (r : ThresholdRebind) (srv : HTTPServer),
    familyServer r.target r.v4Server r.v6Server = some srv → r.threshold < 2 ^ 64 →
    (r.handleAll (List.replicate n (familyQType r.target))).1 =
      (List.range n).map
        (fun i => if i < r.threshold then [⟨r.ttl, srv.Address⟩] else [⟨r.ttl, r.target⟩]) ∧
    (r.handleAll (List.replicate n (familyQType r.target))).2 =
      { r with threshold := r.threshold - n } := by
  induction n with
  | zero => intro r srv _ _; simp [ThresholdRebind.handleAll]
  | succ n ih =>
    intro r srv hsrv hk
    have hstep := ThresholdRebind.HandleDNS_family r srv hsrv hk
    simp only [List.replicate_succ, ThresholdRebind.handleAll, List.range_succ_eq_map,
      List.map_cons, List.map_map]
    by_cases ht : 0 < r.threshold
    · simp only [ht, if_true] at hstep
      have h1 := ih { r with threshold := r.threshold - 1 } srv hsrv (by simp only; omega)
      simp only at h1
      rw [hstep]
      simp only [h1.1, h1.2, ht, if_true]
      refine ⟨?_, ?_⟩
      · congr 1
        apply List.map_congr_left
        intro i _
        simp only [Function.comp, Nat.succ_eq_add_one]
        by_cases hi : i < r.threshold - 1
        · have : i + 1 < r.threshold := by omega
          simp [hi, this]
        · have : ¬ i + 1 < r.threshold := by omega
          simp [hi, this]
      · congr 1
        omega
    · simp only [ht, if_false] at hstep
      have h1 := ih r srv hsrv hk
      rw [hstep]
      simp only [h1.1, h1.2, ht, if_false]
      have h0 : r.threshold = 0 := by omega
      refine ⟨?_, ?_⟩
      · congr 1
        apply List.map_congr_left
        intro i _
        simp [h0]
      · simp [h0]

/-- The listener of the family of the victim exists once NewThresholdRebind has
returned, for a victim that is a literal IP. -/
theorem ThresholdRebind.threshold_familyServer_of_fresh {o : Oracle} {ctx : Ctx} {m m1 : RebindManager}
    {target : Address} {threshold ttl : Nat} {r : ThresholdRebind}
    (h : NewThresholdRebind o ctx m target threshold ttl = some (r, m1)) (hip : target.IP ≠ []) :
    ∃ srv, familyServer target r.v4Server r.v6Server = some srv := by
  obtain ⟨-, -, -, -, h6, h4⟩ := NewThresholdRebind_fresh h
  unfold familyServer
  by_cases h2 : target.IP.To4 = []
  · simp only [h2, if_true]
    exact Option.isSome_iff_exists.mp (h6 hip h2).2
  · simp only [h2, if_false]
    exact Option.isSome_iff_exists.mp (h4 h2).1

/-- C2: for every threshold k (a uint64) and every ttl, a ThresholdRebind as
NewThresholdRebind returns it for a victim that is a literal IP answers a
sequence of n queries of the type of the family of the victim as follows: each
of the first k queries gets exactly one answer with the address of the listener
and TTL ttl, every later query gets exactly one answer with the address of the
victim and TTL ttl; the counter after the n queries is k - n, cut at zero, so it
never wraps below zero. -/
theorem threshold_listener_k_times_then_victim (o : Oracle) (ctx : Ctx) (m m1 : RebindManager)
    (target : Address) (k ttl : Nat) (r : ThresholdRebind) (n : Nat)
    (hnew : NewThresholdRebind o ctx m target k ttl = some (r, m1)) (hip : target.IP ≠ [])
    (hk : k < 2 ^ 64) :
    ∃ srv, familyServer target r.v4Server r.v6Server = some srv ∧
      (r.handleAll (List.replicate n (familyQType target))).1 =
        (List.range n).map
          (fun i => if i < k then [⟨ttl, srv.Address⟩] else [⟨ttl, target⟩]) ∧
      (r.handleAll (List.replicate n (familyQType target))).2.threshold = k - n ∧
      (r.handleAll (List.replicate n (familyQType target))).2.threshold ≤ k := by
  obtain ⟨srv, hsrv⟩ := ThresholdRebind.threshold_familyServer_of_fresh hnew hip
  obtain ⟨ht, httl, hthr, -, -, -⟩ := NewThresholdRebind_fresh hnew
  subst ht httl hthr
  have h := ThresholdRebind.handleAll_family n r srv hsrv hk
  refine ⟨srv, hsrv, h.1, ?_, ?_⟩
  · rw [h.2]
  · rw [h.2]; simp

theorem threshold_listener_k_times_then_victim_witness :
    NewThresholdRebind exOracle 1 exManager exVictim 2 2 = some (exThreshold, exManagerThreshold) ∧
    exVictim.IP ≠ [] ∧ 2 < 2 ^ 64 ∧
    ∃ srv, familyServer exVictim exThreshold.v4Server exThreshold.v6Server = some srv ∧
      (exThreshold.handleAll (List.replicate 4 (familyQType exVictim))).1 =
        (List.range 4).map
          (fun i => if i < 2 then [⟨2, srv.Address⟩] else [⟨2, exVictim⟩]) ∧
      (exThreshold.handleAll (List.replicate 4 (familyQType exVictim))).2.threshold = 2 - 4 ∧
      (exThreshold.handleAll (List.replicate 4 (familyQType exVictim))).2.threshold ≤ 2 :=
  ⟨by decide, by decide, by decide,
    threshold_listener_k_times_then_victim exOracle 1 exManager exManagerThreshold exVictim 2 2
      exThreshold 4 (by decide) (by decide) (by decide)⟩

theorem takeHex_spec : ∀ (n : Nat) (cs g rest : List Char), takeHex n cs = some (g, rest) →
    cs = g ++ rest ∧ g.length = n ∧ ∀ c ∈ g, c ∈ hextable := by
  intro n
  induction n with
  | zero =>
    intro cs g rest h
    simp only [takeHex, Option.some.injEq, Prod.mk.injEq] at h
    obtain ⟨rfl, rfl⟩ := h
    simp
  | succ n ih =>
    intro cs g rest h
    cases cs with
    | nil => simp [takeHex] at h
    | cons c cs =>
      simp only [takeHex] at h
      by_cases hc : isLowerHex c = true
      · simp only [hc, if_true] at h
        cases h1 : takeHex n cs with
        | none => simp [h1] at h
        | some p =>
          obtain ⟨g1, r1⟩ := p
          simp only [h1, Option.some.injEq, Prod.mk.injEq] at h
          obtain ⟨rfl, rfl⟩ := h
          obtain ⟨e1, e2, e3⟩ := ih cs g1 r1 h1
          refine ⟨by rw [e1]; rfl, by simp [e2], ?_⟩
          intro x hx
          rcases List.mem_cons.mp hx with rfl | hx
          · simpa [isLowerHex] using hc
          · exact e3 x hx
      · simp [hc] at h

theorem takeHex_append : ∀ (g rest : List Char), (∀ c ∈ g, c ∈ hextable) →
    takeHex g.length (g ++ rest) = some (g, rest) := by
  intro g
  induction g with
  | nil => intro rest _; simp [takeHex]
  | cons c g ih =>
    intro rest h
    have hc : isLowerHex c = true := by simpa [isLowerHex] using h c (List.mem_cons_self _ _)
    have ih1 := ih rest (fun x hx => h x (List.mem_cons_of_mem _ hx))
    simp only [List.length_cons, List.cons_append, takeHex, hc, if_true]
    simp only [List.append_eq] at ih1 ⊢
    rw [ih1]

theorem takeChar_spec (d : Char) (cs rest : List Char) (h : takeChar d cs = some rest) :
    cs = d :: rest := by
  cases cs with
  | nil => simp [takeChar] at h
  | cons c cs =>
    simp only [takeChar] at h
    by_cases hc : c = d
    · simp only [hc, if_true, Option.some.injEq] at h
      rw [hc, h]
    · simp [hc] at h

theorem matchSubdomain_spec (cs cap : List Char) (h : matchSubdomain cs = some cap) :
    ∃ g1 g2 g3 g4 g5 rest : List Char,
      g1.length = 8 ∧ g2.length = 4 ∧ g3.length = 4 ∧ g4.length = 4 ∧ g5.length = 12 ∧
      (∀ c ∈ g1 ++ g2 ++ g3 ++ g4 ++ g5, c ∈ hextable) ∧
      cap = g1 ++ '-' :: g2 ++ '-' :: g3 ++ '-' :: g4 ++ '-' :: g5 ∧
      cs = cap ++ '.' :: rest := by
  unfold matchSubdomain at h
  cases h1 : takeHex 8 cs with
  | none => simp [h1] at h
  | some p1 =>
  obtain ⟨g1, r1⟩ := p1
  simp only [h1] at h
  cases c1 : takeChar '-' r1 with
  | none => simp [c1] at h
  | some s1 =>
  simp only [c1] at h
  cases h2 : takeHex 4 s1 with
  | none => simp [h2] at h
  | some p2 =>
  obtain ⟨g2, r2⟩ := p2
  simp only [h2] at h
  cases c2 : takeChar '-' r2 with
  | none => simp [c2] at h
  | some s2 =>
  simp only [c2] at h
  cases h3 : takeHex 4 s2 with
  | none => simp [h3] at h
  | some p3 =>
  obtain ⟨g3, r3⟩ := p3
  simp only [h3] at h
  cases c3 : takeChar '-' r3 with
  | none => simp [c3] at h
  | some s3 =>
  simp only [c3] at h
  cases h4 : takeHex 4 s3 with
  | none => simp [h4] at h
  | some p4 =>
  obtain ⟨g4, r4⟩ := p4
  simp only [h4] at h
  cases c4 : takeChar '-' r4 with
  | none => simp [c4] at h
  | some s4 =>
  simp only [c4] at h
  cases h5 : takeHex 12 s4 with
  | none => simp [h5] at h
  | some p5 =>
  obtain ⟨g5, r5⟩ := p5
  simp only [h5] at h
  cases c5 : takeChar '.' r5 with
  | none => simp [c5] at h
  | some s5 =>
  simp only [c5, Option.some.injEq] at h
  obtain ⟨e1, l1, x1⟩ := takeHex_spec _ _ _ _ h1
  obtain ⟨e2, l2, x2⟩ := takeHex_spec _ _ _ _ h2
  obtain ⟨e3, l3, x3⟩ := takeHex_spec _ _ _ _ h3
  obtain ⟨e4, l4, x4⟩ := takeHex_spec _ _ _ _ h4
  obtain ⟨e5, l5, x5⟩ := takeHex_spec _ _ _ _ h5
  have d1 := takeChar_spec _ _ _ c1
  have d2 := takeChar_spec _ _ _ c2
  have d3 := takeChar_spec _ _ _ c3
  have d4 := takeChar_spec _ _ _ c4
  have d5 := takeChar_spec _ _ _ c5
  refine ⟨g1, g2, g3, g4, g5, s5, l1, l2, l3, l4, l5, ?_, h.symm, ?_⟩
  · intro c hc
    simp only [List.mem_append] at hc
    rcases hc with (((hc | hc) | hc) | hc) | hc
    · exact x1 c hc
    · exact x2 c hc
    · exact x3 c hc
    · exact x4 c hc
    · exact x5 c hc
  · rw [e1, d1, e2, d2, e3, d3, e4, d4, e5, d5, ← h]
    simp

theorem matchSubdomain_complete (g1 g2 g3 g4 g5 rest : List Char)
    (l1 : g1.length = 8) (l2 : g2.length = 4) (l3 : g3.length = 4) (l4 : g4.length = 4)
    (l5 : g5.length = 12) (hx : ∀ c ∈ g1 ++ g2 ++ g3 ++ g4 ++ g5, c ∈ hextable) :
    matchSubdomain ((g1 ++ '-' :: g2 ++ '-' :: g3 ++ '-' :: g4 ++ '-' :: g5) ++ '.' :: rest) =
      some (g1 ++ '-' :: g2 ++ '-' :: g3 ++ '-' :: g4 ++ '-' :: g5) := by
  have x1 : ∀ c ∈ g1, c ∈ hextable := fun c hc => hx c (by simp [hc])
  have x2 : ∀ c ∈ g2, c ∈ hextable := fun c hc => hx c (by simp [hc])
  have x3 : ∀ c ∈ g3, c ∈ hextable := fun c hc => hx c (by simp [hc])
  have x4 : ∀ c ∈ g4, c ∈ hextable := fun c hc => hx c (by simp [hc])
  have x5 : ∀ c ∈ g5, c ∈ hextable := fun c hc => hx c (by simp [hc])
  have t1 := fun r => takeHex_append g1 r x1
  have t2 := fun r => takeHex_append g2 r x2
  have t3 := fun r => takeHex_append g3 r x3
  have t4 := fun r => takeHex_append g4 r x4
  have t5 := fun r => takeHex_append g5 r x5
  rw [l1] at t1
  rw [l2] at t2
  rw [l3] at t3
  rw [l4] at t4
  rw [l5] at t5
  unfold matchSubdomain
  simp only [List.append_assoc, List.cons_append, t1, t2, t3, t4, t5, takeChar, if_true]

theorem fromHexChar_hextable :
    ∀ c ∈ hextable, fromHexChar c = some (hextable.indexOf c) ∧ hextable.indexOf c < 16 ∧
      hexDigit (hextable.indexOf c) = c := by
  decide

theorem fromHexChar_hexDigit : ∀ v < 16, fromHexChar (hexDigit v) = some v := by
  decide

theorem hexDecode_hexEncode : ∀ bs : List Nat, (∀ b ∈ bs, b < 256) →
    hexDecode (hexEncode bs) = some bs := by
  intro bs
  induction bs with
  | nil => intro _; rfl
  | cons b bs ih =>
    intro h
    have hb : b < 256 := h b (List.mem_cons_self _ _)
    have h1 := fromHexChar_hexDigit (b / 16 % 16) (by omega)
    have h2 := fromHexChar_hexDigit (b % 16) (by omega)
    have h3 := ih (fun x hx => h x (List.mem_cons_of_mem _ hx))
    simp only [hexEncode, hexDecode, h1, h2, h3, Option.some.injEq, List.cons.injEq, and_true]
    omega

theorem hexEncode_length (bs : List Nat) : (hexEncode bs).length = 2 * bs.length := by
  induction bs with
  | nil => rfl
  | cons b bs ih => simp only [hexEncode, List.length_cons, ih]; omega

theorem hexEncode_mem_hextable (bs : List Nat) : ∀ c ∈ hexEncode bs, c ∈ hextable := by
  have hd : ∀ v < 16, hexDigit v ∈ hextable := by decide
  induction bs with
  | nil => intro c hc; simp [hexEncode] at hc
  | cons b bs ih =>
    intro c hc
    simp only [hexEncode, List.mem_cons] at hc
    rcases hc with rfl | rfl | hc
    · exact hd _ (by omega)
    · exact hd _ (by omega)
    · exact ih c hc

theorem hexEncode_hexDecode : ∀ (n : Nat) (g : List Char) (bs : List Nat), g.length ≤ n →
    (∀ c ∈ g, c ∈ hextable) → hexDecode g = some bs →
    hexEncode bs = g ∧ g.length = 2 * bs.length ∧ ∀ b ∈ bs, b < 256 := by
  intro n
  induction n using Nat.strong_induction_on with
  | _ n ih =>
    intro g bs hn hx hd
    match g, hn, hx, hd with
    | [], _, _, hd =>
      simp only [hexDecode, Option.some.injEq] at hd
      subst hd
      simp [hexEncode]
    | [_], _, _, hd => simp [hexDecode] at hd
    | a :: b :: rest, hn, hx, hd =>
      obtain ⟨ha, hal, had⟩ := fromHexChar_hextable a (hx a (by simp))
      obtain ⟨hb, hbl, hbd⟩ := fromHexChar_hextable b (hx b (by simp))
      simp only [hexDecode, ha, hb] at hd
      cases hr : hexDecode rest with
      | none => simp [hr] at hd
      | some ds =>
        simp only [hr, Option.some.injEq] at hd
        subst hd
        simp only [List.length_cons] at hn
        obtain ⟨e1, e2, e3⟩ := ih (n - 2) (by omega) rest ds (by omega)
          (fun c hc => hx c (by simp [hc])) hr
        refine ⟨?_, ?_, ?_⟩
        · have q1 : (List.indexOf a hextable * 16 + List.indexOf b hextable) / 16 % 16 =
              List.indexOf a hextable := by omega
          have q2 : (List.indexOf a hextable * 16 + List.indexOf b hextable) % 16 =
              List.indexOf b hextable := by omega
          simp only [hexEncode, q1, q2, had, hbd, e1]
        · simp only [List.length_cons, e2]; omega
        · intro x hx1
          rcases List.mem_cons.mp hx1 with rfl | hx1
          · omega
          · exact e3 x hx1

theorem take_group {α : Type} (g rest : List α) (n : Nat) (h : g.length = n) :
    (g ++ rest).take n = g := by
  subst h; simp

theorem drop_group {α : Type} (g rest : List α) (n : Nat) (h : g.length = n) :
    (g ++ rest).drop n = rest := by
  subst h; simp

theorem drop_sep {α : Type} (g rest : List α) (c : α) (n k : Nat) (h : g.length = n) :
    (g ++ c :: rest).drop (n + 1 + k) = rest.drop k := by
  subst h
  induction g with
  | nil => simp [Nat.add_comm 1 k]
  | cons a g ih =>
    have : (a :: g).length + 1 + k = (g.length + 1 + k) + 1 := by simp; omega
    rw [this]
    simpa using ih

theorem get_sep {α : Type} (g rest : List α) (c : α) (n : Nat) (h : g.length = n) :
    (g ++ c :: rest).get? n = some c := by
  subst h
  induction g with
  | nil => rfl
  | cons a g ih => simpa using ih

theorem get_after_sep {α : Type} (g rest : List α) (c : α) (n k : Nat) (h : g.length = n) :
    (g ++ c :: rest).get? (n + 1 + k) = rest.get? k := by
  have := drop_sep g rest c n k h
  have h2 : ((g ++ c :: rest).drop (n + 1 + k)).head? = (rest.drop k).head? := by rw [this]
  simpa [List.head?_drop] using h2

/-- The canonical text of five groups decodes to the bytes that print back as
the same text. -/
theorem decodeCanonical_spec (g1 g2 g3 g4 g5 : List Char) (u : UUID)
    (l1 : g1.length = 8) (l2 : g2.length = 4) (l3 : g3.length = 4) (l4 : g4.length = 4)
    (l5 : g5.length = 12) (hx : ∀ c ∈ g1 ++ g2 ++ g3 ++ g4 ++ g5, c ∈ hextable)
    (hd : decodeCanonical (g1 ++ '-' :: (g2 ++ '-' :: (g3 ++ '-' :: (g4 ++ '-' :: g5)))) = some u) :
    (UUID.String u).data = g1 ++ '-' :: (g2 ++ '-' :: (g3 ++ '-' :: (g4 ++ '-' :: g5))) ∧
    u.length = 16 ∧ ∀ b ∈ u, b < 256 := by
  have x1 : ∀ c ∈ g1, c ∈ hextable := fun c hc => hx c (by simp [hc])
  have x2 : ∀ c ∈ g2, c ∈ hextable := fun c hc => hx c (by simp [hc])
  have x3 : ∀ c ∈ g3, c ∈ hextable := fun c hc => hx c (by simp [hc])
  have x4 : ∀ c ∈ g4, c ∈ hextable := fun c hc => hx c (by simp [hc])
  have x5 : ∀ c ∈ g5, c ∈ hextable := fun c hc => hx c (by simp [hc])
  have s1 := take_group g1 ('-' :: (g2 ++ '-' :: (g3 ++ '-' :: (g4 ++ '-' :: g5)))) 8 l1
  have s2 : ((g1 ++ '-' :: (g2 ++ '-' :: (g3 ++ '-' :: (g4 ++ '-' :: g5)))).drop 9).take 4 = g2 := by
    rw [show (9 : Nat) = 8 + 1 + 0 from rfl, drop_sep _ _ _ 8 0 l1, List.drop_zero,
      take_group _ _ 4 l2]
  have s3 : ((g1 ++ '-' :: (g2 ++ '-' :: (g3 ++ '-' :: (g4 ++ '-' :: g5)))).drop 14).take 4 = g3 := by
    rw [show (14 : Nat) = 8 + 1 + 5 from rfl, drop_sep _ _ _ 8 5 l1,
      show (5 : Nat) = 4 + 1 + 0 from rfl, drop_sep _ _ _ 4 0 l2, List.drop_zero,
      take_group _ _ 4 l3]
  have s4 : ((g1 ++ '-' :: (g2 ++ '-' :: (g3 ++ '-' :: (g4 ++ '-' :: g5)))).drop 19).take 4 = g4 := by
    rw [show (19 : Nat) = 8 + 1 + 10 from rfl, drop_sep _ _ _ 8 10 l1,
      show (10 : Nat) = 4 + 1 + 5 from rfl, drop_sep _ _ _ 4 5 l2,
      show (5 : Nat) = 4 + 1 + 0 from rfl, drop_sep _ _ _ 4 0 l3, List.drop_zero,
      take_group _ _ 4 l4]
  have s5 : ((g1 ++ '-' :: (g2 ++ '-' :: (g3 ++ '-' :: (g4 ++ '-' :: g5)))).drop 24).take 12 = g5 := by
    rw [show (24 : Nat) = 8 + 1 + 15 from rfl, drop_sep _ _ _ 8 15 l1,
      show (15 : Nat) = 4 + 1 + 10 from rfl, drop_sep _ _ _ 4 10 l2,
      show (10 : Nat) = 4 + 1 + 5 from rfl, drop_sep _ _ _ 4 5 l3,
      show (5 : Nat) = 4 + 1 + 0 from rfl, drop_sep _ _ _ 4 0 l4, List.drop_zero]
    rw [← l5, List.take_length]
  unfold decodeCanonical at hd
  rw [s1, s2, s3, s4, s5] at hd
  split at hd
  · exact absurd hd (by simp)
  · cases e1 : hexDecode g1 with
    | none => simp [e1] at hd
    | some d1 =>
    cases e2 : hexDecode g2 with
    | none => simp [e1, e2] at hd
    | some d2 =>
    cases e3 : hexDecode g3 with
    | none => simp [e1, e2, e3] at hd
    | some d3 =>
    cases e4 : hexDecode g4 with
    | none => simp [e1, e2, e3, e4] at hd
    | some d4 =>
    cases e5 : hexDecode g5 with
    | none => simp [e1, e2, e3, e4, e5] at hd
    | some d5 =>
    simp only [e1, e2, e3, e4, e5, Option.some.injEq] at hd
    obtain ⟨r1, n1, b1⟩ := hexEncode_hexDecode _ g1 d1 (le_refl _) x1 e1
    obtain ⟨r2, n2, b2⟩ := hexEncode_hexDecode _ g2 d2 (le_refl _) x2 e2
    obtain ⟨r3, n3, b3⟩ := hexEncode_hexDecode _ g3 d3 (le_refl _) x3 e3
    obtain ⟨r4, n4, b4⟩ := hexEncode_hexDecode _ g4 d4 (le_refl _) x4 e4
    obtain ⟨r5, n5, b5⟩ := hexEncode_hexDecode _ g5 d5 (le_refl _) x5 e5
    have m1 : d1.length = 4 := by omega
    have m2 : d2.length = 2 := by omega
    have m3 : d3.length = 2 := by omega
    have m4 : d4.length = 2 := by omega
    have m5 : d5.length = 6 := by omega
    subst hd
    have k1 : (d1 ++ d2 ++ d3 ++ d4 ++ d5).take 4 = d1 := by
      simp only [List.append_assoc]; exact take_group _ _ 4 m1
    have k2 : ((d1 ++ d2 ++ d3 ++ d4 ++ d5).drop 4).take 2 = d2 := by
      simp only [List.append_assoc]
      rw [drop_group _ _ 4 m1, take_group _ _ 2 m2]
    have k3 : ((d1 ++ d2 ++ d3 ++ d4 ++ d5).drop 6).take 2 = d3 := by
      rw [show d1 ++ d2 ++ d3 ++ d4 ++ d5 = (d1 ++ d2) ++ (d3 ++ (d4 ++ d5)) by simp,
        drop_group _ _ 6 (by simp [m1, m2]), take_group _ _ 2 m3]
    have k4 : ((d1 ++ d2 ++ d3 ++ d4 ++ d5).drop 8).take 2 = d4 := by
      rw [show d1 ++ d2 ++ d3 ++ d4 ++ d5 = (d1 ++ d2 ++ d3) ++ (d4 ++ d5) by simp,
        drop_group _ _ 8 (by simp [m1, m2, m3]), take_group _ _ 2 m4]
    have k5 : ((d1 ++ d2 ++ d3 ++ d4 ++ d5).drop 10).take 6 = d5 := by
      rw [drop_group _ _ 10 (by simp [m1, m2, m3, m4]), ← m5, List.take_length]
    refine ⟨?_, by simp [m1, m2, m3, m4, m5], ?_⟩
    · simp only [UUID.String, k1, k2, k3, k4, k5, r1, r2, r3, r4, r5]
      simp
    · intro b hb
      simp only [List.mem_append] at hb
      rcases hb with (((hb | hb) | hb) | hb) | hb
      · exact b1 b hb
      · exact b2 b hb
      · exact b3 b hb
      · exact b4 b hb
      · exact b5 b hb

/-- On five groups of the canonical lengths joined by dashes, decodeCanonical
decodes the groups one by one. -/
theorem decodeCanonical_groups (g1 g2 g3 g4 g5 : List Char)
    (l1 : g1.length = 8) (l2 : g2.length = 4) (l3 : g3.length = 4) (l4 : g4.length = 4)
    (l5 : g5.length = 12) :
    decodeCanonical (g1 ++ '-' :: (g2 ++ '-' :: (g3 ++ '-' :: (g4 ++ '-' :: g5)))) =
      match hexDecode g1, hexDecode g2, hexDecode g3, hexDecode g4, hexDecode g5 with
      | some d1, some d2, some d3, some d4, some d5 => some (d1 ++ d2 ++ d3 ++ d4 ++ d5)
      | _, _, _, _, _ => none := by
  have s1 := take_group g1 ('-' :: (g2 ++ '-' :: (g3 ++ '-' :: (g4 ++ '-' :: g5)))) 8 l1
  have s2 : ((g1 ++ '-' :: (g2 ++ '-' :: (g3 ++ '-' :: (g4 ++ '-' :: g5)))).drop 9).take 4 = g2 := by
    rw [show (9 : Nat) = 8 + 1 + 0 from rfl, drop_sep _ _ _ 8 0 l1, List.drop_zero,
      take_group _ _ 4 l2]
  have s3 : ((g1 ++ '-' :: (g2 ++ '-' :: (g3 ++ '-' :: (g4 ++ '-' :: g5)))).drop 14).take 4 = g3 := by
    rw [show (14 : Nat) = 8 + 1 + 5 from rfl, drop_sep _ _ _ 8 5 l1,
      show (5 : Nat) = 4 + 1 + 0 from rfl, drop_sep _ _ _ 4 0 l2, List.drop_zero,
      take_group _ _ 4 l3]
  have s4 : ((g1 ++ '-' :: (g2 ++ '-' :: (g3 ++ '-' :: (g4 ++ '-' :: g5)))).drop 19).take 4 = g4 := by
    rw [show (19 : Nat) = 8 + 1 + 10 from rfl, drop_sep _ _ _ 8 10 l1,
      show (10 : Nat) = 4 + 1 + 5 from rfl, drop_sep _ _ _ 4 5 l2,
      show (5 : Nat) = 4 + 1 + 0 from rfl, drop_sep _ _ _ 4 0 l3, List.drop_zero,
      take_group _ _ 4 l4]
  have s5 : ((g1 ++ '-' :: (g2 ++ '-' :: (g3 ++ '-' :: (g4 ++ '-' :: g5)))).drop 24).take 12 = g5 := by
    rw [show (24 : Nat) = 8 + 1 + 15 from rfl, drop_sep _ _ _ 8 15 l1,
      show (15 : Nat) = 4 + 1 + 10 from rfl, drop_sep _ _ _ 4 10 l2,
      show (10 : Nat) = 4 + 1 + 5 from rfl, drop_sep _ _ _ 4 5 l3,
      show (5 : Nat) = 4 + 1 + 0 from rfl, drop_sep _ _ _ 4 0 l4, List.drop_zero]
    rw [← l5, List.take_length]
  have p1 := get_sep g1 (g2 ++ '-' :: (g3 ++ '-' :: (g4 ++ '-' :: g5))) '-' 8 l1
  have p2 : (g1 ++ '-' :: (g2 ++ '-' :: (g3 ++ '-' :: (g4 ++ '-' :: g5)))).get? 13 = some '-' := by
    rw [show (13 : Nat) = 8 + 1 + 4 from rfl, get_after_sep _ _ _ 8 4 l1, get_sep _ _ _ 4 l2]
  have p3 : (g1 ++ '-' :: (g2 ++ '-' :: (g3 ++ '-' :: (g4 ++ '-' :: g5)))).get? 18 = some '-' := by
    rw [show (18 : Nat) = 8 + 1 + 9 from rfl, get_after_sep _ _ _ 8 9 l1,
      show (9 : Nat) = 4 + 1 + 4 from rfl, get_after_sep _ _ _ 4 4 l2, get_sep _ _ _ 4 l3]
  have p4 : (g1 ++ '-' :: (g2 ++ '-' :: (g3 ++ '-' :: (g4 ++ '-' :: g5)))).get? 23 = some '-' := by
    rw [show (23 : Nat) = 8 + 1 + 14 from rfl, get_after_sep _ _ _ 8 14 l1,
      show (14 : Nat) = 4 + 1 + 9 from rfl, get_after_sep _ _ _ 4 9 l2,
      show (9 : Nat) = 4 + 1 + 4 from rfl, get_after_sep _ _ _ 4 4 l3, get_sep _ _ _ 4 l4]
  unfold decodeCanonical
  rw [s1, s2, s3, s4, s5, p1, p2, p3, p4]
  simp

/-- The text of a UUID of sixteen bytes is five groups of lowercase hex digits
of the canonical lengths, and it decodes to the UUID. -/
theorem UUID.String_groups (u : UUID) (hlen : u.length = 16) (hb : ∀ b ∈ u, b < 256) :
    ∃ g1 g2 g3 g4 g5 : List Char,
      g1.length = 8 ∧ g2.length = 4 ∧ g3.length = 4 ∧ g4.length = 4 ∧ g5.length = 12 ∧
      (∀ c ∈ g1 ++ g2 ++ g3 ++ g4 ++ g5, c ∈ hextable) ∧
      (UUID.String u).data = g1 ++ '-' :: (g2 ++ '-' :: (g3 ++ '-' :: (g4 ++ '-' :: g5))) ∧
      decodeCanonical (g1 ++ '-' :: (g2 ++ '-' :: (g3 ++ '-' :: (g4 ++ '-' :: g5)))) = some u := by
  have hsub : ∀ (n k : Nat), ∀ b ∈ (u.drop n).take k, b < 256 :=
    fun n k b hb1 => hb b (List.mem_of_mem_drop (List.mem_of_mem_take hb1))
  have hsub0 : ∀ b ∈ u.take 4, b < 256 := fun b hb1 => hb b (List.mem_of_mem_take hb1)
  refine ⟨hexEncode (u.take 4), hexEncode ((u.drop 4).take 2), hexEncode ((u.drop 6).take 2),
    hexEncode ((u.drop 8).take 2), hexEncode ((u.drop 10).take 6), ?_, ?_, ?_, ?_, ?_, ?_, ?_, ?_⟩
  · simp [hexEncode_length, hlen]
  · simp [hexEncode_length, hlen]
  · simp [hexEncode_length, hlen]
  · simp [hexEncode_length, hlen]
  · simp [hexEncode_length, hlen]
  · intro c hc
    simp only [List.mem_append] at hc
    rcases hc with (((hc | hc) | hc) | hc) | hc <;> exact hexEncode_mem_hextable _ c hc
  · simp [UUID.String]
  · rw [decodeCanonical_groups _ _ _ _ _ (by simp [hexEncode_length, hlen])
      (by simp [hexEncode_length, hlen]) (by simp [hexEncode_length, hlen])
      (by simp [hexEncode_length, hlen]) (by simp [hexEncode_length, hlen])]
    rw [hexDecode_hexEncode _ hsub0, hexDecode_hexEncode _ (hsub 4 2),
      hexDecode_hexEncode _ (hsub 6 2), hexDecode_hexEncode _ (hsub 8 2),
      hexDecode_hexEncode _ (hsub 10 6)]
    simp only [Option.some.injEq]
    have e1 : u.drop 4 = (u.drop 4).take 2 ++ u.drop 6 := by
      rw [show u.drop 6 = (u.drop 4).drop 2 by simp [List.drop_drop], List.take_append_drop]
    have e2 : u.drop 6 = (u.drop 6).take 2 ++ u.drop 8 := by
      rw [show u.drop 8 = (u.drop 6).drop 2 by simp [List.drop_drop], List.take_append_drop]
    have e3 : u.drop 8 = (u.drop 8).take 2 ++ u.drop 10 := by
      rw [show u.drop 10 = (u.drop 8).drop 2 by simp [List.drop_drop], List.take_append_drop]
    have e4 : (u.drop 10).take 6 = u.drop 10 := by
      apply List.take_of_length_le
      simp [hlen]
    calc u.take 4 ++ (u.drop 4).take 2 ++ (u.drop 6).take 2 ++ (u.drop 8).take 2 ++
          (u.drop 10).take 6
        = u.take 4 ++ ((u.drop 4).take 2 ++ ((u.drop 6).take 2 ++ ((u.drop 8).take 2 ++
          u.drop 10))) := by rw [e4]; simp
      _ = u.take 4 ++ u.drop 4 := by rw [← e3, ← e2, ← e1]
      _ = u := List.take_append_drop 4 u

theorem mapGet_mem_keys {κ α : Type} [DecidableEq κ] (k : κ) (v : α) :
    ∀ m : List (κ × α), mapGet k m = some v → k ∈ mapKeys m := by
  intro m
  induction m with
  | nil => intro h; simp [mapGet] at h
  | cons p m ih =>
    obtain ⟨k1, v1⟩ := p
    intro h
    simp only [mapGet] at h
    by_cases hk : k1 = k
    · simp [mapKeys, hk]
    · simp only [hk, if_false] at h
      have := ih h
      simp only [mapKeys, List.map_cons, List.mem_cons] at this ⊢
      exact Or.inr this

/-- What ServeDNS does when the pattern matches and the id is registered. -/
theorem ServeDNS_of_match (m : RebindManager) (req : Msg) (q : Question) (qs : List Question)
    (cap : List Char) (u : UUID) (rebind : RebindMethod)
    (hq : req.Question = q :: qs) (hm : matchSubdomain q.Name.toList = some cap)
    (hl : cap.length = 36) (hu : decodeCanonical cap = some u)
    (hr : mapGet u m.Rebinds = some rebind) :
    m.ServeDNS req =
      some ({ SetReply req with Answer := (rebind.HandleDNS q.Qtype).1.map (answerRR q) },
        { m with Rebinds := mapSet u (rebind.HandleDNS q.Qtype).2 m.Rebinds }) := by
  unfold RebindManager.ServeDNS SubdomainRegex.FindStringSubmatch
  simp only [hq, hm]
  have : uuidFromString (String.mk cap) = some u := by
    unfold uuidFromString
    simp [String.toList, hl, hu]
  simp only [this, hr]

/-- What ServeDNS does when the name is the text of a registered id, a dot and
a rest. -/
theorem ServeDNS_registered (m : RebindManager) (req : Msg) (q : Question) (qs : List Question)
    (u : UUID) (rest : String) (rebind : RebindMethod)
    (hq : req.Question = q :: qs) (hlen : u.length = 16) (hb : ∀ b ∈ u, b < 256)
    (hname : q.Name = UUID.String u ++ "." ++ rest)
    (hr : mapGet u m.Rebinds = some rebind) :
    m.ServeDNS req =
      some ({ SetReply req with Answer := (rebind.HandleDNS q.Qtype).1.map (answerRR q) },
        { m with Rebinds := mapSet u (rebind.HandleDNS q.Qtype).2 m.Rebinds }) := by
  obtain ⟨g1, g2, g3, g4, g5, l1, l2, l3, l4, l5, hx, hs, hd⟩ := UUID.String_groups u hlen hb
  have hcs : q.Name.toList =
      (g1 ++ '-' :: g2 ++ '-' :: g3 ++ '-' :: g4 ++ '-' :: g5) ++ '.' :: rest.data := by
    rw [hname]
    simp [String.toList, hs]
  have hm := matchSubdomain_complete g1 g2 g3 g4 g5 rest.data l1 l2 l3 l4 l5 hx
  rw [← hcs] at hm
  have hcap : g1 ++ '-' :: g2 ++ '-' :: g3 ++ '-' :: g4 ++ '-' :: g5 =
      g1 ++ '-' :: (g2 ++ '-' :: (g3 ++ '-' :: (g4 ++ '-' :: g5))) := by simp
  rw [hcap] at hm
  exact ServeDNS_of_match m req q qs _ u rebind hq hm (by simp [l1, l2, l3, l4, l5]) hd hr

/-- C3: for every query that ServeDNS handles, if the name of the first question
does not begin with a label of the canonical lowercase 8-4-4-4-12 hex UUID form
followed by a dot, or no key of Rebinds has that label as its text, the reply
has RCODE REFUSED and no answer records, and the manager, with the state of
every strategy, is unchanged. -/
theorem serveDNS_refuses_unknown_name (m : RebindManager) (req : Msg) (q : Question)
    (qs : List Question) (hq : req.Question = q :: qs)
    (h : (¬ ∃ label, BeginsWithUUIDLabel q.Name label) ∨
      (∃ label, BeginsWithUUIDLabel q.Name label ∧
        ∀ u ∈ mapKeys m.Rebinds, UUID.String u ≠ label)) :
    ∃ reply, m.ServeDNS req = some (reply, m) ∧ reply.Rcode = RcodeRefused ∧
      reply.Answer = [] := by
  refine ⟨ServeDefaultDNS req, ?_, rfl, rfl⟩
  unfold RebindManager.ServeDNS SubdomainRegex.FindStringSubmatch
  simp only [hq]
  cases hm : matchSubdomain q.Name.toList with
  | none => rfl
  | some cap =>
    simp only []
    obtain ⟨g1, g2, g3, g4, g5, rest, l1, l2, l3, l4, l5, hx, hcap, hcs⟩ :=
      matchSubdomain_spec _ _ hm
    have hlen : cap.length = 36 := by simp [hcap, l1, l2, l3, l4, l5]
    have hbegins : BeginsWithUUIDLabel q.Name (String.mk cap) :=
      ⟨g1, g2, g3, g4, g5, rest, l1, l2, l3, l4, l5, hx, hcap, hcs⟩
    have hfrom : uuidFromString (String.mk cap) = decodeCanonical cap := by
      unfold uuidFromString
      simp [String.toList, hlen]
    rw [hfrom]
    cases hd : decodeCanonical cap with
    | none => rfl
    | some u =>
      simp only []
      cases hr : mapGet u m.Rebinds with
      | none => rfl
      | some rebind =>
        exfalso
        rcases h with h | ⟨label, hl, hkeys⟩
        · exact h ⟨_, hbegins⟩
        · obtain ⟨k1, k2, k3, k4, k5, rest1, n1, n2, n3, n4, n5, -, hlab, hcs1⟩ := hl
          have hlablen : label.toList.length = 36 := by
            rw [hlab]; simp [n1, n2, n3, n4, n5]
          have hsame : label.toList = cap := by
            have e1 : (q.Name.toList).take 36 = cap := by
              rw [hcs]; exact take_group _ _ 36 hlen
            have e2 : (q.Name.toList).take 36 = label.toList := by
              rw [hcs1]; exact take_group _ _ 36 hlablen
            rw [← e1, e2]
          have hcap1 : cap = g1 ++ '-' :: (g2 ++ '-' :: (g3 ++ '-' :: (g4 ++ '-' :: g5))) := by
            rw [hcap]; simp
          rw [hcap1] at hd
          have hstr := (decodeCanonical_spec g1 g2 g3 g4 g5 u l1 l2 l3 l4 l5 hx hd).1
          apply hkeys u (mapGet_mem_keys u rebind _ hr)
          apply String.ext
          rw [hstr, ← hcap1, ← hsame]
          rfl

theorem serveDNS_refuses_unknown_name_witness :
    (exQuery "ffffffff-0405-4007-8009-0a0b0c0d0e0f.r.test." TypeA).Question =
      ⟨"ffffffff-0405-4007-8009-0a0b0c0d0e0f.r.test.", TypeA, ClassINET⟩ :: [] ∧
    ((¬ ∃ label, BeginsWithUUIDLabel "ffffffff-0405-4007-8009-0a0b0c0d0e0f.r.test." label) ∨
      (∃ label, BeginsWithUUIDLabel "ffffffff-0405-4007-8009-0a0b0c0d0e0f.r.test." label ∧
        ∀ u ∈ mapKeys exManagerOffers.Rebinds, UUID.String u ≠ label)) ∧
    ∃ reply, exManagerOffers.ServeDNS
        (exQuery "ffffffff-0405-4007-8009-0a0b0c0d0e0f.r.test." TypeA) =
        some (reply, exManagerOffers) ∧
      reply.Rcode = RcodeRefused ∧ reply.Answer = [] :=
  have hyp : (¬ ∃ label, BeginsWithUUIDLabel "ffffffff-0405-4007-8009-0a0b0c0d0e0f.r.test." label) ∨
      (∃ label, BeginsWithUUIDLabel "ffffffff-0405-4007-8009-0a0b0c0d0e0f.r.test." label ∧
        ∀ u ∈ mapKeys exManagerOffers.Rebinds, UUID.String u ≠ label) :=
    Or.inr ⟨"ffffffff-0405-4007-8009-0a0b0c0d0e0f",
      ⟨"ffffffff".toList, "0405".toList, "4007".toList, "8009".toList, "0a0b0c0d0e0f".toList,
        "r.test.".toList, by decide, by decide, by decide, by decide, by decide, by decide,
        by decide, by decide⟩,
      by decide⟩
  ⟨rfl, hyp,
    serveDNS_refuses_unknown_name exManagerOffers
      (exQuery "ffffffff-0405-4007-8009-0a0b0c0d0e0f.r.test." TypeA)
      ⟨"ffffffff-0405-4007-8009-0a0b0c0d0e0f.r.test.", TypeA, ClassINET⟩ [] rfl hyp⟩

/-- C4: for every query of type A, AAAA or CNAME whose name is the text of a
registered UUID, a dot and a rest, the answer section of the reply of ServeDNS
has one record for each answer of HandleDNS of the strategy, in the same order;
each record has the name of the question, class IN, the type of the query and
the TTL of its answer, and carries the InternalIP of the address of the answer
for A and AAAA and its Host as target for CNAME. -/
theorem serveDNS_records_follow_answers (m : RebindManager) (req : Msg) (q : Question)
    (qs : List Question) (u : UUID) (rest : String) (rebind : RebindMethod)
    (hq : req.Question = q :: qs) (hlen : u.length = 16) (hb : ∀ b ∈ u, b < 256)
    (hname : q.Name = UUID.String u ++ "." ++ rest)
    (hr : mapGet u m.Rebinds = some rebind) :
    ∃ reply m1, m.ServeDNS req = some (reply, m1) ∧
      reply.Answer.length = (rebind.HandleDNS q.Qtype).1.length ∧
      (q.Qtype = TypeA → reply.Answer = (rebind.HandleDNS q.Qtype).1.map fun a =>
        some (RR.A ⟨q.Name, TypeA, ClassINET, a.TTL⟩ a.Address.InternalIP)) ∧
      (q.Qtype = TypeAAAA → reply.Answer = (rebind.HandleDNS q.Qtype).1.map fun a =>
        some (RR.AAAA ⟨q.Name, TypeAAAA, ClassINET, a.TTL⟩ a.Address.InternalIP)) ∧
      (q.Qtype = TypeCNAME → reply.Answer = (rebind.HandleDNS q.Qtype).1.map fun a =>
        some (RR.CNAME ⟨q.Name, TypeCNAME, ClassINET, a.TTL⟩ a.Address.Host)) := by
  refine ⟨_, _, ServeDNS_registered m req q qs u rest rebind hq hlen hb hname hr, ?_, ?_, ?_, ?_⟩
  · simp
  · intro ht
    apply List.map_congr_left
    intro a _
    simp [answerRR, ht, Address.IP]
  · intro ht
    apply List.map_congr_left
    intro a _
    simp [answerRR, ht, Address.IP, TypeA, TypeAAAA]
  · intro ht
    apply List.map_congr_left
    intro a _
    simp [answerRR, ht, TypeA, TypeAAAA, TypeCNAME]

theorem serveDNS_records_follow_answers_witness :
    (exQuery "00010203-0405-4007-8009-0a0b0c0d0e0f.r.test." TypeA).Question =
      ⟨"00010203-0405-4007-8009-0a0b0c0d0e0f.r.test.", TypeA, ClassINET⟩ :: [] ∧
    exID0.length = 16 ∧ (∀ b ∈ exID0, b < 256) ∧
    "00010203-0405-4007-8009-0a0b0c0d0e0f.r.test." = UUID.String exID0 ++ "." ++ "r.test." ∧
    mapGet exID0 exManagerOffers.Rebinds = some (.ttl exTTL) ∧
    ∃ reply m1, exManagerOffers.ServeDNS
        (exQuery "00010203-0405-4007-8009-0a0b0c0d0e0f.r.test." TypeA) = some (reply, m1) ∧
      reply.Answer.length = ((RebindMethod.ttl exTTL).HandleDNS TypeA).1.length ∧
      (TypeA = TypeA → reply.Answer = ((RebindMethod.ttl exTTL).HandleDNS TypeA).1.map fun a =>
        some (RR.A ⟨"00010203-0405-4007-8009-0a0b0c0d0e0f.r.test.", TypeA, ClassINET, a.TTL⟩
          a.Address.InternalIP)) ∧
      (TypeA = TypeAAAA → reply.Answer = ((RebindMethod.ttl exTTL).HandleDNS TypeA).1.map fun a =>
        some (RR.AAAA ⟨"00010203-0405-4007-8009-0a0b0c0d0e0f.r.test.", TypeAAAA, ClassINET, a.TTL⟩
          a.Address.InternalIP)) ∧
      (TypeA = TypeCNAME → reply.Answer = ((RebindMethod.ttl exTTL).HandleDNS TypeA).1.map fun a =>
        some (RR.CNAME ⟨"00010203-0405-4007-8009-0a0b0c0d0e0f.r.test.", TypeCNAME, ClassINET, a.TTL⟩
          a.Address.Host)) :=
  ⟨rfl, by decide, by decide, by decide, by decide,
    serveDNS_records_follow_answers exManagerOffers
      (exQuery "00010203-0405-4007-8009-0a0b0c0d0e0f.r.test." TypeA)
      ⟨"00010203-0405-4007-8009-0a0b0c0d0e0f.r.test.", TypeA, ClassINET⟩ [] exID0 "r.test."
      (.ttl exTTL) rfl (by decide) (by decide) (by decide) (by decide)⟩

/-- When ServeDNS reaches the strategy, the name is a registered name. -/
theorem RegisteredName_of_match (m : RebindManager) (name : String) (cap : List Char) (u : UUID)
    (rebind : RebindMethod) (hm : matchSubdomain name.toList = some cap)
    (hd : decodeCanonical cap = some u) (hr : mapGet u m.Rebinds = some rebind) :
    RegisteredName m name := by
  obtain ⟨g1, g2, g3, g4, g5, rest, l1, l2, l3, l4, l5, hx, hcap, hcs⟩ :=
    matchSubdomain_spec _ _ hm
  have hcap1 : cap = g1 ++ '-' :: (g2 ++ '-' :: (g3 ++ '-' :: (g4 ++ '-' :: g5))) := by
    rw [hcap]; simp
  rw [hcap1] at hd
  obtain ⟨hstr, hlen, hb⟩ := decodeCanonical_spec g1 g2 g3 g4 g5 u l1 l2 l3 l4 l5 hx hd
  refine ⟨u, String.mk rest, rebind, hlen, hb, ?_, hr⟩
  apply String.ext
  simp only [String.data_append, hstr, ← hcap1]
  simpa [String.toList] using hcs

/-- C5 (amended): for every reply of ServeDNS: if the reply has at least one
answer record its RCODE is NOERROR; if the answer section is empty the RCODE is
REFUSED when the name of the question is not a registered name and NOERROR when
it is (the strategy returned no answer); the RCODE is never SERVFAIL. -/
theorem serveDNS_rcode (m m1 : RebindManager) (req reply : Msg) (q : Question)
    (qs : List Question) (hq : req.Question = q :: qs)
    (hs : m.ServeDNS req = some (reply, m1)) :
    (reply.Answer ≠ [] → reply.Rcode = RcodeSuccess) ∧
    (reply.Answer = [] →
      (¬ RegisteredName m q.Name → reply.Rcode = RcodeRefused) ∧
      (RegisteredName m q.Name → reply.Rcode = RcodeSuccess)) ∧
    reply.Rcode ≠ RcodeServerFailure := by
  by_cases hreg : RegisteredName m q.Name
  · obtain ⟨u, rest, rebind, hlen, hb, hname, hr⟩ := hreg
    have hreg : RegisteredName m q.Name := ⟨u, rest, rebind, hlen, hb, hname, hr⟩
    rw [ServeDNS_registered m req q qs u rest rebind hq hlen hb hname hr] at hs
    simp only [Option.some.injEq, Prod.mk.injEq] at hs
    obtain ⟨rfl, -⟩ := hs
    refine ⟨fun _ => rfl, fun _ => ⟨fun h => absurd hreg h, fun _ => rfl⟩, ?_⟩
    simp [SetReply, RcodeSuccess, RcodeServerFailure]
  · have hdef : reply = ServeDefaultDNS req := by
      unfold RebindManager.ServeDNS SubdomainRegex.FindStringSubmatch at hs
      simp only [hq] at hs
      cases hm : matchSubdomain q.Name.toList with
      | none =>
        simp only [hm, Option.some.injEq, Prod.mk.injEq] at hs
        exact hs.1.symm
      | some cap =>
        simp only [hm] at hs
        have hlen : cap.length = 36 := by
          obtain ⟨g1, g2, g3, g4, g5, rest, l1, l2, l3, l4, l5, -, hcap, -⟩ :=
            matchSubdomain_spec _ _ hm
          simp [hcap, l1, l2, l3, l4, l5]
        have hfrom : uuidFromString (String.mk cap) = decodeCanonical cap := by
          unfold uuidFromString
          simp [String.toList, hlen]
        rw [hfrom] at hs
        cases hd : decodeCanonical cap with
        | none =>
          simp only [hd, Option.some.injEq, Prod.mk.injEq] at hs
          exact hs.1.symm
        | some u =>
          simp only [hd] at hs
          cases hr : mapGet u m.Rebinds with
          | none =>
            simp only [hr, Option.some.injEq, Prod.mk.injEq] at hs
            exact hs.1.symm
          | some rebind => exact absurd (RegisteredName_of_match m q.Name cap u rebind hm hd hr) hreg
    subst hdef
    refine ⟨fun h => absurd rfl h, fun _ => ⟨fun _ => rfl, fun h => absurd h hreg⟩, ?_⟩
    simp [ServeDefaultDNS, RcodeRefused, RcodeServerFailure]

theorem serveDNS_rcode_witness :
    (exQuery "00010203-0405-4007-8009-0a0b0c0d0e0f.r.test." TypeA).Question =
      ⟨"00010203-0405-4007-8009-0a0b0c0d0e0f.r.test.", TypeA, ClassINET⟩ :: [] ∧
    exManagerOffers.ServeDNS (exQuery "00010203-0405-4007-8009-0a0b0c0d0e0f.r.test." TypeA) =
      some (exReplyA, exManagerServed) ∧
    (exReplyA.Answer ≠ [] → exReplyA.Rcode = RcodeSuccess) ∧
    (exReplyA.Answer = [] →
      (¬ RegisteredName exManagerOffers "00010203-0405-4007-8009-0a0b0c0d0e0f.r.test." →
        exReplyA.Rcode = RcodeRefused) ∧
      (RegisteredName exManagerOffers "00010203-0405-4007-8009-0a0b0c0d0e0f.r.test." →
        exReplyA.Rcode = RcodeSuccess)) ∧
    exReplyA.Rcode ≠ RcodeServerFailure :=
  ⟨rfl, by decide,
    serveDNS_rcode exManagerOffers exManagerServed
      (exQuery "00010203-0405-4007-8009-0a0b0c0d0e0f.r.test." TypeA) exReplyA
      ⟨"00010203-0405-4007-8009-0a0b0c0d0e0f.r.test.", TypeA, ClassINET⟩ [] rfl (by decide)⟩

/-- C5 (counterexample): the AAAA query for the first offer of an IPv4 victim is
answered with an empty answer section and RCODE NOERROR, not REFUSED. -/
theorem serveDNS_empty_answer_counterexample :
    ∃ reply, (exManagerOffers.ServeDNS
        (exQuery "00010203-0405-4007-8009-0a0b0c0d0e0f.r.test." TypeAAAA)).map Prod.fst =
        some reply ∧
      reply.Answer = [] ∧ reply.Rcode = RcodeSuccess ∧ reply.Rcode ≠ RcodeRefused :=
  ⟨{ SetReply (exQuery "00010203-0405-4007-8009-0a0b0c0d0e0f.r.test." TypeAAAA) with Answer := [] },
    by decide, rfl, rfl, by decide⟩

/-- HandleDNS of a TTLRebind changes the flag rebind only. -/
theorem TTLRebind.HandleDNS_fields (r : TTLRebind) (q : Nat) :
    (r.HandleDNS q).2.target = r.target ∧ (r.HandleDNS q).2.ttl = r.ttl ∧
    (r.HandleDNS q).2.v4Server = r.v4Server ∧ (r.HandleDNS q).2.v6Server = r.v6Server := by
  unfold TTLRebind.HandleDNS
  by_cases hr : r.rebind = false
  · simp only [hr, if_true]
    by_cases hq : q = TypeAAAA
    · simp only [hq, if_true]; cases r.v6Server <;> simp
    · simp only [hq, if_false]; cases r.v4Server <;> simp
  · simp only [hr, if_false]
    by_cases hc : (r.target.IP.To4 = [] ∧ q = TypeAAAA) ∨ (r.target.IP.To4 ≠ [] ∧ q = TypeA)
    · simp only [hc, if_true, Bool.true_eq_false, if_false, and_self]
    · simp only [hc, if_false, Bool.true_eq_false, and_self]

theorem TTLRebind.handleAll_fields (qs : List Nat) : ∀ r : TTLRebind,
    (r.handleAll qs).2.target = r.target ∧ (r.handleAll qs).2.ttl = r.ttl ∧
    (r.handleAll qs).2.v4Server = r.v4Server ∧ (r.handleAll qs).2.v6Server = r.v6Server := by
  induction qs with
  | nil => intro r; simp [TTLRebind.handleAll]
  | cons q qs ih =>
    intro r
    obtain ⟨a1, a2, a3, a4⟩ := ih (r.HandleDNS q).2
    obtain ⟨b1, b2, b3, b4⟩ := TTLRebind.HandleDNS_fields r q
    simp only [TTLRebind.handleAll]
    exact ⟨a1.trans b1, a2.trans b2, a3.trans b3, a4.trans b4⟩

/-- A TTLRebind without IPv6 listener whose victim has a 4-byte form answers an
AAAA query with nothing, primed or not. -/
theorem TTLRebind.HandleDNS_AAAA_of_v4 (r : TTLRebind) (h4 : r.target.IP.To4 ≠ [])
    (h6 : r.v6Server = none) : (r.HandleDNS TypeAAAA).1 = [] := by
  unfold TTLRebind.HandleDNS
  by_cases hr : r.rebind = false
  · simp [hr, h6]
  · simp [hr, h4, TypeA, TypeAAAA]

/-- C6: for every TTLRebind that NewTTLRebind built for a victim that is a
literal IPv4 address, in every state that calls of HandleDNS can bring it to
(primed or not), registered under a UUID: an AAAA query for the name of that
UUID gets the empty answer set from HandleDNS, and the reply of ServeDNS has no
answer records and RCODE NOERROR. -/
theorem ttl_ipv4_victim_AAAA_empty_noerror (o : Oracle) (ctx : Ctx) (m0 m1 : RebindManager)
    (target : Address) (ttl : Nat) (r0 : TTLRebind) (history : List Nat)
    (m : RebindManager) (req : Msg) (q : Question) (qs : List Question) (u : UUID)
    (rest : String)
    (hnew : NewTTLRebind o ctx m0 target ttl = some (r0, m1))
    (hv4 : target.IP.To4 ≠ [])
    (hq : req.Question = q :: qs) (hlen : u.length = 16) (hb : ∀ b ∈ u, b < 256)
    (hname : q.Name = UUID.String u ++ "." ++ rest) (htype : q.Qtype = TypeAAAA)
    (hr : mapGet u m.Rebinds = some (.ttl (r0.handleAll history).2)) :
    ((r0.handleAll history).2.HandleDNS TypeAAAA).1 = [] ∧
    ∃ reply m2, m.ServeDNS req = some (reply, m2) ∧ reply.Answer = [] ∧
      reply.Rcode = RcodeSuccess := by
  obtain ⟨ht, -, -, -, -, h4⟩ := NewTTLRebind_fresh hnew
  obtain ⟨f1, -, -, f4⟩ := TTLRebind.handleAll_fields history r0
  have hempty : ((r0.handleAll history).2.HandleDNS TypeAAAA).1 = [] := by
    apply TTLRebind.HandleDNS_AAAA_of_v4
    · rw [f1, ht]; exact hv4
    · rw [f4]; exact (h4 hv4).2
  refine ⟨hempty, _, _, ServeDNS_registered m req q qs u rest _ hq hlen hb hname hr, ?_, rfl⟩
  simp [htype, RebindMethod.HandleDNS, hempty]

theorem ttl_ipv4_victim_AAAA_empty_noerror_witness :
    NewTTLRebind exOracle 1 exManager exVictim 1 = some (exTTL, exManagerTTL) ∧
    exVictim.IP.To4 ≠ [] ∧
    (exQuery "00010203-0405-4007-8009-0a0b0c0d0e0f.r.test." TypeAAAA).Question =
      ⟨"00010203-0405-4007-8009-0a0b0c0d0e0f.r.test.", TypeAAAA, ClassINET⟩ :: [] ∧
    exID0.length = 16 ∧ (∀ b ∈ exID0, b < 256) ∧
    "00010203-0405-4007-8009-0a0b0c0d0e0f.r.test." = UUID.String exID0 ++ "." ++ "r.test." ∧
    TypeAAAA = TypeAAAA ∧
    mapGet exID0 exManagerServed.Rebinds = some (.ttl (exTTL.handleAll [TypeA]).2) ∧
    ((exTTL.handleAll [TypeA]).2.HandleDNS TypeAAAA).1 = [] ∧
    ∃ reply m2, exManagerServed.ServeDNS
        (exQuery "00010203-0405-4007-8009-0a0b0c0d0e0f.r.test." TypeAAAA) = some (reply, m2) ∧
      reply.Answer = [] ∧ reply.Rcode = RcodeSuccess :=
  ⟨by decide, by decide, rfl, by decide, by decide, by decide, rfl, by decide,
    ttl_ipv4_victim_AAAA_empty_noerror exOracle 1 exManager exManagerTTL exVictim 1 exTTL [TypeA]
      exManagerServed (exQuery "00010203-0405-4007-8009-0a0b0c0d0e0f.r.test." TypeAAAA)
      ⟨"00010203-0405-4007-8009-0a0b0c0d0e0f.r.test.", TypeAAAA, ClassINET⟩ [] exID0 "r.test."
      (by decide) (by decide) rfl (by decide) (by decide) (by decide) rfl (by decide)⟩

/-- C7 (the code at the failing input): the pool entry binds 10.0.0.1 and
advertises 198.51.100.7; the first A query for the first offer is answered from
the listener, and the A record carries 10.0.0.1, the InternalIP. -/
theorem serveDNS_listener_record_internal_ip :
    ((exManagerMapped.MakeOffer exOracle 1 exHostRequest).bind fun p =>
      (p.2.ServeDNS (exQuery "00010203-0405-4007-8009-0a0b0c0d0e0f.r.test." TypeA)).map
        fun s => s.1.Answer) =
      some [some (RR.A ⟨"00010203-0405-4007-8009-0a0b0c0d0e0f.r.test.", TypeA, ClassINET, 1⟩
        (exIPv4 10 0 0 1))] ∧
    exMappedAddr.InternalIP = exIPv4 10 0 0 1 ∧ exMappedAddr.ExternalIP = exIPv4 198 51 100 7 ∧
    exIPv4 10 0 0 1 ≠ exIPv4 198 51 100 7 := by
  decide

theorem eligible_fold_eq_all (criteriaList : List PoolCriteria) (ctxs : List Ctx)
    (addr : Address) : ∀ b : Bool,
    criteriaList.foldl (fun eligible criteria =>
      if !(criteria.Eligible ctxs addr) then false else eligible) b =
      (b && criteriaList.all fun c => c.Eligible ctxs addr) := by
  induction criteriaList with
  | nil => intro b; simp
  | cons c cs ih =>
    intro b
    simp only [List.foldl_cons, List.all_cons, ih]
    cases c.Eligible ctxs addr <;> cases b <;> simp

theorem filter_fold_eq {α : Type} (P : α → Bool) (l : List α) : ∀ init : List α,
    l.foldl (fun acc a => if P a then acc ++ [a] else acc) init = init ++ l.filter P := by
  induction l with
  | nil => intro init; simp
  | cons a l ih =>
    intro init
    simp only [List.foldl_cons, ih, List.filter_cons]
    cases P a <;> simp

theorem Pool.eligibleAddrs_eq (p : Pool) (criteriaList : List PoolCriteria) :
    p.eligibleAddrs criteriaList =
      p.addrs.filter fun addr =>
        criteriaList.all fun c => c.Eligible (p.leasesOf addr.String) addr := by
  unfold Pool.eligibleAddrs
  have h := filter_fold_eq
    (fun addr => criteriaList.all fun c => c.Eligible (p.leasesOf addr.String) addr) p.addrs []
  simp only [List.nil_append] at h
  rw [← h]
  congr 1
  funext acc addr
  simp only [eligible_fold_eq_all, Bool.true_and]

theorem Eligible_iff_holds (c : PoolCriteria) (ctxs : List Ctx) (addr : Address) :
    c.Eligible ctxs addr = true ↔ CriterionHolds c addr := by
  cases c with
  | AddressFamily ipv6 =>
    simp only [PoolCriteria.Eligible, CriterionHolds, Address.IP, decide_eq_true_eq]
    by_cases h : addr.InternalIP.To4 = [] <;> cases ipv6 <;> simp [h]
  | ExternalIPMatch a => simp [PoolCriteria.Eligible, CriterionHolds]

theorem Pool.mem_eligibleAddrs (p : Pool) (criteriaList : List PoolCriteria) (addr : Address) :
    addr ∈ p.eligibleAddrs criteriaList ↔
      addr ∈ p.addrs ∧ ∀ c ∈ criteriaList, CriterionHolds c addr := by
  rw [Pool.eligibleAddrs_eq, List.mem_filter, List.all_eq_true]
  constructor
  · rintro ⟨h1, h2⟩
    exact ⟨h1, fun c hc => (Eligible_iff_holds c _ addr).mp (h2 c hc)⟩
  · rintro ⟨h1, h2⟩
    exact ⟨h1, fun c hc => (Eligible_iff_holds c _ addr).mpr (h2 c hc)⟩

/-- Pool.Lease succeeds on a pool with an eligible entry, and what it returns. -/
theorem Pool.Lease_of_eligible (p : Pool) (ctx : Ctx) (criteriaList : List PoolCriteria)
    (rnd : Nat) (hex : ∃ a ∈ p.addrs, ∀ c ∈ criteriaList, CriterionHolds c a) :
    ∃ addr p1 g, p.Lease ctx criteriaList rnd = some (addr, p1, g) ∧ addr ∈ p.addrs ∧
      (∀ c ∈ criteriaList, CriterionHolds c addr) ∧ p1.addrs = p.addrs := by
  obtain ⟨a, ha, hc⟩ := hex
  have hmem : a ∈ p.eligibleAddrs criteriaList := (Pool.mem_eligibleAddrs p _ a).mpr ⟨ha, hc⟩
  have hpos : 0 < (p.eligibleAddrs criteriaList).length := List.length_pos_of_mem hmem
  have hlt : rnd % (p.eligibleAddrs criteriaList).length < (p.eligibleAddrs criteriaList).length :=
    Nat.mod_lt _ hpos
  unfold Pool.Lease
  simp only [Nat.ne_of_gt hpos, if_false]
  obtain ⟨addr, haddr⟩ : ∃ addr, (p.eligibleAddrs criteriaList).get?
      (rnd % (p.eligibleAddrs criteriaList).length) = some addr :=
    ⟨_, List.get?_eq_get hlt⟩
  have hin : addr ∈ p.eligibleAddrs criteriaList := List.get?_mem haddr
  obtain ⟨h1, h2⟩ := (Pool.mem_eligibleAddrs p _ addr).mp hin
  rw [haddr]
  exact ⟨addr, _, _, rfl, h1, h2, rfl⟩

/-- C10: for every pool, every list of criteria and every outcome of the random
choice, when at least one pool entry satisfies all criteria, Pool.Lease returns
an entry of the pool that satisfies every criterion of the list, and the
address list of the pool is unchanged. -/
theorem lease_returns_eligible_entry (p : Pool) (ctx : Ctx) (criteriaList : List PoolCriteria)
    (rnd : Nat) (hex : ∃ a ∈ p.addrs, ∀ c ∈ criteriaList, CriterionHolds c a) :
    ∃ addr p1 g, p.Lease ctx criteriaList rnd = some (addr, p1, g) ∧ addr ∈ p.addrs ∧
      (∀ c ∈ criteriaList, CriterionHolds c addr) ∧ p1.addrs = p.addrs :=
  Pool.Lease_of_eligible p ctx criteriaList rnd hex

theorem lease_returns_eligible_entry_witness :
    (∃ a ∈ (NewPool [exMappedAddr, exPoolAddr]).addrs,
      ∀ c ∈ [PoolCriteria.AddressFamily false, PoolCriteria.ExternalIPMatch exPoolAddr],
        CriterionHolds c a) ∧
    ∃ addr p1 g, (NewPool [exMappedAddr, exPoolAddr]).Lease 1
        [PoolCriteria.AddressFamily false, PoolCriteria.ExternalIPMatch exPoolAddr] 5 =
        some (addr, p1, g) ∧
      addr ∈ (NewPool [exMappedAddr, exPoolAddr]).addrs ∧
      (∀ c ∈ [PoolCriteria.AddressFamily false, PoolCriteria.ExternalIPMatch exPoolAddr],
        CriterionHolds c addr) ∧
      p1.addrs = (NewPool [exMappedAddr, exPoolAddr]).addrs :=
  have hex : ∃ a ∈ (NewPool [exMappedAddr, exPoolAddr]).addrs,
      ∀ c ∈ [PoolCriteria.AddressFamily false, PoolCriteria.ExternalIPMatch exPoolAddr],
        CriterionHolds c a :=
    ⟨exPoolAddr, by decide, by
      intro c hc
      simp only [List.mem_cons, List.mem_singleton, List.not_mem_nil, or_false] at hc
      rcases hc with rfl | rfl
      · show decide (exPoolAddr.InternalIP.To4 = []) = false
        decide
      · show IP.Equal exPoolAddr.ExternalIP exPoolAddr.ExternalIP = true
        decide⟩
  ⟨hex, lease_returns_eligible_entry (NewPool [exMappedAddr, exPoolAddr]) 1
    [PoolCriteria.AddressFamily false, PoolCriteria.ExternalIPMatch exPoolAddr] 5 hex⟩

theorem SameRegistry.refl (m : RebindManager) : SameRegistry m m := ⟨rfl, rfl, rfl, rfl⟩

theorem SameRegistry.trans {m m1 m2 : RebindManager} (h1 : SameRegistry m m1)
    (h2 : SameRegistry m1 m2) : SameRegistry m m2 :=
  ⟨h2.1.trans h1.1, h2.2.1.trans h1.2.1, h2.2.2.1.trans h1.2.2.1, h2.2.2.2.trans h1.2.2.2⟩

theorem GetHTTPServer_same (m : RebindManager) (ctx : Ctx) (bind addr : Address) :
    SameRegistry m (m.GetHTTPServer ctx bind addr).2 := by
  simp only [RebindManager.GetHTTPServer]
  rcases m.findServer { bind.Clone with Port := addr.Port } with _ | srv
  · exact ⟨rfl, rfl, rfl, rfl⟩
  · exact ⟨rfl, rfl, rfl, rfl⟩

theorem leaseServer_same {o : Oracle} {m m1 : RebindManager} {ctx : Ctx} {ipv6 : Bool}
    {target : Address} {srv : HTTPServer}
    (h : m.leaseServer o ctx ipv6 target = some (srv, m1)) : SameRegistry m m1 := by
  unfold RebindManager.leaseServer RebindManager.Lease at h
  cases hl : m.pool.Lease ctx [.AddressFamily ipv6] (o.Intn m.draws) with
  | none => simp [hl] at h
  | some res =>
    obtain ⟨addr, pool, g⟩ := res
    simp only [hl, Option.some.injEq] at h
    have hp : pool.addrs = m.pool.addrs := by
      simp only [Pool.Lease] at hl
      split at hl
      · simp at hl
      · split at hl
        · simp at hl
        · simp only [Option.some.injEq, Prod.mk.injEq] at hl
          rw [← hl.2.1]
    have hg := GetHTTPServer_same
      { m with pool := pool, goroutines := m.goroutines ++ [g], draws := m.draws + 1 } ctx addr
      target
    rw [h] at hg
    exact ⟨hg.1, hg.2.1, hg.2.2.1, hg.2.2.2.trans hp⟩

theorem leaseServer_of_entry (o : Oracle) (m : RebindManager) (ctx : Ctx) (ipv6 : Bool)
    (target : Address)
    (h : ∃ a ∈ m.pool.addrs, decide (a.InternalIP.To4 = []) = ipv6) :
    ∃ srv m1, m.leaseServer o ctx ipv6 target = some (srv, m1) := by
  obtain ⟨a, ha, hfam⟩ := h
  obtain ⟨addr, p1, g, hl, -, -, -⟩ := Pool.Lease_of_eligible m.pool ctx [.AddressFamily ipv6]
    (o.Intn m.draws) ⟨a, ha, by
      intro c hc
      simp only [List.mem_singleton] at hc
      subst hc
      exact hfam⟩
  unfold RebindManager.leaseServer RebindManager.Lease
  simp only [hl]
  exact ⟨_, _, rfl⟩

theorem PoolCanServe_same {m m1 : RebindManager} {victim : Address} (h : SameRegistry m m1)
    (hp : PoolCanServe m.pool victim) : PoolCanServe m1.pool victim := by
  unfold PoolCanServe at hp ⊢
  rw [h.2.2.2]
  exact hp

theorem NewTTLRebind_of_pool (o : Oracle) (ctx : Ctx) (m : RebindManager) (target : Address)
    (ttl : Nat) (hp : PoolCanServe m.pool target) :
    ∃ r m1, NewTTLRebind o ctx m target ttl = some (r, m1) ∧ SameRegistry m m1 := by
  obtain ⟨hp4, hp6⟩ := hp
  unfold NewTTLRebind
  by_cases h1 : target.IP = []
  · have h2 : target.InternalIP.To4 = [] := by
      have : target.InternalIP = [] := h1
      rw [this]; exact IP.To4_nil
    obtain ⟨a4, ha4, hf4⟩ := hp4 (Or.inl h1)
    obtain ⟨s4, m4, e4⟩ := leaseServer_of_entry o m ctx false target ⟨a4, ha4, by simp [hf4]⟩
    have hs4 := leaseServer_same e4
    obtain ⟨a6, ha6, hf6⟩ := hp6 h2
    obtain ⟨s6, m6, e6⟩ := leaseServer_of_entry o m4 ctx true target
      ⟨a6, by rw [hs4.2.2.2]; exact ha6, by simp [hf6]⟩
    simp only [h1, if_true, e4, e6]
    exact ⟨_, _, rfl, hs4.trans (leaseServer_same e6)⟩
  · simp only [h1, if_false]
    by_cases h2 : target.IP.To4 = []
    · obtain ⟨a6, ha6, hf6⟩ := hp6 h2
      obtain ⟨s6, m6, e6⟩ := leaseServer_of_entry o m ctx true target ⟨a6, ha6, by simp [hf6]⟩
      simp only [h2, if_true, e6]
      exact ⟨_, _, rfl, leaseServer_same e6⟩
    · obtain ⟨a4, ha4, hf4⟩ := hp4 (Or.inr h2)
      obtain ⟨s4, m4, e4⟩ := leaseServer_of_entry o m ctx false target ⟨a4, ha4, by simp [hf4]⟩
      simp only [h2, if_false, e4]
      exact ⟨_, _, rfl, leaseServer_same e4⟩

theorem NewThresholdRebind_of_pool (o : Oracle) (ctx : Ctx) (m : RebindManager)
    (target : Address) (threshold ttl : Nat) (hp : PoolCanServe m.pool target) :
    ∃ r m1, NewThresholdRebind o ctx m target threshold ttl = some (r, m1) ∧
      SameRegistry m m1 := by
  obtain ⟨hp4, hp6⟩ := hp
  unfold NewThresholdRebind
  by_cases h1 : target.IP = []
  · have h2 : target.InternalIP.To4 = [] := by
      have : target.InternalIP = [] := h1
      rw [this]; exact IP.To4_nil
    obtain ⟨a4, ha4, hf4⟩ := hp4 (Or.inl h1)
    obtain ⟨s4, m4, e4⟩ := leaseServer_of_entry o m ctx false target ⟨a4, ha4, by simp [hf4]⟩
    have hs4 := leaseServer_same e4
    obtain ⟨a6, ha6, hf6⟩ := hp6 h2
    obtain ⟨s6, m6, e6⟩ := leaseServer_of_entry o m4 ctx true target
      ⟨a6, by rw [hs4.2.2.2]; exact ha6, by simp [hf6]⟩
    simp only [h1, if_true, e4, e6]
    exact ⟨_, _, rfl, hs4.trans (leaseServer_same e6)⟩
  · simp only [h1, if_false]
    by_cases h2 : target.IP.To4 = []
    · obtain ⟨a6, ha6, hf6⟩ := hp6 h2
      obtain ⟨s6, m6, e6⟩ := leaseServer_of_entry o m ctx true target ⟨a6, ha6, by simp [hf6]⟩
      simp only [h2, if_true, e6]
      exact ⟨_, _, rfl, leaseServer_same e6⟩
    · obtain ⟨a4, ha4, hf4⟩ := hp4 (Or.inr h2)
      obtain ⟨s4, m4, e4⟩ := leaseServer_of_entry o m ctx false target ⟨a4, ha4, by simp [hf4]⟩
      simp only [h2, if_false, e4]
      exact ⟨_, _, rfl, leaseServer_same e4⟩

theorem MethodCall.run_of_pool (c : MethodCall) (o : Oracle) (ctx : Ctx) (m : RebindManager)
    (host : Address) (hp : PoolCanServe m.pool host) :
    ∃ meth m1, c.run o ctx m host = some (meth, m1) ∧ SameRegistry m m1 ∧
      IsMenuStrategy meth c.entry host := by
  cases c with
  | NewTTLRebind ttl =>
    obtain ⟨r, m1, e, hs⟩ := NewTTLRebind_of_pool o ctx m host ttl hp
    obtain ⟨f1, f2, f3, -⟩ := NewTTLRebind_fresh e
    exact ⟨.ttl r, m1, by simp [MethodCall.run, e], hs, ⟨f2, f1, f3⟩⟩
  | NewThresholdRebind threshold ttl =>
    obtain ⟨r, m1, e, hs⟩ := NewThresholdRebind_of_pool o ctx m host threshold ttl hp
    obtain ⟨f1, f2, f3, -⟩ := NewThresholdRebind_fresh e
    exact ⟨.threshold r, m1, by simp [MethodCall.run, e], hs, ⟨f3, f2, f1⟩⟩

theorem buildMethods_of_pool (o : Oracle) (ctx : Ctx) (host : Address) (calls : List MethodCall) :
    ∀ m : RebindManager, PoolCanServe m.pool host →
    ∃ meths m1, buildMethods o ctx host calls m = some (meths, m1) ∧ SameRegistry m m1 ∧
      List.Forall₂ (fun meth c => IsMenuStrategy meth (MethodCall.entry c) host) meths calls := by
  induction calls with
  | nil => intro m _; exact ⟨[], m, rfl, SameRegistry.refl m, List.Forall₂.nil⟩
  | cons c cs ih =>
    intro m hp
    obtain ⟨meth, m1, e1, hs1, hd1⟩ := MethodCall.run_of_pool c o ctx m host hp
    obtain ⟨meths, m2, e2, hs2, hd2⟩ := ih m1 (PoolCanServe_same hs1 hp)
    refine ⟨meth :: meths, m2, ?_, hs1.trans hs2, List.Forall₂.cons hd1 hd2⟩
    simp only [buildMethods, e1, e2]

theorem mem_mapKeys_mapSet {κ α : Type} [DecidableEq κ] (k k1 : κ) (v : α) :
    ∀ m : List (κ × α), k1 ∈ mapKeys (mapSet k v m) ↔ k1 = k ∨ k1 ∈ mapKeys m := by
  intro m
  induction m with
  | nil => simp [mapSet, mapKeys]
  | cons p m ih =>
    obtain ⟨k2, v2⟩ := p
    simp only [mapSet]
    by_cases h : k2 = k
    · simp only [h, if_true, mapKeys, List.map_cons, List.mem_cons]
      tauto
    · simp only [h, if_false]
      simp only [mapKeys, List.map_cons, List.mem_cons] at ih ⊢
      rw [ih]
      tauto

theorem mapGet_mapSet_self {κ α : Type} [DecidableEq κ] (k : κ) (v : α) :
    ∀ m : List (κ × α), mapGet k (mapSet k v m) = some v := by
  intro m
  induction m with
  | nil => simp [mapSet, mapGet]
  | cons p m ih =>
    obtain ⟨k2, v2⟩ := p
    simp only [mapSet]
    by_cases h : k2 = k
    · simp [h, mapGet]
    · simp [h, mapGet, ih]

theorem mapGet_mapSet_ne {κ α : Type} [DecidableEq κ] (k k1 : κ) (v : α) (hne : k1 ≠ k) :
    ∀ m : List (κ × α), mapGet k1 (mapSet k v m) = mapGet k1 m := by
  intro m
  induction m with
  | nil => simp [mapSet, mapGet, Ne.symm hne]
  | cons p m ih =>
    obtain ⟨k2, v2⟩ := p
    simp only [mapSet]
    by_cases h : k2 = k
    · subst h
      simp [mapGet, Ne.symm hne]
    · simp only [h, if_false, mapGet, ih]

theorem length_mapSet_new {κ α : Type} [DecidableEq κ] (k : κ) (v : α) :
    ∀ m : List (κ × α), k ∉ mapKeys m → (mapSet k v m).length = m.length + 1 := by
  intro m
  induction m with
  | nil => intro _; rfl
  | cons p m ih =>
    obtain ⟨k2, v2⟩ := p
    intro hk
    simp only [mapKeys, List.map_cons, List.mem_cons, not_or] at hk
    have h : ¬ k2 = k := fun e => hk.1 e.symm
    simp only [mapSet, h, if_false, List.length_cons]
    rw [ih hk.2]

theorem mapSetAll_keys {κ α : Type} [DecidableEq κ] (kvs : List (κ × α)) :
    ∀ (R : List (κ × α)) (k : κ), k ∈ kvs.map Prod.fst ∨ k ∈ mapKeys R →
      k ∈ mapKeys (kvs.foldl (fun R kv => mapSet kv.1 kv.2 R) R) := by
  induction kvs with
  | nil => intro R k h; simpa using h
  | cons kv kvs ih =>
    intro R k h
    simp only [List.foldl_cons]
    apply ih
    simp only [List.map_cons, List.mem_cons] at h
    rcases h with (h | h) | h
    · right; exact (mem_mapKeys_mapSet _ _ _ _).mpr (Or.inl h)
    · left; exact h
    · right; exact (mem_mapKeys_mapSet _ _ _ _).mpr (Or.inr h)

theorem mapSetAll_get_other {κ α : Type} [DecidableEq κ] (kvs : List (κ × α)) :
    ∀ (R : List (κ × α)) (k : κ), k ∉ kvs.map Prod.fst →
      mapGet k (kvs.foldl (fun R kv => mapSet kv.1 kv.2 R) R) = mapGet k R := by
  induction kvs with
  | nil => intro R k _; rfl
  | cons kv kvs ih =>
    intro R k h
    simp only [List.map_cons, List.mem_cons, not_or] at h
    simp only [List.foldl_cons]
    rw [ih _ k h.2, mapGet_mapSet_ne _ _ _ h.1]

theorem mapSetAll_get {κ α : Type} [DecidableEq κ] (kvs : List (κ × α)) :
    ∀ (R : List (κ × α)), (kvs.map Prod.fst).Nodup → ∀ kv ∈ kvs,
      mapGet kv.1 (kvs.foldl (fun R kv => mapSet kv.1 kv.2 R) R) = some kv.2 := by
  induction kvs with
  | nil => intro R _ kv h; simp at h
  | cons kv0 kvs ih =>
    intro R hnd kv hkv
    simp only [List.map_cons, List.nodup_cons] at hnd
    simp only [List.foldl_cons]
    rcases List.mem_cons.mp hkv with rfl | hkv
    · rw [mapSetAll_get_other kvs _ _ hnd.1, mapGet_mapSet_self]
    · exact ih _ hnd.2 kv hkv

theorem mapSetAll_length {κ α : Type} [DecidableEq κ] (kvs : List (κ × α)) :
    ∀ (R : List (κ × α)), (kvs.map Prod.fst).Nodup →
      (∀ k ∈ kvs.map Prod.fst, k ∉ mapKeys R) →
      (kvs.foldl (fun R kv => mapSet kv.1 kv.2 R) R).length = R.length + kvs.length := by
  induction kvs with
  | nil => intro R _ _; rfl
  | cons kv0 kvs ih =>
    intro R hnd hfresh
    simp only [List.map_cons, List.nodup_cons] at hnd
    simp only [List.foldl_cons, List.length_cons]
    rw [ih _ hnd.2, length_mapSet_new _ _ _ (hfresh kv0.1 (by simp))]
    · omega
    · intro k hk hmem
      rcases (mem_mapKeys_mapSet _ _ _ _).mp hmem with h | h
      · exact hnd.1 (h ▸ hk)
      · exact hfresh k (by simp [hk]) h

/-- The loop of MakeOffer: the offers it appends and the registry it leaves. -/
theorem offerLoop_spec (o : Oracle) (port : String) (methods : List RebindMethod) :
    ∀ (offers : List RebindOffer) (m : RebindManager),
      (offerLoop o port methods offers m).1 =
        offers ++ (List.range methods.length).map (fun i =>
          ⟨o.NewV4 (m.minted + i), offerURL (o.NewV4 (m.minted + i)) m.base port⟩) ∧
      (offerLoop o port methods offers m).2.Rebinds =
        (((List.range methods.length).map (fun i => o.NewV4 (m.minted + i))).zip methods).foldl
          (fun R kv => mapSet kv.1 kv.2 R) m.Rebinds := by
  induction methods with
  | nil => intro offers m; simp [offerLoop]
  | cons method methods ih =>
    intro offers m
    obtain ⟨h1, h2⟩ := ih (offers ++ [⟨o.NewV4 m.minted, offerURL (o.NewV4 m.minted) m.base port⟩])
      { m with Rebinds := mapSet (o.NewV4 m.minted) method m.Rebinds, minted := m.minted + 1 }
    simp only [offerLoop, List.length_cons, List.range_succ_eq_map, List.map_cons, List.map_map,
      List.zip_cons_cons, List.foldl_cons, Nat.add_zero]
    constructor
    · rw [h1]
      simp only [List.append_assoc, List.singleton_append]
      congr 2
      apply List.map_congr_left
      intro i _
      simp only [Function.comp, Nat.succ_eq_add_one, Nat.add_assoc, Nat.add_comm 1 i]
    · rw [h2]
      congr 2
      apply List.map_congr_left
      intro i _
      simp only [Function.comp, Nat.succ_eq_add_one, Nat.add_assoc, Nat.add_comm 1 i]

/-- What MakeOffer returns on a pool that can serve the victim. -/
theorem MakeOffer_spec (o : Oracle) (m : RebindManager) (ctx : Ctx)
    (req : WebSocketHostRequest) (host : Address)
    (hhost : req.Host = some host) (hpool : PoolCanServe m.pool host) :
    ∃ methods m1 m2, m.MakeOffer o ctx req =
        some ((List.range 9).map (fun i =>
          ⟨o.NewV4 (m.minted + i), offerURL (o.NewV4 (m.minted + i)) m.base host.Port⟩), m2) ∧
      methods.length = 9 ∧ SameRegistry m m1 ∧
      List.Forall₂ (fun meth c => IsMenuStrategy meth (MethodCall.entry c) host) methods
        offerMethods ∧
      m2.Rebinds = (((List.range 9).map (fun i => o.NewV4 (m.minted + i))).zip methods).foldl
        (fun R kv => mapSet kv.1 kv.2 R) m.Rebinds := by
  obtain ⟨methods, m1, eb, hsame, hf2⟩ := buildMethods_of_pool o ctx host offerMethods m hpool
  have hlen : methods.length = 9 := hf2.length_eq
  obtain ⟨h1, h2⟩ := offerLoop_spec o host.Port methods [] m1
  simp only [hlen, hsame.1, hsame.2.1, hsame.2.2.1, List.nil_append] at h1 h2
  refine ⟨methods, m1, (offerLoop o host.Port methods [] m1).2, ?_, hlen, hsame, hf2, h2⟩
  unfold RebindManager.MakeOffer
  simp only [hhost, eb]
  rw [← h1]

/-- C8: for every host request whose victim is an Address and a pool that has
an entry of each family the victim needs, MakeOffer returns exactly 9 offers;
the i-th offer has the i-th minted id and the URL http://id.base:port of the
victim/.well-known/rebind/v1.frame for that id; every returned id is a key of
Rebinds when MakeOffer returns; with pairwise distinct ids the i-th id is mapped
to the i-th strategy of the menu TTL(1), TTL(2), TTL(4), TTL(8), TTL(16),
Threshold(1,2), Threshold(2,2), Threshold(3,4), Threshold(4,4), fresh and aimed
at the victim, and, the ids being new to the registry, the registry grows
by 9. -/
theorem makeOffer_nine_offers_registered (o : Oracle) (m : RebindManager) (ctx : Ctx)
    (req : WebSocketHostRequest) (host : Address)
    (hhost : req.Host = some host) (hpool : PoolCanServe m.pool host) :
    ∃ offers m1, m.MakeOffer o ctx req = some (offers, m1) ∧
      offers.length = 9 ∧
      (∀ i, i < 9 → ∃ offer, offers[i]? = some offer ∧
        offer.ID = o.NewV4 (m.minted + i) ∧
        offer.URL = "http://" ++ offer.ID.String ++ "." ++ m.base ++ ":" ++ host.Port ++
          "/.well-known/rebind/v1.frame" ∧
        offer.ID ∈ mapKeys m1.Rebinds) ∧
      ((offers.map fun offer => offer.ID).Nodup →
        ∀ i, i < 9 → ∃ offer entry meth, offers[i]? = some offer ∧ specMenu[i]? = some entry ∧
          mapGet offer.ID m1.Rebinds = some meth ∧ IsMenuStrategy meth entry host) ∧
      ((offers.map fun offer => offer.ID).Nodup →
        (∀ offer ∈ offers, offer.ID ∉ mapKeys m.Rebinds) →
        m1.Rebinds.length = m.Rebinds.length + 9) := by
  obtain ⟨methods, mb, m2, hmk, hlen, -, hf2, hreg⟩ := MakeOffer_spec o m ctx req host hhost hpool
  have hids : ((List.range 9).map (fun i => (⟨o.NewV4 (m.minted + i),
      offerURL (o.NewV4 (m.minted + i)) m.base host.Port⟩ : RebindOffer))).map
      (fun offer => offer.ID) = (List.range 9).map (fun i => o.NewV4 (m.minted + i)) := by
    simp [List.map_map, Function.comp]
  have hfst : (((List.range 9).map (fun i => o.NewV4 (m.minted + i))).zip methods).map Prod.fst =
      (List.range 9).map (fun i => o.NewV4 (m.minted + i)) :=
    List.map_fst_zip _ _ (by simp [hlen])
  have hget : ∀ i, i < 9 → ((List.range 9).map (fun i => (⟨o.NewV4 (m.minted + i),
      offerURL (o.NewV4 (m.minted + i)) m.base host.Port⟩ : RebindOffer)))[i]? =
      some ⟨o.NewV4 (m.minted + i), offerURL (o.NewV4 (m.minted + i)) m.base host.Port⟩ := by
    intro i hi
    simp [List.getElem?_map, List.getElem?_range hi]
  refine ⟨_, m2, hmk, by simp, ?_, ?_, ?_⟩
  · intro i hi
    refine ⟨_, hget i hi, rfl, rfl, ?_⟩
    rw [hreg]
    apply mapSetAll_keys
    left
    rw [hfst]
    exact List.mem_map.mpr ⟨i, List.mem_range.mpr hi, rfl⟩
  · intro hnd i hi
    rw [hids] at hnd
    have hi1 : i < methods.length := by omega
    have hi2 : i < offerMethods.length := by simpa [offerMethods] using hi
    have hrel := hf2.get hi1 hi2
    refine ⟨_, (offerMethods.get ⟨i, hi2⟩).entry, methods.get ⟨i, hi1⟩, hget i hi, ?_, ?_, hrel⟩
    · have : specMenu = offerMethods.map MethodCall.entry := by decide
      rw [this, List.getElem?_map, List.getElem?_eq_getElem hi2]
      rfl
    · rw [hreg]
      have hmem : (o.NewV4 (m.minted + i), methods.get ⟨i, hi1⟩) ∈
          ((List.range 9).map (fun i => o.NewV4 (m.minted + i))).zip methods := by
        apply List.getElem?_mem (n := i)
        rw [List.getElem?_zip_eq_some]
        refine ⟨?_, ?_⟩
        · simp [List.getElem?_map, List.getElem?_range hi]
        · simp [List.getElem?_eq_getElem hi1]
      exact mapSetAll_get _ _ (by rw [hfst]; exact hnd) _ hmem
  · intro hnd hfresh
    rw [hids] at hnd
    rw [hreg, mapSetAll_length _ _ (by rw [hfst]; exact hnd)]
    · simp [hlen]
    · intro k hk
      rw [hfst] at hk
      obtain ⟨i, hi, rfl⟩ := List.mem_map.mp hk
      exact hfresh ⟨o.NewV4 (m.minted + i), offerURL (o.NewV4 (m.minted + i)) m.base host.Port⟩
        (List.mem_map.mpr ⟨i, hi, rfl⟩)

theorem makeOffer_nine_offers_registered_witness :
    exHostRequest.Host = some exVictim ∧ PoolCanServe exManager.pool exVictim ∧
    ∃ offers m1, exManager.MakeOffer exOracle 1 exHostRequest = some (offers, m1) ∧
      offers.length = 9 ∧
      (∀ i, i < 9 → ∃ offer, offers[i]? = some offer ∧
        offer.ID = exOracle.NewV4 (exManager.minted + i) ∧
        offer.URL = "http://" ++ offer.ID.String ++ "." ++ exManager.base ++ ":" ++
          exVictim.Port ++ "/.well-known/rebind/v1.frame" ∧
        offer.ID ∈ mapKeys m1.Rebinds) ∧
      ((offers.map fun offer => offer.ID).Nodup →
        ∀ i, i < 9 → ∃ offer entry meth, offers[i]? = some offer ∧ specMenu[i]? = some entry ∧
          mapGet offer.ID m1.Rebinds = some meth ∧ IsMenuStrategy meth entry exVictim) ∧
      ((offers.map fun offer => offer.ID).Nodup →
        (∀ offer ∈ offers, offer.ID ∉ mapKeys exManager.Rebinds) →
        m1.Rebinds.length = exManager.Rebinds.length + 9) :=
  have hpool : PoolCanServe exManager.pool exVictim :=
    ⟨fun _ => ⟨exPoolAddr, by decide, by decide⟩, fun h => absurd h (by decide)⟩
  ⟨rfl, hpool, makeOffer_nine_offers_registered exOracle exManager 1 exHostRequest exVictim rfl hpool⟩

theorem NewTTLRebind_same {o : Oracle} {ctx : Ctx} {m m1 : RebindManager} {target : Address}
    {ttl : Nat} {r : TTLRebind} (h : NewTTLRebind o ctx m target ttl = some (r, m1)) :
    SameRegistry m m1 := by
  unfold NewTTLRebind at h
  by_cases h1 : target.IP = []
  · simp only [h1, if_true] at h
    cases h4 : m.leaseServer o ctx false target with
    | none => simp [h4] at h
    | some p4 =>
      obtain ⟨s4, m4⟩ := p4
      simp only [h4] at h
      cases h6 : m4.leaseServer o ctx true target with
      | none => simp [h6] at h
      | some p6 =>
        obtain ⟨s6, m6⟩ := p6
        simp only [h6, Option.some.injEq, Prod.mk.injEq] at h
        obtain ⟨-, rfl⟩ := h
        exact (leaseServer_same h4).trans (leaseServer_same h6)
  · simp only [h1, if_false] at h
    by_cases h2 : target.IP.To4 = []
    · simp only [h2, if_true] at h
      cases h6 : m.leaseServer o ctx true target with
      | none => simp [h6] at h
      | some p6 =>
        obtain ⟨s6, m6⟩ := p6
        simp only [h6, Option.some.injEq, Prod.mk.injEq] at h
        obtain ⟨-, rfl⟩ := h
        exact leaseServer_same h6
    · simp only [h2, if_false] at h
      cases h4 : m.leaseServer o ctx false target with
      | none => simp [h4] at h
      | some p4 =>
        obtain ⟨s4, m4⟩ := p4
        simp only [h4, Option.some.injEq, Prod.mk.injEq] at h
        obtain ⟨-, rfl⟩ := h
        exact leaseServer_same h4

theorem NewThresholdRebind_same {o : Oracle} {ctx : Ctx} {m m1 : RebindManager}
    {target : Address} {threshold ttl : Nat} {r : ThresholdRebind}
    (h : NewThresholdRebind o ctx m target threshold ttl = some (r, m1)) :
    SameRegistry m m1 := by
  unfold NewThresholdRebind at h
  by_cases h1 : target.IP = []
  · simp only [h1, if_true] at h
    cases h4 : m.leaseServer o ctx false target with
    | none => simp [h4] at h
    | some p4 =>
      obtain ⟨s4, m4⟩ := p4
      simp only [h4] at h
      cases h6 : m4.leaseServer o ctx true target with
      | none => simp [h6] at h
      | some p6 =>
        obtain ⟨s6, m6⟩ := p6
        simp only [h6, Option.some.injEq, Prod.mk.injEq] at h
        obtain ⟨-, rfl⟩ := h
        exact (leaseServer_same h4).trans (leaseServer_same h6)
  · simp only [h1, if_false] at h
    by_cases h2 : target.IP.To4 = []
    · simp only [h2, if_true] at h
      cases h6 : m.leaseServer o ctx true target with
      | none => simp [h6] at h
      | some p6 =>
        obtain ⟨s6, m6⟩ := p6
        simp only [h6, Option.some.injEq, Prod.mk.injEq] at h
        obtain ⟨-, rfl⟩ := h
        exact leaseServer_same h6
    · simp only [h2, if_false] at h
      cases h4 : m.leaseServer o ctx false target with
      | none => simp [h4] at h
      | some p4 =>
        obtain ⟨s4, m4⟩ := p4
        simp only [h4, Option.some.injEq, Prod.mk.injEq] at h
        obtain ⟨-, rfl⟩ := h
        exact leaseServer_same h4

theorem buildMethods_same (o : Oracle) (ctx : Ctx) (host : Address) (calls : List MethodCall) :
    ∀ (m m1 : RebindManager) (meths : List RebindMethod),
      buildMethods o ctx host calls m = some (meths, m1) →
      SameRegistry m m1 ∧ meths.length = calls.length := by
  induction calls with
  | nil =>
    intro m m1 meths h
    simp only [buildMethods, Option.some.injEq, Prod.mk.injEq] at h
    obtain ⟨rfl, rfl⟩ := h
    exact ⟨SameRegistry.refl m, rfl⟩
  | cons c cs ih =>
    intro m m1 meths h
    simp only [buildMethods] at h
    cases hc : c.run o ctx m host with
    | none => simp [hc] at h
    | some p =>
      obtain ⟨meth, ma⟩ := p
      simp only [hc] at h
      have hsa : SameRegistry m ma := by
        cases c with
        | NewTTLRebind ttl =>
          simp only [MethodCall.run] at hc
          cases hn : Jaqen.NewTTLRebind o ctx m host ttl with
          | none => simp [hn] at hc
          | some q =>
            obtain ⟨r, mq⟩ := q
            simp only [hn, Option.some.injEq, Prod.mk.injEq] at hc
            obtain ⟨-, rfl⟩ := hc
            exact NewTTLRebind_same hn
        | NewThresholdRebind threshold ttl =>
          simp only [MethodCall.run] at hc
          cases hn : Jaqen.NewThresholdRebind o ctx m host threshold ttl with
          | none => simp [hn] at hc
          | some q =>
            obtain ⟨r, mq⟩ := q
            simp only [hn, Option.some.injEq, Prod.mk.injEq] at hc
            obtain ⟨-, rfl⟩ := hc
            exact NewThresholdRebind_same hn
      cases hb : buildMethods o ctx host cs ma with
      | none => simp [hb] at h
      | some q =>
        obtain ⟨ms, mb⟩ := q
        simp only [hb, Option.some.injEq, Prod.mk.injEq] at h
        obtain ⟨rfl, rfl⟩ := h
        obtain ⟨hsb, hl⟩ := ih ma mb ms hb
        exact ⟨hsa.trans hsb, by simp [hl]⟩

/-- Every id that MakeOffer returns is a key of Rebinds, and the keys that were
there before are still there. -/
theorem MakeOffer_keys {o : Oracle} {m m1 : RebindManager} {ctx : Ctx}
    {req : WebSocketHostRequest} {offers : List RebindOffer}
    (h : m.MakeOffer o ctx req = some (offers, m1)) :
    (∀ offer ∈ offers, offer.ID ∈ mapKeys m1.Rebinds) ∧
    (∀ k ∈ mapKeys m.Rebinds, k ∈ mapKeys m1.Rebinds) := by
  unfold RebindManager.MakeOffer at h
  cases hh : req.Host with
  | none => simp [hh] at h
  | some host =>
    simp only [hh] at h
    cases hb : buildMethods o ctx host offerMethods m with
    | none => simp [hb] at h
    | some p =>
      obtain ⟨methods, mb⟩ := p
      simp only [hb, Option.some.injEq] at h
      obtain ⟨hsame, hlen⟩ := buildMethods_same o ctx host offerMethods m mb methods hb
      obtain ⟨h1, h2⟩ := offerLoop_spec o host.Port methods [] mb
      rw [h] at h1 h2
      simp only [List.nil_append] at h1 h2
      have hfst : (((List.range methods.length).map (fun i => o.NewV4 (mb.minted + i))).zip
          methods).map Prod.fst = (List.range methods.length).map (fun i => o.NewV4 (mb.minted + i)) :=
        List.map_fst_zip _ _ (by simp)
      constructor
      · intro offer hoffer
        rw [h1] at hoffer
        obtain ⟨i, hi, rfl⟩ := List.mem_map.mp hoffer
        rw [h2]
        apply mapSetAll_keys
        left
        rw [hfst]
        exact List.mem_map.mpr ⟨i, hi, rfl⟩
      · intro k hk
        rw [h2]
        apply mapSetAll_keys
        right
        rw [hsame.2.1]
        exact hk

theorem ServeDNS_keys {m m1 : RebindManager} {req reply : Msg}
    (h : m.ServeDNS req = some (reply, m1)) :
    ∀ k ∈ mapKeys m.Rebinds, k ∈ mapKeys m1.Rebinds := by
  intro k hk
  unfold RebindManager.ServeDNS at h
  split at h
  · simp at h
  · split at h
    · split at h
      · simp only [Option.some.injEq, Prod.mk.injEq] at h
        rw [← h.2]; exact hk
      · split at h
        · simp only [Option.some.injEq, Prod.mk.injEq] at h
          rw [← h.2]; exact hk
        · simp only [Option.some.injEq, Prod.mk.injEq] at h
          rw [← h.2]
          exact (mem_mapKeys_mapSet _ _ _ _).mpr (Or.inr hk)
    · simp only [Option.some.injEq, Prod.mk.injEq] at h
      rw [← h.2]; exact hk

theorem runGoroutine_Rebinds {m m1 : RebindManager} {i : Nat}
    (h : m.runGoroutine i = some m1) : m1.Rebinds = m.Rebinds := by
  unfold RebindManager.runGoroutine at h
  split at h
  · simp only [Option.some.injEq] at h; rw [← h]
  · split at h
    · simp only [Option.some.injEq] at h; rw [← h]
    · simp only [Option.some.injEq] at h; rw [← h]
  · split at h
    · split at h
      · simp at h
      · split at h
        · simp at h
        · simp only [Option.some.injEq] at h; rw [← h]
    · simp only [Option.some.injEq] at h; rw [← h]
  · split at h
    · simp at h
    · split at h
      · split at h
        · simp at h
        · simp only [Option.some.injEq] at h; rw [← h]
      · simp only [Option.some.injEq] at h; rw [← h]

theorem step_keys {o : Oracle} {m m1 : RebindManager} {e : Event}
    (h : m.step o e = some m1) : ∀ k ∈ mapKeys m.Rebinds, k ∈ mapKeys m1.Rebinds := by
  cases e with
  | makeOffer ctx req =>
    simp only [RebindManager.step, Option.map_eq_some'] at h
    obtain ⟨⟨offers, m2⟩, h1, rfl⟩ := h
    exact (MakeOffer_keys h1).2
  | serveDNS req =>
    simp only [RebindManager.step, Option.map_eq_some'] at h
    obtain ⟨⟨reply, m2⟩, h1, rfl⟩ := h
    exact ServeDNS_keys h1
  | cancel ctx =>
    simp only [RebindManager.step, Option.some.injEq] at h
    intro k hk
    rw [← h]; exact hk
  | goroutine i =>
    simp only [RebindManager.step] at h
    intro k hk
    rw [runGoroutine_Rebinds h]; exact hk

theorem run_keys (o : Oracle) (events : List Event) : ∀ (m m1 : RebindManager),
    m.run o events = some m1 → ∀ k ∈ mapKeys m.Rebinds, k ∈ mapKeys m1.Rebinds := by
  induction events with
  | nil =>
    intro m m1 h k hk
    simp only [RebindManager.run, Option.some.injEq] at h
    rw [← h]; exact hk
  | cons e es ih =>
    intro m m1 h k hk
    simp only [RebindManager.run] at h
    cases hs : m.step o e with
    | none => simp [hs] at h
    | some m2 =>
      simp only [hs] at h
      exact ih m2 m1 h k (step_keys hs k hk)

/-- C9 (amended): every offer id that MakeOffer inserted under a request scope
is a key of Rebinds when MakeOffer returns, and it stays a key through every
later sequence of host requests, DNS queries, cancellations of contexts (its
owning scope among them) and runs of the goroutines they release. -/
theorem offer_ids_stay_registered (o : Oracle) (m m1 m2 : RebindManager) (ctx : Ctx)
    (req : WebSocketHostRequest) (offers : List RebindOffer) (events : List Event)
    (hmk : m.MakeOffer o ctx req = some (offers, m1))
    (hrun : m1.run o events = some m2) :
    ∀ offer ∈ offers, offer.ID ∈ mapKeys m1.Rebinds ∧ offer.ID ∈ mapKeys m2.Rebinds := by
  intro offer hoffer
  have h1 := (MakeOffer_keys hmk).1 offer hoffer
  exact ⟨h1, run_keys o events m1 m2 hrun _ h1⟩

/-- C9 (counterexample): after the host request under context 1, the context is
cancelled and every blocked goroutine has run: the leases are released and the
listener is gone from its registry, and the first offer id is still a key of
Rebinds although its owning scope is no longer live. -/
theorem offer_id_after_cancel_counterexample :
    ∃ m2, exManagerOffers.run exOracle exShutdown = some m2 ∧
      1 ∈ m2.cancelled ∧ m2.goroutines = [] ∧ m2.HTTPServers = [] ∧
      exID0 ∈ mapKeys m2.Rebinds := by
  refine ⟨((exManagerOffers.run exOracle exShutdown).getD exManager), ?_, ?_, ?_, ?_, ?_⟩ <;> decide

theorem offer_ids_stay_registered_witness :
    exManager.MakeOffer exOracle 1 exHostRequest = some (exOffers, exManagerOffers) ∧
    exManagerOffers.run exOracle exShutdown = some exManagerShutdown ∧
    ∀ offer ∈ exOffers,
      offer.ID ∈ mapKeys exManagerOffers.Rebinds ∧ offer.ID ∈ mapKeys exManagerShutdown.Rebinds :=
  ⟨by decide, by decide,
    offer_ids_stay_registered exOracle exManager exManagerOffers exManagerShutdown 1 exHostRequest
      exOffers exShutdown (by decide) (by decide)⟩

/-- C11 (the code at the failing input): the pool holds the IPv4 entry 10.0.0.1
only. A lease for the IPv6 family finds no eligible entry and faults in
rand.Intn, as does any lease on the empty pool; the fault reaches the caller:
MakeOffer for an IPv6 victim faults too. -/
theorem lease_without_eligible_entry_faults :
    (NewPool [exPoolAddr]).eligibleAddrs [.AddressFamily true] = [] ∧
    (NewPool [exPoolAddr]).Lease 1 [.AddressFamily true] 5 = none ∧
    (NewPool []).Lease 1 [] 5 = none ∧
    exManager.MakeOffer exOracle 1 { Host := some exVictim6 } = none := by
  decide

theorem ThresholdRebind.threshold_HandleDNS_fields (r : ThresholdRebind) (q : Nat) :
    (r.HandleDNS q).2.target = r.target ∧ (r.HandleDNS q).2.ttl = r.ttl ∧
    (r.HandleDNS q).2.v4Server = r.v4Server ∧ (r.HandleDNS q).2.v6Server = r.v6Server := by
  obtain ⟨target, threshold, ttl, v4, v6⟩ := r
  unfold ThresholdRebind.HandleDNS
  by_cases hr : threshold > 0
  · rw [if_pos hr]
    by_cases hq : q = TypeAAAA
    · rw [if_pos hq]; cases v6 <;> exact ⟨rfl, rfl, rfl, rfl⟩
    · rw [if_neg hq]; cases v4 <;> exact ⟨rfl, rfl, rfl, rfl⟩
  · rw [if_neg hr]
    by_cases hc : (target.IP.To4 = [] ∧ q = TypeAAAA) ∨ (target.IP.To4 ≠ [] ∧ q = TypeA)
    · rw [if_pos hc]; exact ⟨rfl, rfl, rfl, rfl⟩
    · rw [if_neg hc]; exact ⟨rfl, rfl, rfl, rfl⟩

theorem ThresholdRebind.threshold_handleAll_fields (qs : List Nat) : ∀ r : ThresholdRebind,
    (r.handleAll qs).2.target = r.target ∧ (r.handleAll qs).2.ttl = r.ttl ∧
    (r.handleAll qs).2.v4Server = r.v4Server ∧ (r.handleAll qs).2.v6Server = r.v6Server := by
  induction qs with
  | nil => intro r; simp [ThresholdRebind.handleAll]
  | cons q qs ih =>
    intro r
    obtain ⟨a1, a2, a3, a4⟩ := ih (r.HandleDNS q).2
    obtain ⟨b1, b2, b3, b4⟩ := ThresholdRebind.threshold_HandleDNS_fields r q
    simp only [ThresholdRebind.handleAll]
    exact ⟨a1.trans b1, a2.trans b2, a3.trans b3, a4.trans b4⟩

/-- The answers of a TTLRebind by phase and held listeners. -/
theorem TTLRebind.HandleDNS_empty (r : TTLRebind) (q : Nat)
    (h6 : r.target.IP.To4 = [] → r.v6Server.isSome)
    (h4 : r.target.IP.To4 ≠ [] → r.v4Server.isSome) :
    (r.rebind = false → ¬ (q ≠ TypeAAAA ∧ r.v4Server.isSome) →
      ¬ (q = TypeAAAA ∧ r.v6Server.isSome) → (r.HandleDNS q).1 = []) ∧
    (r.rebind = true → ¬ (q = TypeA ∧ r.v4Server.isSome) →
      ¬ (q = TypeAAAA ∧ r.v6Server.isSome) → (r.HandleDNS q).1 = []) := by
  unfold TTLRebind.HandleDNS
  constructor
  · intro hr n4 n6
    simp only [hr, if_true]
    by_cases hq : q = TypeAAAA
    · simp only [hq, if_true]
      cases h : r.v6Server with
      | none => rfl
      | some s => exact absurd ⟨hq, by simp [h]⟩ n6
    · simp only [hq, if_false]
      cases h : r.v4Server with
      | none => rfl
      | some s => exact absurd ⟨hq, by simp [h]⟩ n4
  · intro hr n4 n6
    simp only [hr, Bool.true_eq_false, if_false]
    by_cases hc : (r.target.IP.To4 = [] ∧ q = TypeAAAA) ∨ (r.target.IP.To4 ≠ [] ∧ q = TypeA)
    · exfalso
      rcases hc with ⟨a, b⟩ | ⟨a, b⟩
      · exact n6 ⟨b, h6 a⟩
      · exact n4 ⟨b, h4 a⟩
    · simp only [hc, if_false]

/-- The answers of a ThresholdRebind by phase and held listeners. -/
theorem ThresholdRebind.threshold_HandleDNS_empty (r : ThresholdRebind) (q : Nat)
    (h6 : r.target.IP.To4 = [] → r.v6Server.isSome)
    (h4 : r.target.IP.To4 ≠ [] → r.v4Server.isSome) :
    (r.threshold > 0 → ¬ (q ≠ TypeAAAA ∧ r.v4Server.isSome) →
      ¬ (q = TypeAAAA ∧ r.v6Server.isSome) → (r.HandleDNS q).1 = []) ∧
    (r.threshold = 0 → ¬ (q = TypeA ∧ r.v4Server.isSome) →
      ¬ (q = TypeAAAA ∧ r.v6Server.isSome) → (r.HandleDNS q).1 = []) := by
  unfold ThresholdRebind.HandleDNS
  constructor
  · intro hr n4 n6
    simp only [hr, if_true]
    by_cases hq : q = TypeAAAA
    · simp only [hq, if_true]
      cases h : r.v6Server with
      | none => rfl
      | some s => exact absurd ⟨hq, by simp [h]⟩ n6
    · simp only [hq, if_false]
      cases h : r.v4Server with
      | none => rfl
      | some s => exact absurd ⟨hq, by simp [h]⟩ n4
  · intro hr n4 n6
    have hr0 : ¬ r.threshold > 0 := by omega
    simp only [hr0, if_false]
    by_cases hc : (r.target.IP.To4 = [] ∧ q = TypeAAAA) ∨ (r.target.IP.To4 ≠ [] ∧ q = TypeA)
    · exfalso
      rcases hc with ⟨a, b⟩ | ⟨a, b⟩
      · exact n6 ⟨b, h6 a⟩
      · exact n4 ⟨b, h4 a⟩
    · simp only [hc, if_false]

/-- C18 (amended): for every TTLRebind and every ThresholdRebind that its
constructor built, in every state that calls of HandleDNS bring it to, and for
every query type q. While the strategy answers from its listeners (TTLRebind
not primed, counter of ThresholdRebind above zero), every q other than AAAA is
served by the IPv4 listener: HandleDNS returns the empty answer set when q is
AAAA and no IPv6 listener is held, or q is not AAAA and no IPv4 listener is
held. Once the strategy answers from the victim, HandleDNS returns the empty
answer set for every q that is not the address-record type of a family with a
prepared listener, every q other than A and AAAA included. -/
theorem handleDNS_empty_without_listener (o : Oracle) (ctx : Ctx) (q : Nat)
    (m m1 : RebindManager) (target : Address) (ttl : Nat) (r0 : TTLRebind) (history : List Nat)
    (n n1 : RebindManager) (victim : Address) (threshold ttl1 : Nat) (s0 : ThresholdRebind)
    (queries : List Nat)
    (hnew : NewTTLRebind o ctx m target ttl = some (r0, m1))
    (hnew1 : NewThresholdRebind o ctx n victim threshold ttl1 = some (s0, n1)) :
    ((r0.handleAll history).2.rebind = false →
      ¬ (q ≠ TypeAAAA ∧ (r0.handleAll history).2.v4Server.isSome) →
      ¬ (q = TypeAAAA ∧ (r0.handleAll history).2.v6Server.isSome) →
      ((r0.handleAll history).2.HandleDNS q).1 = []) ∧
    ((r0.handleAll history).2.rebind = true →
      ¬ (q = TypeA ∧ (r0.handleAll history).2.v4Server.isSome) →
      ¬ (q = TypeAAAA ∧ (r0.handleAll history).2.v6Server.isSome) →
      ((r0.handleAll history).2.HandleDNS q).1 = []) ∧
    ((s0.handleAll queries).2.threshold > 0 →
      ¬ (q ≠ TypeAAAA ∧ (s0.handleAll queries).2.v4Server.isSome) →
      ¬ (q = TypeAAAA ∧ (s0.handleAll queries).2.v6Server.isSome) →
      ((s0.handleAll queries).2.HandleDNS q).1 = []) ∧
    ((s0.handleAll queries).2.threshold = 0 →
      ¬ (q = TypeA ∧ (s0.handleAll queries).2.v4Server.isSome) →
      ¬ (q = TypeAAAA ∧ (s0.handleAll queries).2.v6Server.isSome) →
      ((s0.handleAll queries).2.HandleDNS q).1 = []) := by
  obtain ⟨ht, -, -, a0, a6, a4⟩ := NewTTLRebind_fresh hnew
  obtain ⟨f1, -, f3, f4⟩ := TTLRebind.handleAll_fields history r0
  obtain ⟨hs, -, -, b0, b6, b4⟩ := NewThresholdRebind_fresh hnew1
  obtain ⟨g1, -, g3, g4⟩ := ThresholdRebind.threshold_handleAll_fields queries s0
  have hr6 : (r0.handleAll history).2.target.IP.To4 = [] →
      (r0.handleAll history).2.v6Server.isSome := by
    rw [f1, f4, ht]
    intro h
    by_cases hnil : target.IP = []
    · exact (a0 hnil).2
    · exact (a6 hnil h).2
  have hr4 : (r0.handleAll history).2.target.IP.To4 ≠ [] →
      (r0.handleAll history).2.v4Server.isSome := by
    rw [f1, f3, ht]
    intro h
    exact (a4 h).1
  have hs6 : (s0.handleAll queries).2.target.IP.To4 = [] →
      (s0.handleAll queries).2.v6Server.isSome := by
    rw [g1, g4, hs]
    intro h
    by_cases hnil : victim.IP = []
    · exact (b0 hnil).2
    · exact (b6 hnil h).2
  have hs4 : (s0.handleAll queries).2.target.IP.To4 ≠ [] →
      (s0.handleAll queries).2.v4Server.isSome := by
    rw [g1, g3, hs]
    intro h
    exact (b4 h).1
  have hT := TTLRebind.HandleDNS_empty (r0.handleAll history).2 q hr6 hr4
  have hK := ThresholdRebind.threshold_HandleDNS_empty (s0.handleAll queries).2 q hs6 hs4
  exact ⟨hT.1, hT.2, hK.1, hK.2⟩

theorem handleDNS_empty_without_listener_witness :
    NewTTLRebind exOracle 1 exManager exVictim 1 = some (exTTL, exManagerTTL) ∧
    NewThresholdRebind exOracle 1 exManager exVictim 2 2 = some (exThreshold, exManagerThreshold) ∧
    ((exTTL.handleAll [TypeA]).2.rebind = false →
      ¬ (TypeTXT ≠ TypeAAAA ∧ (exTTL.handleAll [TypeA]).2.v4Server.isSome) →
      ¬ (TypeTXT = TypeAAAA ∧ (exTTL.handleAll [TypeA]).2.v6Server.isSome) →
      ((exTTL.handleAll [TypeA]).2.HandleDNS TypeTXT).1 = []) ∧
    ((exTTL.handleAll [TypeA]).2.rebind = true →
      ¬ (TypeTXT = TypeA ∧ (exTTL.handleAll [TypeA]).2.v4Server.isSome) →
      ¬ (TypeTXT = TypeAAAA ∧ (exTTL.handleAll [TypeA]).2.v6Server.isSome) →
      ((exTTL.handleAll [TypeA]).2.HandleDNS TypeTXT).1 = []) ∧
    ((exThreshold.handleAll [TypeA, TypeA]).2.threshold > 0 →
      ¬ (TypeTXT ≠ TypeAAAA ∧ (exThreshold.handleAll [TypeA, TypeA]).2.v4Server.isSome) →
      ¬ (TypeTXT = TypeAAAA ∧ (exThreshold.handleAll [TypeA, TypeA]).2.v6Server.isSome) →
      ((exThreshold.handleAll [TypeA, TypeA]).2.HandleDNS TypeTXT).1 = []) ∧
    ((exThreshold.handleAll [TypeA, TypeA]).2.threshold = 0 →
      ¬ (TypeTXT = TypeA ∧ (exThreshold.handleAll [TypeA, TypeA]).2.v4Server.isSome) →
      ¬ (TypeTXT = TypeAAAA ∧ (exThreshold.handleAll [TypeA, TypeA]).2.v6Server.isSome) →
      ((exThreshold.handleAll [TypeA, TypeA]).2.HandleDNS TypeTXT).1 = []) :=
  ⟨by decide, by decide,
    handleDNS_empty_without_listener exOracle 1 TypeTXT exManager exManagerTTL exVictim 1 exTTL
      [TypeA] exManager exManagerThreshold exVictim 2 2 exThreshold [TypeA, TypeA]
      (by decide) (by decide)⟩

/-- C18 (counterexample): the strategies built for the IPv4 victim hold an IPv4
listener only. A CNAME query and a TXT query, neither the address-record type
of a family, are answered from the IPv4 listener by the fresh TTLRebind and by
the fresh ThresholdRebind: the answer set is not empty. -/
theorem handleDNS_other_type_counterexample :
    TypeCNAME ≠ TypeA ∧ TypeCNAME ≠ TypeAAAA ∧ TypeTXT ≠ TypeA ∧ TypeTXT ≠ TypeAAAA ∧
    exTTL.v6Server = none ∧ exThreshold.v6Server = none ∧
    (exTTL.HandleDNS TypeCNAME).1 = [⟨1, { exPoolAddr with Port := "8080" }⟩] ∧
    (exTTL.HandleDNS TypeTXT).1 ≠ [] ∧
    (exThreshold.HandleDNS TypeCNAME).1 = [⟨2, { exPoolAddr with Port := "8080" }⟩] ∧
    (exThreshold.HandleDNS TypeTXT).1 ≠ [] := by
  decide

/-- C19 (the code at the failing input): a TXT query for the first offer of the
IPv4 victim. HandleDNS of the registered TTLRebind returns one answer (from the
IPv4 listener), ServeDNS makes an answer section of one slot, and no case of
its switch fills the slot: the slot is left nil. -/
theorem serveDNS_unset_slot_for_other_type :
    mapGet exID0 exManagerOffers.Rebinds = some (.ttl exTTL) ∧
    ((RebindMethod.ttl exTTL).HandleDNS TypeTXT).1.length = 1 ∧
    (exManagerOffers.ServeDNS
      (exQuery "00010203-0405-4007-8009-0a0b0c0d0e0f.r.test." TypeTXT)).map
      (fun s => s.1.Answer) = some [none] := by
  decide

theorem Pool.leasesOf_set_self (p : Pool) (key : String) (v : List Ctx) :
    Pool.leasesOf { p with leases := mapSet key v p.leases } key = v := by
  simp [Pool.leasesOf, mapGet_mapSet_self]

theorem Pool.leasesOf_set_ne (p : Pool) (key k : String) (v : List Ctx) (h : k ≠ key) :
    Pool.leasesOf { p with leases := mapSet key v p.leases } k = p.leasesOf k := by
  simp [Pool.leasesOf, mapGet_mapSet_ne _ _ _ h]

theorem NewPool_leasesOf (addrs : List Address) (key : String) :
    (NewPool addrs).leasesOf key = [] := by
  have h : ∀ (l : List Address) (init : List (String × List Ctx)),
      (mapGet key init).getD [] = [] →
      (mapGet key (l.foldl (fun leases addr => mapSet addr.String [] leases) init)).getD [] = [] := by
    intro l
    induction l with
    | nil => intro init hi; exact hi
    | cons a l ih =>
      intro init hi
      simp only [List.foldl_cons]
      apply ih
      by_cases hk : key = a.String
      · rw [hk, mapGet_mapSet_self]; rfl
      · rw [mapGet_mapSet_ne _ _ _ hk]; exact hi
  exact h addrs [] rfl

/-- What Pool.Lease writes: the scope at the end of the list of the returned
entry, nothing under another key, and the goroutine it starts. -/
theorem Pool.Lease_writes {p p1 : Pool} {ctx : Ctx} {criteriaList : List PoolCriteria}
    {rnd : Nat} {addr : Address} {g : Goroutine}
    (h : p.Lease ctx criteriaList rnd = some (addr, p1, g)) :
    p1.leasesOf addr.String = p.leasesOf addr.String ++ [ctx] ∧
    (∀ key, key ≠ addr.String → p1.leasesOf key = p.leasesOf key) ∧
    p1.addrs = p.addrs ∧ g = .releaseLease ctx addr.String := by
  simp only [Pool.Lease] at h
  split at h
  · simp at h
  · split at h
    · simp at h
    · simp only [Option.some.injEq, Prod.mk.injEq] at h
      obtain ⟨rfl, rfl, rfl⟩ := h
      exact ⟨Pool.leasesOf_set_self _ _ _, fun key hk => Pool.leasesOf_set_ne _ _ _ _ hk, rfl, rfl⟩

/-- What the release goroutine writes when the scope is in the list of its key:
the first occurrence of the scope is cut out, nothing else changes. -/
theorem Pool.release_writes (p : Pool) (ctx : Ctx) (key : String) (h : ctx ∈ p.leasesOf key) :
    (p.release ctx key).leasesOf key = (p.leasesOf key).erase ctx ∧
    (∀ k, k ≠ key → (p.release ctx key).leasesOf k = p.leasesOf k) ∧
    (p.release ctx key).addrs = p.addrs := by
  have hr : p.release ctx key =
      { p with leases := mapSet key ((p.leasesOf key).erase ctx) p.leases } := by
    simp only [Pool.release, h, if_true]
  rw [hr]
  exact ⟨Pool.leasesOf_set_self _ _ _, fun k hk => Pool.leasesOf_set_ne _ _ _ _ hk, rfl⟩

theorem filterMap_eraseIdx_some {α β : Type} [DecidableEq β] (f : α → Option β) :
    ∀ (gs : List α) (i : Nat) (g : α) (c : β), gs.get? i = some g → f g = some c →
      ((gs.eraseIdx i).filterMap f).Perm ((gs.filterMap f).erase c) := by
  intro gs
  induction gs with
  | nil => intro i g c h; simp at h
  | cons a gs ih =>
    intro i g c h hf
    cases i with
    | zero =>
      simp only [List.get?_cons_zero, Option.some.injEq] at h
      subst h
      simp [List.filterMap_cons, hf]
    | succ j =>
      simp only [List.get?_cons_succ] at h
      have ih1 := ih j g c h hf
      have hmem : c ∈ gs.filterMap f := List.mem_filterMap.mpr ⟨g, List.get?_mem h, hf⟩
      simp only [List.eraseIdx_cons_succ, List.filterMap_cons]
      cases hfa : f a with
      | none => simpa using ih1
      | some d =>
        simp only []
        by_cases hd : d = c
        · subst hd
          simp only [List.erase_cons_head]
          exact (List.Perm.cons d ih1).trans (List.perm_cons_erase hmem).symm
        · rw [List.erase_cons_tail (by simpa using hd)]
          exact List.Perm.cons d ih1

theorem filterMap_eraseIdx_none {α β : Type} (f : α → Option β) :
    ∀ (gs : List α) (i : Nat) (g : α), gs.get? i = some g → f g = none →
      (gs.eraseIdx i).filterMap f = gs.filterMap f := by
  intro gs
  induction gs with
  | nil => intro i g h; simp at h
  | cons a gs ih =>
    intro i g h hf
    cases i with
    | zero =>
      simp only [List.get?_cons_zero, Option.some.injEq] at h
      subst h
      simp [List.filterMap_cons, hf]
    | succ j =>
      simp only [List.get?_cons_succ] at h
      simp only [List.eraseIdx_cons_succ, List.filterMap_cons, ih j g h hf]

/-- C12: the release goroutine of Pool.Lease reads p.leases and stores into it
without the mutex. After the nine leases that MakeOffer takes under one context
on a pool of one entry, the cancellation wakes nine release goroutines. When
each runs to its end before the next, the list ends empty; when all nine
evaluate the right-hand side of their assignment before the first store, every
one stores the same slice of eight elements, and eight leases stay in the list
although the scope has ended and no release goroutine is left. With two scopes
the lease of the second stays in the list in the same way. -/
theorem release_without_mutex_loses_removals :
    (NewPoolRun [exPoolAddr]).run exNineLeases = some exPoolLeased ∧
    exPoolLeased.view = exManagerOffers.pool ∧
    exPoolLeased.view.leasesOf exPoolAddr.String = List.replicate 9 1 ∧
    (exPoolLeased.run exReleasesInTurn).map
        (fun r => (r.view.leasesOf exPoolAddr.String, r.cancelled, r.releases))
      = some ([], [1], []) ∧
    (exPoolLeased.run exReleasesTogether).map
        (fun r => (r.view.leasesOf exPoolAddr.String, r.cancelled, r.releases))
      = some (List.replicate 8 1, [1], []) ∧
    ((NewPoolRun [exPoolAddr]).run exTwoScopes).map
        (fun r => (r.view.leasesOf exPoolAddr.String, r.cancelled, r.releases))
      = some ([2], [2, 1], []) := by
  decide

theorem ipEqual_comm (a b : IP) : IP.Equal a b = IP.Equal b a := by
  unfold IP.Equal
  by_cases h : a.length = b.length
  · simp only [h, if_true]
    by_cases hab : a = b
    · simp [hab]
    · have hba : ¬ b = a := fun e => hab e.symm
      simp [hab, hba]
  · have h1 : ¬ b.length = a.length := fun e => h e.symm
    simp only [h, h1, if_false]
    by_cases h4 : a.length = 4 ∧ b.length = 16
    · have h5 : ¬ (b.length = 4 ∧ a.length = 16) := by omega
      simp only [h4, h5, and_self, if_true, if_false]
      by_cases hd : a = b.drop 12
      · simp [hd]
      · have hd1 : ¬ b.drop 12 = a := fun e => hd e.symm
        simp [hd, hd1]
    · simp only [h4, if_false]
      by_cases h6 : a.length = 16 ∧ b.length = 4
      · have h7 : b.length = 4 ∧ a.length = 16 := ⟨h6.2, h6.1⟩
        simp only [h6, h7, and_self, if_true]
        by_cases hd : a.drop 12 = b
        · simp [hd]
        · have hd1 : ¬ b = a.drop 12 := fun e => hd e.symm
          simp [hd, hd1]
      · have h7 : ¬ (b.length = 4 ∧ a.length = 16) := fun e => h6 ⟨e.2, e.1⟩
        have h8 : ¬ (b.length = 16 ∧ a.length = 4) := fun e => h4 ⟨e.2, e.1⟩
        simp only [h6, h7, h8, if_false]

theorem ipEqual_self (a : IP) : IP.Equal a a = true := by
  simp [IP.Equal]

theorem Address.Equal_comm (a b : Address) : Address.Equal a b = Address.Equal b a := by
  unfold Address.Equal
  rw [ipEqual_comm a.InternalIP b.InternalIP, ipEqual_comm a.ExternalIP b.ExternalIP]
  by_cases hp : a.Port = b.Port
  · simp [hp]
  · have hp1 : ¬ b.Port = a.Port := fun e => hp e.symm
    simp [hp, hp1]

theorem Address.Equal_self (a : Address) : Address.Equal a a = true := by
  simp [Address.Equal, ipEqual_self]

/-- The lookup loop of GetHTTPServer finds a listener of the registry that is
Equal to the bind address, and finds none only if there is none. -/
theorem findServer_spec (m : RebindManager) (bindAddr : Address) :
    (∀ srv, m.findServer bindAddr = some srv →
      (∃ key, (key, srv) ∈ m.HTTPServers) ∧ srv.Address.Equal bindAddr = true) ∧
    (m.findServer bindAddr = none → ∀ e ∈ m.HTTPServers, e.2.Address.Equal bindAddr = false) := by
  have h : ∀ (l : List (String × HTTPServer)) (init : Option HTTPServer),
      (∀ srv, l.foldl (fun srv kv => if kv.2.Address.Equal bindAddr then some kv.2 else srv) init
          = some srv →
        init = some srv ∨ ((∃ key, (key, srv) ∈ l) ∧ srv.Address.Equal bindAddr = true)) ∧
      (l.foldl (fun srv kv => if kv.2.Address.Equal bindAddr then some kv.2 else srv) init = none →
        init = none ∧ ∀ e ∈ l, e.2.Address.Equal bindAddr = false) := by
    intro l
    induction l with
    | nil =>
      intro init
      exact ⟨fun srv h => Or.inl h, fun h => ⟨h, fun e he => by simp at he⟩⟩
    | cons kv l ih =>
      intro init
      simp only [List.foldl_cons]
      obtain ⟨ih1, ih2⟩ := ih (if kv.2.Address.Equal bindAddr then some kv.2 else init)
      constructor
      · intro srv hs
        rcases ih1 srv hs with h1 | ⟨⟨key, hk⟩, he⟩
        · by_cases hc : kv.2.Address.Equal bindAddr = true
          · simp only [hc, if_true, Option.some.injEq] at h1
            right
            exact ⟨⟨kv.1, by rw [← h1]; exact List.mem_cons_self _ _⟩, by rw [← h1]; exact hc⟩
          · simp only [hc, if_false] at h1
            exact Or.inl h1
        · right
          exact ⟨⟨key, List.mem_cons_of_mem _ hk⟩, he⟩
      · intro hn
        obtain ⟨h1, h2⟩ := ih2 hn
        by_cases hc : kv.2.Address.Equal bindAddr = true
        · simp [hc] at h1
        · simp only [hc, if_false] at h1
          refine ⟨h1, ?_⟩
          intro e he
          rcases List.mem_cons.mp he with rfl | he
          · simpa using hc
          · exact h2 e he
  obtain ⟨h1, h2⟩ := h m.HTTPServers none
  constructor
  · intro srv hs
    rcases h1 srv hs with h0 | h0
    · simp at h0
    · exact h0
  · intro hn
    exact (h2 hn).2

theorem pairwise_mapSet {κ α : Type} [DecidableEq κ] (R : κ × α → κ × α → Prop) (k : κ) (v : α) :
    ∀ l : List (κ × α), l.Pairwise R → (∀ e ∈ l, R e (k, v) ∧ R (k, v) e) →
      (mapSet k v l).Pairwise R := by
  intro l
  induction l with
  | nil => intro _ _; simp [mapSet]
  | cons p l ih =>
    obtain ⟨k1, v1⟩ := p
    intro hp hnew
    rw [List.pairwise_cons] at hp
    simp only [mapSet]
    by_cases hk : k1 = k
    · simp only [hk, if_true]
      rw [List.pairwise_cons]
      exact ⟨fun e he => (hnew e (List.mem_cons_of_mem _ he)).2, hp.2⟩
    · simp only [hk, if_false]
      rw [List.pairwise_cons]
      refine ⟨?_, ih hp.2 (fun e he => hnew e (List.mem_cons_of_mem _ he))⟩
      intro e he
      have : e = (k, v) ∨ e ∈ l := by
        have hkeys : e ∈ mapSet k v l → e = (k, v) ∨ e ∈ l := by
          clear ih hp hnew he
          induction l with
          | nil => intro h; simpa [mapSet] using h
          | cons q l ih2 =>
            obtain ⟨k2, v2⟩ := q
            intro h
            simp only [mapSet] at h
            by_cases hk2 : k2 = k
            · simp only [hk2, if_true, List.mem_cons] at h
              rcases h with h | h
              · exact Or.inl h
              · exact Or.inr (List.mem_cons_of_mem _ h)
            · simp only [hk2, if_false, List.mem_cons] at h
              rcases h with h | h
              · exact Or.inr (by rw [h]; exact List.mem_cons_self _ _)
              · rcases ih2 h with h3 | h3
                · exact Or.inl h3
                · exact Or.inr (List.mem_cons_of_mem _ h3)
        exact hkeys he
      rcases this with rfl | hin
      · exact (hnew (k1, v1) (List.mem_cons_self _ _)).1
      · exact hp.1 e hin

theorem ipEqual_trans {a b c : IP} (h1 : IP.Equal a b = true) (h2 : IP.Equal b c = true) :
    IP.Equal a c = true := by
  by_cases hab : a.length = b.length
  · have e : a = b := by simpa [IP.Equal, hab] using h1
    rw [e]; exact h2
  · by_cases hbc : b.length = c.length
    · have e : b = c := by simpa [IP.Equal, hbc] using h2
      rw [← e]; exact h1
    · unfold IP.Equal at h1 h2
      simp only [hab, hbc, if_false] at h1 h2
      by_cases h4 : a.length = 4 ∧ b.length = 16
      · have h5 : ¬ (b.length = 4 ∧ c.length = 16) := by omega
        simp only [h4, and_self, if_true, Bool.and_eq_true, decide_eq_true_eq] at h1
        simp only [h5, if_false] at h2
        by_cases h6 : b.length = 16 ∧ c.length = 4
        · simp only [h6, and_self, if_true, Bool.and_eq_true, decide_eq_true_eq] at h2
          have e : a = c := h1.2.trans h2.2
          rw [e]; exact ipEqual_self c
        · simp [h6] at h2
      · simp only [h4, if_false] at h1
        by_cases h7 : a.length = 16 ∧ b.length = 4
        · simp only [h7, and_self, if_true, Bool.and_eq_true, decide_eq_true_eq] at h1
          by_cases h8 : b.length = 4 ∧ c.length = 16
          · simp only [h8, and_self, if_true, Bool.and_eq_true, decide_eq_true_eq] at h2
            have e : a = c := by
              rw [← List.take_append_drop 12 a, ← List.take_append_drop 12 c, h1.1, h2.1, h1.2, h2.2]
            rw [e]; exact ipEqual_self c
          · have h9 : ¬ (b.length = 16 ∧ c.length = 4) := by omega
            simp [h8, h9] at h2
        · simp [h7] at h1

theorem Address.Equal_iff (a c : Address) :
    Address.Equal a c = true ↔
      a.Port = c.Port ∧ IP.Equal a.InternalIP c.InternalIP = true ∧
        IP.Equal a.ExternalIP c.ExternalIP = true := by
  unfold Address.Equal
  by_cases hp : a.Port = c.Port
  · by_cases hi : IP.Equal a.InternalIP c.InternalIP = true
    · by_cases he : IP.Equal a.ExternalIP c.ExternalIP = true
      · simp [hp, hi, he]
      · simp [hp, hi, he]
    · simp [hp, hi]
  · simp [hp]

theorem Address.Equal_trans {a b c : Address} (h1 : Address.Equal a b = true)
    (h2 : Address.Equal b c = true) : Address.Equal a c = true := by
  rw [Address.Equal_iff] at h1 h2 ⊢
  exact ⟨h1.1.trans h2.1, ipEqual_trans h1.2.1 h2.2.1, ipEqual_trans h1.2.2 h2.2.2⟩

theorem GetHTTPServer_found {m : RebindManager} {srv : HTTPServer} (ctx : Ctx)
    (bind addr : Address)
    (h : m.findServer { bind.Clone with Port := addr.Port } = some srv) :
    m.GetHTTPServer ctx bind addr =
      (srv, { m.wgAdd srv.ptr with
        goroutines := (m.wgAdd srv.ptr).goroutines ++ [.wgDone ctx srv.ptr] }) := by
  simp only [RebindManager.GetHTTPServer, h]

theorem GetHTTPServer_new {m : RebindManager} (ctx : Ctx) (bind addr : Address)
    (h : m.findServer { bind.Clone with Port := addr.Port } = none) :
    m.GetHTTPServer ctx bind addr =
      ((m.CreateHTTPServer ctx { bind.Clone with Port := addr.Port }).1,
       { (m.CreateHTTPServer ctx { bind.Clone with Port := addr.Port }).2 with
        goroutines := (m.CreateHTTPServer ctx { bind.Clone with Port := addr.Port }).2.goroutines
          ++ [.wgDone ctx m.heap.length] }) := by
  simp only [RebindManager.GetHTTPServer, h, RebindManager.CreateHTTPServer]

theorem mem_mapSet {κ α : Type} [DecidableEq κ] (k : κ) (v : α) :
    ∀ (l : List (κ × α)) (e : κ × α), e ∈ mapSet k v l → e = (k, v) ∨ e ∈ l := by
  intro l
  induction l with
  | nil => intro e h; simpa [mapSet] using h
  | cons q l ih =>
    obtain ⟨k2, v2⟩ := q
    intro e h
    simp only [mapSet] at h
    by_cases hk2 : k2 = k
    · simp only [hk2, if_true, List.mem_cons] at h
      rcases h with h | h
      · exact Or.inl h
      · exact Or.inr (List.mem_cons_of_mem _ h)
    · simp only [hk2, if_false, List.mem_cons] at h
      rcases h with h | h
      · exact Or.inr (by rw [h]; exact List.mem_cons_self _ _)
      · rcases ih e h with h3 | h3
        · exact Or.inl h3
        · exact Or.inr (List.mem_cons_of_mem _ h3)

/-- One call of GetHTTPServer keeps the listeners of the registry pairwise not
Equal and inside the heap. -/
theorem GetHTTPServer_distinct (m : RebindManager) (ctx : Ctx) (bind addr : Address)
    (hd : ListenersDistinct m) (hh : ListenersInHeap m) :
    ListenersDistinct (m.GetHTTPServer ctx bind addr).2 ∧
      ListenersInHeap (m.GetHTTPServer ctx bind addr).2 := by
  cases hf : m.findServer { bind.Clone with Port := addr.Port } with
  | some srv =>
    rw [GetHTTPServer_found ctx bind addr hf]
    refine ⟨hd, ?_⟩
    intro e he
    have := hh e he
    simpa [RebindManager.wgAdd, List.length_modify] using this
  | none =>
    rw [GetHTTPServer_new ctx bind addr hf]
    have hnone := (findServer_spec m _).2 hf
    constructor
    · unfold ListenersDistinct
      simp only [RebindManager.CreateHTTPServer]
      apply pairwise_mapSet _ _ _ _ hd
      intro e he
      have h1 := hnone e he
      exact ⟨h1, by rw [Address.Equal_comm]; exact h1⟩
    · intro e he
      simp only [RebindManager.CreateHTTPServer] at he ⊢
      rcases mem_mapSet _ _ _ _ he with h1 | h1
      · rw [h1]; simp
      · have := hh e h1
        simp only [List.length_append, List.length_singleton]
        omega

theorem acquireAll_distinct (calls : List (Ctx × Address × Address)) :
    ∀ m : RebindManager, ListenersDistinct m → ListenersInHeap m →
      ListenersDistinct (m.acquireAll calls) ∧ ListenersInHeap (m.acquireAll calls) := by
  induction calls with
  | nil => intro m hd hh; exact ⟨hd, hh⟩
  | cons call calls ih =>
    intro m hd hh
    simp only [RebindManager.acquireAll]
    obtain ⟨h1, h2⟩ := GetHTTPServer_distinct m call.1 call.2.1 call.2.2 hd hh
    exact ih _ h1 h2

theorem Address.Clone_eq (a : Address) : a.Clone = a := by
  cases a; rfl

/-- What one call of GetHTTPServer does on a manager whose listeners are
pairwise not Equal and inside the heap. -/
theorem GetHTTPServer_contract (m : RebindManager) (ctx : Ctx) (poolChoice victim : Address)
    (hd : ListenersDistinct m) (hh : ListenersInHeap m) :
    (m.GetHTTPServer ctx poolChoice victim).1.Address.Equal
        { poolChoice with Port := victim.Port } = true ∧
    (m.GetHTTPServer ctx poolChoice victim).2.pool = m.pool ∧
    ((∃ e ∈ m.HTTPServers, e.2.Address.Equal { poolChoice with Port := victim.Port } = true) →
      (∃ key, (key, (m.GetHTTPServer ctx poolChoice victim).1) ∈ m.HTTPServers) ∧
      (∀ e ∈ m.HTTPServers, e.2.Address.Equal { poolChoice with Port := victim.Port } = true →
        e.2 = (m.GetHTTPServer ctx poolChoice victim).1) ∧
      (m.GetHTTPServer ctx poolChoice victim).2.HTTPServers = m.HTTPServers ∧
      (m.GetHTTPServer ctx poolChoice victim).2.heap.length = m.heap.length ∧
      (∃ st, m.heap.get? (m.GetHTTPServer ctx poolChoice victim).1.ptr = some st ∧
        (m.GetHTTPServer ctx poolChoice victim).2.heap.get?
            (m.GetHTTPServer ctx poolChoice victim).1.ptr
          = some { st with WG := st.WG + 1 }) ∧
      (∀ p, p ≠ (m.GetHTTPServer ctx poolChoice victim).1.ptr →
        (m.GetHTTPServer ctx poolChoice victim).2.heap.get? p = m.heap.get? p)) ∧
    ((∀ e ∈ m.HTTPServers, e.2.Address.Equal { poolChoice with Port := victim.Port } = false) →
      (m.GetHTTPServer ctx poolChoice victim).1
        = { ptr := m.heap.length, Address := { poolChoice with Port := victim.Port } } ∧
      (m.GetHTTPServer ctx poolChoice victim).2.heap
        = m.heap ++ [{ WG := 1, released := false, stopped := false }] ∧
      (m.GetHTTPServer ctx poolChoice victim).2.HTTPServers
        = mapSet (Address.String { poolChoice with Port := victim.Port })
            (m.GetHTTPServer ctx poolChoice victim).1 m.HTTPServers ∧
      mapGet (Address.String { poolChoice with Port := victim.Port })
          (m.GetHTTPServer ctx poolChoice victim).2.HTTPServers
        = some (m.GetHTTPServer ctx poolChoice victim).1) := by
  have hB : ({ poolChoice.Clone with Port := victim.Port } : Address)
      = { poolChoice with Port := victim.Port } := by rw [Address.Clone_eq]
  cases hf : m.findServer { poolChoice.Clone with Port := victim.Port } with
  | some srv =>
    rw [GetHTTPServer_found ctx poolChoice victim hf]
    obtain ⟨⟨key, hkey⟩, heq⟩ := (findServer_spec m _).1 srv hf
    rw [hB] at heq
    refine ⟨heq, rfl, ?_, ?_⟩
    · intro _
      refine ⟨⟨key, hkey⟩, ?_, rfl, ?_, ?_, ?_⟩
      · intro e he heE
        by_contra hne
        have hne1 : e ≠ (key, srv) := fun h => hne (by rw [h])
        have hsym : Symmetric fun e1 e2 : String × HTTPServer =>
            e1.2.Address.Equal e2.2.Address = false := by
          intro x y hxy
          rw [Address.Equal_comm]; exact hxy
        have hR := List.Pairwise.forall hsym hd he hkey hne1
        have ht : e.2.Address.Equal srv.Address = true :=
          Address.Equal_trans heE (by rw [Address.Equal_comm]; exact heq)
        simp only at hR
        rw [ht] at hR
        exact Bool.noConfusion hR
      · simp [RebindManager.wgAdd, List.length_modify]
      · have hlt : srv.ptr < m.heap.length := hh (key, srv) hkey
        refine ⟨m.heap.get ⟨srv.ptr, hlt⟩, ?_, ?_⟩
        · simp [List.get?_eq_get hlt]
        · simp [RebindManager.wgAdd, List.getElem?_modify_eq, List.getElem?_eq_getElem hlt]
      · intro p hp
        simp only [RebindManager.wgAdd, List.get?_eq_getElem?]
        exact List.getElem?_modify_ne _ _ (fun h => hp h.symm)
    · intro hall
      have := hall (key, srv) hkey
      simp only at this
      rw [heq] at this
      exact Bool.noConfusion this
  | none =>
    rw [GetHTTPServer_new ctx poolChoice victim hf]
    have hnone := (findServer_spec m _).2 hf
    rw [hB] at hnone
    simp only [RebindManager.CreateHTTPServer, hB]
    refine ⟨Address.Equal_self _, trivial, ?_, ?_⟩
    · rintro ⟨e, he, heE⟩
      rw [hnone e he] at heE
      exact Bool.noConfusion heE
    · intro _
      exact ⟨trivial, trivial, trivial, mapGet_mapSet_self _ _ _⟩

/-- C13: after every sequence of GetHTTPServer calls on a new manager, the
next call for (poolChoice, victim) returns a listener whose address is Equal to
poolChoice with Port replaced by the port of the victim (the same port), and
the pool is not written. If the registry holds a listener whose address is
Equal to that bind address, the returned listener is that entry (the only such
entry), the registry is unchanged and the counter of its WaitGroup is one
higher, every other object being unchanged; otherwise one new listener with
exactly the bind address is allocated with its counter at one and registered
under the string of the bind address. Before and after the call no two
listeners of the registry have Equal addresses. -/
theorem getHTTPServer_reuses_or_registers (base : String) (poolIPs : List Address)
    (calls : List (Ctx × Address × Address)) (ctx : Ctx) (poolChoice victim : Address) :
    let m := (NewRebindManager base poolIPs).acquireAll calls
    let bindAddr : Address := { poolChoice with Port := victim.Port }
    let res := m.GetHTTPServer ctx poolChoice victim
    res.1.Address.Equal bindAddr = true ∧ res.1.Address.Port = victim.Port ∧
    res.2.pool = m.pool ∧
    ((∃ e ∈ m.HTTPServers, e.2.Address.Equal bindAddr = true) →
      (∃ key, (key, res.1) ∈ m.HTTPServers) ∧
      (∀ e ∈ m.HTTPServers, e.2.Address.Equal bindAddr = true → e.2 = res.1) ∧
      res.2.HTTPServers = m.HTTPServers ∧
      res.2.heap.length = m.heap.length ∧
      (∃ st, m.heap.get? res.1.ptr = some st ∧
        res.2.heap.get? res.1.ptr = some { st with WG := st.WG + 1 }) ∧
      (∀ p, p ≠ res.1.ptr → res.2.heap.get? p = m.heap.get? p)) ∧
    ((∀ e ∈ m.HTTPServers, e.2.Address.Equal bindAddr = false) →
      res.1 = { ptr := m.heap.length, Address := bindAddr } ∧
      res.2.heap = m.heap ++ [{ WG := 1, released := false, stopped := false }] ∧
      res.2.HTTPServers = mapSet bindAddr.String res.1 m.HTTPServers ∧
      mapGet bindAddr.String res.2.HTTPServers = some res.1) ∧
    ListenersDistinct m ∧ ListenersDistinct res.2 := by
  intro m bindAddr res
  have hinit : ListenersDistinct (NewRebindManager base poolIPs) ∧
      ListenersInHeap (NewRebindManager base poolIPs) := by
    constructor
    · simp [ListenersDistinct, NewRebindManager]
    · intro e he
      simp [NewRebindManager] at he
  obtain ⟨hd, hh⟩ := acquireAll_distinct calls _ hinit.1 hinit.2
  obtain ⟨h1, h2, h3, h4⟩ := GetHTTPServer_contract m ctx poolChoice victim hd hh
  refine ⟨h1, ?_, h2, h3, h4, hd, (GetHTTPServer_distinct m ctx poolChoice victim hd hh).1⟩
  exact ((Address.Equal_iff _ _).1 h1).1

/-! ## NewAddress, the formatters and UnmarshalJSON -/

theorem byteIndex_eq_none {c : Char} : ∀ {s : List Char}, byteIndex c s = none ↔ c ∉ s := by
  intro s
  induction s with
  | nil => simp [byteIndex]
  | cons x xs ih =>
    by_cases h : x = c
    · simp [byteIndex, h]
    · have h1 : ¬ c = x := fun e => h e.symm
      simp [byteIndex, h, h1, ih]

theorem byteIndex_isSome {c : Char} {s : List Char} :
    (byteIndex c s).isSome = true ↔ c ∈ s := by
  cases hb : byteIndex c s with
  | none => simpa using byteIndex_eq_none.1 hb
  | some i =>
    simp only [Option.isSome_some, true_iff]
    by_contra hc
    rw [byteIndex_eq_none.2 hc] at hb
    exact Option.noConfusion hb

theorem byteIndex_append {c : Char} {s t : List Char} (h : c ∉ s) :
    byteIndex c (s ++ c :: t) = some s.length := by
  induction s with
  | nil => simp [byteIndex]
  | cons x xs ih =>
    have hx : ¬ x = c := fun e => h (by rw [e]; exact List.mem_cons_self _ _)
    have hxs : c ∉ xs := fun e => h (List.mem_cons_of_mem _ e)
    simp [byteIndex, hx, ih hxs]

theorem lastIndex_eq_none {c : Char} : ∀ {s : List Char}, lastIndex c s = none ↔ c ∉ s := by
  intro s
  induction s with
  | nil => simp [lastIndex]
  | cons x xs ih =>
    cases hl : lastIndex c xs with
    | some i =>
      have hm : c ∈ xs := by
        by_contra hc
        rw [ih.2 hc] at hl
        exact Option.noConfusion hl
      simp [lastIndex, hl, hm]
    | none =>
      have hm : c ∉ xs := ih.1 hl
      by_cases h : x = c
      · simp [lastIndex, hl, h]
      · have h1 : ¬ c = x := fun e => h e.symm
        simp [lastIndex, hl, h, h1, hm]

/-- The index that lastIndex returns splits the text at the last occurrence. -/
theorem lastIndex_spec {c : Char} : ∀ {s : List Char} {i : Nat}, lastIndex c s = some i →
    s = s.take i ++ c :: s.drop (i + 1) ∧ c ∉ s.drop (i + 1) ∧ i < s.length := by
  intro s
  induction s with
  | nil => intro i h; simp [lastIndex] at h
  | cons x xs ih =>
    intro i h
    cases hl : lastIndex c xs with
    | some j =>
      simp only [lastIndex, hl, Option.some.injEq] at h
      subst h
      obtain ⟨h1, h2, h3⟩ := ih hl
      refine ⟨?_, ?_, ?_⟩
      · simp only [List.take_succ_cons, List.drop_succ_cons, List.cons_append]
        rw [← h1]
      · simpa using h2
      · simp only [List.length_cons]; omega
    | none =>
      simp only [lastIndex, hl] at h
      by_cases hx : x = c
      · simp only [hx, if_true, Option.some.injEq] at h
        subst h
        refine ⟨by simp [hx], ?_, by simp⟩
        simpa using lastIndex_eq_none.1 hl
      · simp [hx] at h

theorem lastIndex_append {c : Char} {s t : List Char} (h : c ∉ t) :
    lastIndex c (s ++ c :: t) = some s.length := by
  induction s with
  | nil => simp [lastIndex, lastIndex_eq_none.2 h]
  | cons x xs ih => simp [lastIndex, ih]

/-- What a successful call of SplitHostPort returns: the port is the text
after the last colon and holds no colon and no bracket. -/
theorem SplitHostPort_ok {zoneCheck : Bool} {hostport host port : List Char}
    (h : SplitHostPort zoneCheck hostport = .ok (host, port)) :
    (∃ pre, hostport = pre ++ ':' :: port) ∧ ':' ∉ port ∧ '[' ∉ port ∧ ']' ∉ port := by
  unfold SplitHostPort at h
  cases hl : lastIndex ':' hostport with
  | none => simp [hl] at h
  | some i =>
    obtain ⟨h1, h2, _⟩ := lastIndex_spec hl
    simp only [hl] at h
    split at h
    · cases he : byteIndex ']' hostport with
      | none => simp [he] at h
      | some e =>
        simp only [he] at h
        split at h
        · simp at h
        · split at h
          · rename_i hei
            split at h
            · simp at h
            · rename_i hb1
              split at h
              · simp at h
              · rename_i hb2
                simp only [Except.ok.injEq, Prod.mk.injEq] at h
                obtain ⟨_, hp⟩ := h
                subst hp
                refine ⟨⟨_, h1⟩, h2, ?_, ?_⟩
                · intro hm
                  apply hb1
                  rw [byteIndex_isSome]
                  exact List.mem_of_mem_drop (by
                    have : List.drop (i + 1) hostport = List.drop i (List.drop 1 hostport) := by
                      rw [List.drop_drop, Nat.add_comm]
                    rw [this] at hm
                    exact hm)
                · intro hm
                  apply hb2
                  rw [byteIndex_isSome, hei]
                  have : List.drop (i + 1) hostport = List.drop 1 (List.drop i hostport) := by
                    rw [List.drop_drop]
                  rw [this] at hm
                  exact List.mem_of_mem_drop hm
          · split at h <;> simp at h
    · split at h
      · simp at h
      · split at h
        · simp at h
        · split at h
          · simp at h
          · rename_i hb1
            split at h
            · simp at h
            · rename_i hb2
              simp only [Except.ok.injEq, Prod.mk.injEq] at h
              obtain ⟨_, hp⟩ := h
              subst hp
              refine ⟨⟨_, h1⟩, h2, ?_, ?_⟩
              · intro hm
                exact hb1 (byteIndex_isSome.2 (List.mem_of_mem_drop hm))
              · intro hm
                exact hb2 (byteIndex_isSome.2 (List.mem_of_mem_drop hm))

theorem last_split_unique {c : Char} {s1 s2 t1 t2 : List Char}
    (h : s1 ++ c :: t1 = s2 ++ c :: t2) (h1 : c ∉ t1) (h2 : c ∉ t2) : s1 = s2 ∧ t1 = t2 := by
  have e1 := @lastIndex_append c s1 t1 h1
  have e2 := @lastIndex_append c s2 t2 h2
  rw [h, e2] at e1
  have hlen : s1.length = s2.length := by
    simp only [Option.some.injEq] at e1
    exact e1.symm
  obtain ⟨a, b⟩ := List.append_inj h hlen
  exact ⟨a, by simpa using b⟩

theorem NewAddress_of_ok {zoneCheck : Bool} {rawAddr : String} {host port : List Char}
    (h : SplitHostPort zoneCheck rawAddr.toList = .ok (host, port)) :
    NewAddress zoneCheck rawAddr = some (Address.ofHostPort host port) := by
  simp only [NewAddress, h]

theorem NewAddress_of_retry {zoneCheck : Bool} {rawAddr : String} {host port : List Char}
    (h : SplitHostPort zoneCheck rawAddr.toList = .error missingPort)
    (h2 : SplitHostPort zoneCheck (rawAddr ++ ":80").toList = .ok (host, port)) :
    NewAddress zoneCheck rawAddr = some (Address.ofHostPort host port) ∧
      port = "80".toList := by
  constructor
  · simp only [NewAddress, h, h2, if_true]
  · obtain ⟨⟨pre, hpre⟩, hc, _⟩ := SplitHostPort_ok h2
    have e : (rawAddr ++ ":80").toList = rawAddr.toList ++ ':' :: "80".toList := by
      simp [String.toList]
    rw [e] at hpre
    have h80 : ':' ∉ "80".toList := by decide
    exact ((last_split_unique hpre h80 hc).2).symm

theorem NewAddress_of_error {zoneCheck : Bool} {rawAddr : String} {err : String}
    (h : SplitHostPort zoneCheck rawAddr.toList = .error err) (hne : err ≠ missingPort) :
    NewAddress zoneCheck rawAddr = none := by
  simp only [NewAddress, h, hne, if_false]

theorem port_empty_iff {hostport pre port : List Char} (h : hostport = pre ++ ':' :: port)
    (hc : ':' ∉ port) : port = [] ↔ hostport.getLast? = some ':' := by
  constructor
  · intro hp
    rw [h, hp]
    exact List.getLast?_concat _
  · intro hl
    rcases List.eq_nil_or_concat port with hp | ⟨l, a, hp⟩
    · exact hp
    · exfalso
      rw [List.concat_eq_append] at hp
      have e : hostport = (pre ++ ':' :: l) ++ [a] := by
        rw [h, hp]; simp
      rw [e, List.getLast?_concat] at hl
      simp only [Option.some.injEq] at hl
      apply hc
      rw [hp, hl]
      simp

/-- C15, the counterexample: on an input that ends in a colon SplitHostPort
succeeds with an empty port, and NewAddress returns an Address whose Port is
empty. -/
theorem newAddress_empty_port_counterexample :
    NewAddress true "example.test:" = some ⟨"", "example.test", [], []⟩ ∧
    NewAddress false "example.test:" = some ⟨"", "example.test", [], []⟩ ∧
    (⟨"", "example.test", [], []⟩ : Address).Port = "" := by
  decide

/-- C15, amended: when SplitHostPort splits the input, NewAddress returns the
Address of that host and port; the port is the text after the last colon of the
input, so it is empty exactly when the input ends in a colon. When the input
has no port and splits with the text :80 appended, the Port is 80. When
SplitHostPort fails for a reason other than a missing port, NewAddress returns
nil. -/
theorem newAddress_port_after_last_colon (zoneCheck : Bool) (rawAddr : String) :
    (∀ host port, SplitHostPort zoneCheck rawAddr.toList = .ok (host, port) →
      (∃ a, NewAddress zoneCheck rawAddr = some a ∧ a.Port = String.mk port ∧
        a.Host = String.mk host) ∧
      (∃ pre, rawAddr.toList = pre ++ ':' :: port) ∧ ':' ∉ port ∧
      (port = [] ↔ rawAddr.toList.getLast? = some ':')) ∧
    (SplitHostPort zoneCheck rawAddr.toList = .error missingPort →
      ∀ host port, SplitHostPort zoneCheck (rawAddr ++ ":80").toList = .ok (host, port) →
        ∃ a, NewAddress zoneCheck rawAddr = some a ∧ a.Port = "80" ∧
          a.Host = String.mk host) ∧
    (∀ err, SplitHostPort zoneCheck rawAddr.toList = .error err → err ≠ missingPort →
      NewAddress zoneCheck rawAddr = none) := by
  refine ⟨?_, ?_, ?_⟩
  · intro host port h
    obtain ⟨⟨pre, hpre⟩, hc, _⟩ := SplitHostPort_ok h
    exact ⟨⟨_, NewAddress_of_ok h, rfl, rfl⟩, ⟨pre, hpre⟩, hc, port_empty_iff hpre hc⟩
  · intro h host port h2
    obtain ⟨h3, h4⟩ := NewAddress_of_retry h h2
    refine ⟨_, h3, ?_, rfl⟩
    simp only [Address.ofHostPort, h4]
    rfl
  · intro err h hne
    exact NewAddress_of_error h hne

/-- C15, the amended statement at work: the input 10.0.0.1 has no port and
gets the Port 80, the input 10.0.0.1:8080 keeps its port, and the input ::1
fails with a surplus colon. -/
theorem newAddress_port_after_last_colon_witness :
    SplitHostPort true "10.0.0.1".toList = .error missingPort ∧
    SplitHostPort true ("10.0.0.1" ++ ":80").toList = .ok ("10.0.0.1".toList, "80".toList) ∧
    (∃ a, NewAddress true "10.0.0.1" = some a ∧ a.Port = "80" ∧
      a.Host = String.mk "10.0.0.1".toList) :=
  ⟨rfl, rfl,
    (newAddress_port_after_last_colon true "10.0.0.1").2.1 rfl "10.0.0.1".toList "80".toList rfl⟩

/-- What UnmarshalJSON does on every payload: a fault on a payload shorter than
two bytes and on a content that NewAddress rejects, and otherwise the fields of
the parsed Address with a nil error. -/
theorem UnmarshalJSON_cases (zoneCheck : Bool) (a : Address) (b : List Char) :
    (b.length < 2 → Address.UnmarshalJSON zoneCheck a b = none) ∧
    (NewAddress zoneCheck (String.mk ((b.take (b.length - 1)).drop 1)) = none →
      Address.UnmarshalJSON zoneCheck a b = none) ∧
    (∀ addr, 2 ≤ b.length →
      NewAddress zoneCheck (String.mk ((b.take (b.length - 1)).drop 1)) = some addr →
      Address.UnmarshalJSON zoneCheck a b = some (addr, none)) ∧
    (∀ r, Address.UnmarshalJSON zoneCheck a b = some r → r.2 = none) := by
  refine ⟨?_, ?_, ?_, ?_⟩
  · intro h
    simp only [Address.UnmarshalJSON, h, if_true]
  · intro h
    by_cases hb : b.length < 2
    · simp only [Address.UnmarshalJSON, hb, if_true]
    · unfold Address.UnmarshalJSON
      rw [if_neg hb, h]
  · intro addr hb h
    have hb1 : ¬ b.length < 2 := by omega
    unfold Address.UnmarshalJSON
    rw [if_neg hb1, h]
  · intro r h
    unfold Address.UnmarshalJSON at h
    split at h
    · simp at h
    · split at h
      · simp at h
      · simp only [Option.some.injEq] at h
        rw [← h]

/-- C17: the payload of the JSON string ::1, whose content NewAddress rejects
for its surplus colons, and the one-byte payload 1 make UnmarshalJSON fault; no
payload makes it return an error. A quoted content that NewAddress parses gives
the receiver the four fields of NewAddress(content). -/
theorem unmarshalJSON_faults_instead_of_error :
    NewAddress true "::1" = none ∧ NewAddress false "::1" = none ∧
    Address.UnmarshalJSON true ⟨"", "", [], []⟩ (quoted "::1") = none ∧
    Address.UnmarshalJSON false ⟨"", "", [], []⟩ (quoted "::1") = none ∧
    Address.UnmarshalJSON true ⟨"", "", [], []⟩ "1".toList = none ∧
    Address.UnmarshalJSON false ⟨"", "", [], []⟩ "1".toList = none ∧
    Address.UnmarshalJSON true ⟨"", "", [], []⟩ (quoted "10.0.0.1:8080")
      = some (⟨"8080", "10.0.0.1", v4InV6Pfx ++ [10, 0, 0, 1], v4InV6Pfx ++ [10, 0, 0, 1]⟩,
          none) ∧
    (∀ (zoneCheck : Bool) (a : Address) (b : List Char) (r : Address × Option GoString),
      Address.UnmarshalJSON zoneCheck a b = some r → r.2 = none) := by
  refine ⟨by decide, by decide, by decide, by decide, by decide, by decide, by decide, ?_⟩
  intro zoneCheck a b r h
  exact (UnmarshalJSON_cases zoneCheck a b).2.2.2 r h

/-! ## The characters of net.IP.String -/

/-- The characters that the digit printer of the library can produce. -/
theorem digitChar_mem (n : Nat) : Nat.digitChar n ∈ "0123456789abcdef*".toList := by
  by_cases h : n < 16
  · interval_cases n <;> decide
  · have h0 : ∀ k, k < 16 → ¬ n = k := by
      intro k hk e
      omega
    unfold Nat.digitChar
    rw [if_neg (h0 0 (by omega)),
      if_neg (h0 1 (by omega)),
      if_neg (h0 2 (by omega)),
      if_neg (h0 3 (by omega)),
      if_neg (h0 4 (by omega)),
      if_neg (h0 5 (by omega)),
      if_neg (h0 6 (by omega)),
      if_neg (h0 7 (by omega)),
      if_neg (h0 8 (by omega)),
      if_neg (h0 9 (by omega)),
      if_neg (h0 10 (by omega)),
      if_neg (h0 11 (by omega)),
      if_neg (h0 12 (by omega)),
      if_neg (h0 13 (by omega)),
      if_neg (h0 14 (by omega)),
      if_neg (h0 15 (by omega))]
    decide

theorem toDigitsCore_mem (b : Nat) (P : Char → Prop) (hP : ∀ n, P (Nat.digitChar n)) :
    ∀ (fuel n : Nat) (ds : List Char), (∀ c ∈ ds, P c) →
      ∀ c ∈ Nat.toDigitsCore b fuel n ds, P c := by
  intro fuel
  induction fuel with
  | zero => intro n ds hds c hc; exact hds c (by simpa [Nat.toDigitsCore] using hc)
  | succ fuel ih =>
    intro n ds hds c hc
    simp only [Nat.toDigitsCore] at hc
    have hcons : ∀ c ∈ Nat.digitChar (n % b) :: ds, P c := by
      intro c hc
      rcases List.mem_cons.mp hc with h | h
      · rw [h]; exact hP _
      · exact hds c h
    split at hc
    · exact hcons c hc
    · exact ih _ _ hcons c hc

theorem toDigits_mem (b n : Nat) : ∀ c ∈ Nat.toDigits b n, c ∈ "0123456789abcdef*".toList := by
  intro c hc
  exact toDigitsCore_mem b (fun c => c ∈ "0123456789abcdef*".toList) digitChar_mem _ _ []
    (by intro c hc; simp at hc) c hc

theorem intercalate_go_mem (sep : String) : ∀ (l : List String) (acc : String) (c : Char),
    c ∈ (String.intercalate.go acc sep l).data →
      c ∈ acc.data ∨ c ∈ sep.data ∨ ∃ a ∈ l, c ∈ a.data := by
  intro l
  induction l with
  | nil => intro acc c h; exact Or.inl (by simpa [String.intercalate.go] using h)
  | cons a l ih =>
    intro acc c h
    simp only [String.intercalate.go] at h
    rcases ih _ c h with h1 | h1 | ⟨x, hx, hc⟩
    · simp only [String.data_append, List.mem_append] at h1
      rcases h1 with (h1 | h1) | h1
      · exact Or.inl h1
      · exact Or.inr (Or.inl h1)
      · exact Or.inr (Or.inr ⟨a, List.mem_cons_self _ _, h1⟩)
    · exact Or.inr (Or.inl h1)
    · exact Or.inr (Or.inr ⟨x, List.mem_cons_of_mem _ hx, hc⟩)

theorem intercalate_mem (sep : String) (l : List String) (c : Char)
    (h : c ∈ (String.intercalate sep l).data) : c ∈ sep.data ∨ ∃ a ∈ l, c ∈ a.data := by
  cases l with
  | nil => simp [String.intercalate] at h
  | cons a l =>
    simp only [String.intercalate] at h
    rcases intercalate_go_mem sep l a c h with h1 | h1 | ⟨x, hx, hc⟩
    · exact Or.inr ⟨a, List.mem_cons_self _ _, h1⟩
    · exact Or.inl h1
    · exact Or.inr ⟨x, List.mem_cons_of_mem _ hx, hc⟩

theorem printGroups_mem (gs : List Nat) (run : Option (Nat × Nat)) :
    ∀ (fuel i : Nat) (b : List Char), (∀ c ∈ b, c ∈ ":0123456789abcdef*".toList) →
      ∀ c ∈ printGroups gs run fuel i b, c ∈ ":0123456789abcdef*".toList := by
  have hdig : ∀ n, ∀ c ∈ Nat.toDigits 16 n, c ∈ ":0123456789abcdef*".toList := by
    intro n c hc
    exact List.mem_cons_of_mem _ (toDigits_mem 16 n c hc)
  have hcolon : ':' ∈ ":0123456789abcdef*".toList := by decide
  have hsep : ∀ (i : Nat) (b : List Char), (∀ c ∈ b, c ∈ ":0123456789abcdef*".toList) →
      ∀ c ∈ (if i > 0 then b ++ [':'] else b), c ∈ ":0123456789abcdef*".toList := by
    intro i b hb c hc
    split at hc
    · rcases List.mem_append.mp hc with h | h
      · exact hb c h
      · simp only [List.mem_singleton] at h; rw [h]; exact hcolon
    · exact hb c hc
  intro fuel
  induction fuel with
  | zero => intro i b hb c hc; exact hb c (by simpa [printGroups] using hc)
  | succ fuel ih =>
    intro i b hb c hc
    unfold printGroups at hc
    split at hc
    · split at hc
      · split at hc
        · split at hc
          · rcases List.mem_append.mp hc with h | h
            · exact hb c h
            · simp only [List.mem_cons, List.mem_singleton, List.not_mem_nil, or_false,
                or_self] at h
              rw [h]; exact hcolon
          · refine ih _ _ ?_ c hc
            intro c hc
            rcases List.mem_append.mp hc with h | h
            · rcases List.mem_append.mp h with h | h
              · exact hb c h
              · simp only [List.mem_cons, List.mem_singleton, List.not_mem_nil, or_false,
                  or_self] at h
                rw [h]; exact hcolon
            · exact hdig _ c h
        · refine ih _ _ ?_ c hc
          intro c hc
          rcases List.mem_append.mp hc with h | h
          · exact hsep i b hb c h
          · exact hdig _ c h
      · refine ih _ _ ?_ c hc
        intro c hc
        rcases List.mem_append.mp hc with h | h
        · exact hsep i b hb c h
        · exact hdig _ c h
    · exact hb c hc

theorem hexDigit_mem (v : Nat) : hexDigit v ∈ hextable := by
  unfold hexDigit
  by_cases h : v < hextable.length
  · rw [List.getD_eq_getElem _ _ h]
    exact List.getElem_mem _
  · rw [List.getD_eq_default _ _ (by omega)]
    decide

theorem IP.To4_length (ip : IP) (h : IP.To4 ip ≠ []) : (IP.To4 ip).length = 4 := by
  unfold IP.To4 at h ⊢
  by_cases h4 : ip.length = 4
  · rw [if_pos h4]; exact h4
  · rw [if_neg h4] at h ⊢
    by_cases h16 : ip.length = 16 ∧ ip.take 10 = List.replicate 10 0 ∧
        ip.get? 10 = some 0xff ∧ ip.get? 11 = some 0xff
    · rw [if_pos h16]
      simp only [List.length_drop, h16.1]
    · rw [if_neg h16] at h
      exact absurd rfl h

/-- The text of an address holds no bracket, and the text of an address with a
4-byte form holds no colon and no percent sign. -/
theorem IP.String_chars (ip : IP) :
    '[' ∉ (IP.String ip).toList ∧ ']' ∉ (IP.String ip).toList ∧
    (IP.To4 ip ≠ [] → ':' ∉ (IP.String ip).toList ∧ '%' ∉ (IP.String ip).toList) := by
  have hv4 : (IP.To4 ip).length = 4 →
      ∀ c ∈ (String.intercalate "." ((IP.To4 ip).map fun b =>
        String.mk (Nat.toDigits 10 b))).data, c ∈ ".0123456789abcdef*".toList := by
    intro _ c hc
    rcases intercalate_mem _ _ c hc with h | ⟨a, ha, hca⟩
    · simp only [List.mem_singleton] at h
      rw [h]; decide
    · simp only [List.mem_map] at ha
      obtain ⟨b, _, hb⟩ := ha
      rw [← hb] at hca
      exact List.mem_cons_of_mem _ (toDigits_mem 10 b c hca)
  unfold IP.String
  split
  · refine ⟨by decide, by decide, ?_⟩
    intro h
    rename_i h0
    have : ip = [] := List.length_eq_zero.mp h0
    rw [this] at h
    simp [IP.To4] at h
  · split
    · rename_i h4
      have hall := hv4 h4
      refine ⟨fun hm => ?_, fun hm => ?_, fun _ => ⟨fun hm => ?_, fun hm => ?_⟩⟩ <;>
        · have := hall _ hm
          revert this
          decide
    · rename_i h4
      have hno : ¬ IP.To4 ip ≠ [] := fun h => h4 (IP.To4_length ip h)
      split
      · have hall : ∀ c ∈ ('?' :: (ip.map fun b =>
            [hexDigit (b / 16 % 16), hexDigit (b % 16)]).flatten),
            c ∈ '?' :: hextable := by
          intro c hc
          rcases List.mem_cons.mp hc with h | h
          · rw [h]; exact List.mem_cons_self _ _
          · simp only [List.mem_flatten, List.mem_map] at h
            obtain ⟨l, ⟨b, _, hb⟩, hcl⟩ := h
            rw [← hb] at hcl
            simp only [List.mem_cons, List.mem_singleton, List.not_mem_nil, or_false] at hcl
            rcases hcl with h | h <;> rw [h] <;> exact List.mem_cons_of_mem _ (hexDigit_mem _)
        refine ⟨fun hm => ?_, fun hm => ?_, fun h => absurd h hno⟩ <;>
          · have := hall _ hm
            revert this
            decide
      · have hall := printGroups_mem (ipGroups ip)
          (match longestZeroRun (ipGroups ip) 8 0 none with
            | some (e0, e1) => if e1 - e0 ≤ 1 then none else some (e0, e1)
            | none => none) 8 0 [] (by intro c hc; simp at hc)
        refine ⟨fun hm => ?_, fun hm => ?_, fun h => absurd h hno⟩ <;>
          · have := hall _ hm
            revert this
            decide

/-- SplitHostPort on a host without colon, percent sign and bracket, followed by
a colon and a port without colon and bracket. -/
theorem SplitHostPort_plain (zoneCheck : Bool) (h p : List Char)
    (h1 : ':' ∉ h) (h2 : '%' ∉ h) (h3 : '[' ∉ h) (h4 : ']' ∉ h)
    (p1 : ':' ∉ p) (p3 : '[' ∉ p) (p4 : ']' ∉ p) :
    SplitHostPort zoneCheck (h ++ ':' :: p) = .ok (h, p) := by
  have e1 : lastIndex ':' (h ++ ':' :: p) = some h.length := lastIndex_append p1
  have e2 : ¬ (h ++ ':' :: p).head? = some '[' := by
    cases h with
    | nil => simp
    | cons x xs =>
      simp only [List.cons_append, List.head?_cons, Option.some.injEq]
      intro e
      exact h3 (by rw [e]; exact List.mem_cons_self _ _)
  have e3 : byteIndex ':' h = none := byteIndex_eq_none.2 h1
  have e4 : byteIndex '%' h = none := byteIndex_eq_none.2 h2
  have e5 : byteIndex '[' (h ++ ':' :: p) = none :=
    byteIndex_eq_none.2 (by simp [h3, p3])
  have e6 : byteIndex ']' (h ++ ':' :: p) = none :=
    byteIndex_eq_none.2 (by simp [h4, p4])
  have e7 : (h ++ ':' :: p).take h.length = h := by simp
  have e8 : (h ++ ':' :: p).drop (h.length + 1) = p := by simp
  unfold SplitHostPort
  simp only [e1, e7, e8]
  rw [if_neg e2]
  simp [e3, e4, e5, e6]

/-- SplitHostPort on a host without bracket, written between brackets and
followed by a colon and a port without colon and bracket. -/
theorem SplitHostPort_bracket (zoneCheck : Bool) (h p : List Char)
    (h3 : '[' ∉ h) (h4 : ']' ∉ h) (p1 : ':' ∉ p) (p3 : '[' ∉ p) (p4 : ']' ∉ p) :
    SplitHostPort zoneCheck ('[' :: (h ++ ']' :: ':' :: p)) = .ok (h, p) := by
  have e1 : lastIndex ':' ('[' :: (h ++ ']' :: ':' :: p)) = some (h.length + 2) := by
    have := @lastIndex_append ':' ('[' :: (h ++ [']'])) p p1
    simpa using this
  have e2 : byteIndex ']' ('[' :: (h ++ ']' :: ':' :: p)) = some (h.length + 1) := by
    have hn : ']' ∉ '[' :: h := by
      simp only [List.mem_cons, not_or]
      exact ⟨by decide, h4⟩
    have := @byteIndex_append ']' ('[' :: h) (':' :: p) hn
    simpa using this
  have e3 : byteIndex '[' (h ++ ']' :: ':' :: p) = none :=
    byteIndex_eq_none.2 (by simp [h3, p3])
  have e4 : byteIndex ']' (List.drop (h.length + 1 + 1) ('[' :: (h ++ ']' :: ':' :: p))) = none := by
    have : List.drop (h.length + 1 + 1) ('[' :: (h ++ ']' :: ':' :: p)) = ':' :: p := by
      simp
    rw [this]
    exact byteIndex_eq_none.2 (by simp [p4])
  have e5 : List.drop 1 (List.take (h.length + 1) ('[' :: (h ++ ']' :: ':' :: p))) = h := by
    simp
  have e6 : List.drop (h.length + 2 + 1) ('[' :: (h ++ ']' :: ':' :: p)) = p := by
    have : '[' :: (h ++ ']' :: ':' :: p) = ('[' :: (h ++ [']', ':'])) ++ p := by simp
    rw [this]
    have hl : ('[' :: (h ++ [']', ':'])).length = h.length + 2 + 1 := by simp
    rw [← hl, List.drop_left]
  have e7 : ¬ h.length + 1 + 1 = ('[' :: (h ++ ']' :: ':' :: p)).length := by
    simp only [List.length_cons, List.length_append]
    omega
  unfold SplitHostPort
  simp only [e1, e2, List.head?_cons, if_true, List.drop_succ_cons, List.drop_zero]
  rw [if_neg e7]
  simp only [List.drop_succ_cons] at e4 e6
  simp only [List.take_succ_cons, List.drop_succ_cons, List.drop_zero] at e5
  have e8 : byteIndex ']' (':' :: p) = none := byteIndex_eq_none.2 (by simp [p4])
  simp [e3, e4, e5, e6, e8]

/-- The shape of every Address that NewAddress returns: the Address of a host
and of a port without colon and bracket. -/
theorem NewAddress_shape {zoneCheck : Bool} {s : String} {a : Address}
    (h : NewAddress zoneCheck s = some a) :
    ∃ host port, a = Address.ofHostPort host port ∧ ':' ∉ port ∧ '[' ∉ port ∧ ']' ∉ port := by
  unfold NewAddress at h
  split at h
  · rename_i host port hs
    simp only [Option.some.injEq] at h
    obtain ⟨_, h1, h2, h3⟩ := SplitHostPort_ok hs
    exact ⟨host, port, h.symm, h1, h2, h3⟩
  · split at h
    · split at h
      · rename_i host port hs
        simp only [Option.some.injEq] at h
        obtain ⟨_, h1, h2, h3⟩ := SplitHostPort_ok hs
        exact ⟨host, port, h.symm, h1, h2, h3⟩
      · simp only [Option.some.injEq] at h
        exact ⟨[], [], h.symm, by simp, by simp, by simp⟩
    · simp at h

/-- Formatting the Address of a host that is the text of its own address, and
parsing the result, gives the Address back. -/
theorem ofHostPort_roundtrip (zoneCheck : Bool) (host port : List Char)
    (p1 : ':' ∉ port) (p3 : '[' ∉ port) (p4 : ']' ∉ port)
    (hcanon : String.mk host = IP.String (ParseIP host)) :
    NewAddress zoneCheck (Address.ofHostPort host port).InternalAddr
      = some (Address.ofHostPort host port) ∧
    NewAddress zoneCheck (Address.ofHostPort host port).ExternalAddr
      = some (Address.ofHostPort host port) := by
  have hhost : (IP.String (ParseIP host)).toList = host := by
    rw [← hcanon]
    rfl
  obtain ⟨c1, c2, c3⟩ := IP.String_chars (ParseIP host)
  rw [hhost] at c1 c2 c3
  have hb : ("[" : String).data = ['['] := rfl
  have hc : ("]:" : String).data = [']', ':'] := rfl
  have hd : (":" : String).data = [':'] := rfl
  have key : NewAddress zoneCheck
      (if IP.To4 (ParseIP host) = [] then
        "[" ++ IP.String (ParseIP host) ++ "]:" ++ String.mk port
       else IP.String (ParseIP host) ++ ":" ++ String.mk port)
      = some (Address.ofHostPort host port) := by
    by_cases h4 : IP.To4 (ParseIP host) = []
    · rw [if_pos h4]
      apply NewAddress_of_ok
      have e : ("[" ++ IP.String (ParseIP host) ++ "]:" ++ String.mk port).toList
          = '[' :: (host ++ ']' :: ':' :: port) := by
        rw [← hcanon]
        simp [String.toList, String.data_append, hb, hc]
      rw [e]
      exact SplitHostPort_bracket zoneCheck host port c1 c2 p1 p3 p4
    · rw [if_neg h4]
      apply NewAddress_of_ok
      have e : (IP.String (ParseIP host) ++ ":" ++ String.mk port).toList
          = host ++ ':' :: port := by
        rw [← hcanon]
        simp [String.toList, String.data_append, hd]
      rw [e]
      obtain ⟨c4, c5⟩ := c3 h4
      exact SplitHostPort_plain zoneCheck host port c4 c5 c1 c2 p1 p3 p4
  exact ⟨key, key⟩

/-- C16, the counterexample: the name example.test with the port 80 is
formatted as the text of the nil address between brackets, which parses to the
Host of that text and not to the name; and the IPv6 literal written in capital
letters comes back with its Host in small letters. -/
theorem newAddress_roundtrip_name_counterexample :
    NewAddress true "example.test:80" = some ⟨"80", "example.test", [], []⟩ ∧
    Address.InternalAddr ⟨"80", "example.test", [], []⟩ = "[<nil>]:80" ∧
    Address.ExternalAddr ⟨"80", "example.test", [], []⟩ = "[<nil>]:80" ∧
    NewAddress true "[<nil>]:80" = some ⟨"80", "<nil>", [], []⟩ ∧
    NewAddress false "example.test:80" = some ⟨"80", "example.test", [], []⟩ ∧
    NewAddress false "[<nil>]:80" = some ⟨"80", "<nil>", [], []⟩ ∧
    (⟨"80", "<nil>", [], []⟩ : Address).Host ≠ (⟨"80", "example.test", [], []⟩ : Address).Host ∧
    NewAddress true "[2001:DB8::5]" = some { exParsed6 with Host := "2001:DB8::5" } ∧
    Address.InternalAddr { exParsed6 with Host := "2001:DB8::5" } = "[2001:db8::5]:80" ∧
    NewAddress true "[2001:db8::5]:80" = some exParsed6 ∧
    exParsed6.Host ≠ "2001:DB8::5" := by
  decide

/-- C16, amended: for every input that NewAddress parses to a literal address
whose Host is the text that net.IP.String prints for it, formatting the Address
with InternalAddr or with ExternalAddr and parsing the result gives the same
Address, field by field; when the input carried no port, the Port is 80 before
and after the round trip. -/
theorem newAddress_roundtrip_canonical_literal (zoneCheck : Bool) (s : String) (a : Address)
    (h : NewAddress zoneCheck s = some a) (hip : a.InternalIP ≠ [])
    (hcanon : a.Host = a.InternalIP.String) :
    NewAddress zoneCheck a.InternalAddr = some a ∧
    NewAddress zoneCheck a.ExternalAddr = some a ∧
    (SplitHostPort zoneCheck s.toList = .error missingPort →
      a.Port = "80" ∧
      (NewAddress zoneCheck a.InternalAddr).map Address.Port = some "80" ∧
      (NewAddress zoneCheck a.ExternalAddr).map Address.Port = some "80") := by
  obtain ⟨host, port, ha, p1, p3, p4⟩ := NewAddress_shape h
  have hc2 : String.mk host = IP.String (ParseIP host) := by
    rw [ha] at hcanon
    exact hcanon
  obtain ⟨r1, r2⟩ := ofHostPort_roundtrip zoneCheck host port p1 p3 p4 hc2
  rw [← ha] at r1 r2
  refine ⟨r1, r2, ?_⟩
  intro hm
  have hport : a.Port = "80" := by
    cases h2 : SplitHostPort zoneCheck (s ++ ":80").toList with
    | ok hp =>
      obtain ⟨host2, port2⟩ := hp
      obtain ⟨e1, e2⟩ := NewAddress_of_retry hm h2
      rw [h] at e1
      simp only [Option.some.injEq] at e1
      rw [e1, e2]
      rfl
    | error err =>
      exfalso
      have e1 : NewAddress zoneCheck s = some (Address.ofHostPort [] []) := by
        simp only [NewAddress, hm, h2, if_true]
      rw [h] at e1
      simp only [Option.some.injEq] at e1
      apply hip
      rw [e1]
      rfl
  refine ⟨hport, ?_, ?_⟩
  · rw [r1, Option.map_some', hport]
  · rw [r2, Option.map_some', hport]

/-- C16, the amended statement at work: the bracketed IPv6 literal
2001:db8::5 without a port. -/
theorem newAddress_roundtrip_canonical_literal_witness :
    NewAddress true "[2001:db8::5]" = some exParsed6 ∧ exParsed6.InternalIP ≠ [] ∧
    exParsed6.Host = exParsed6.InternalIP.String ∧
    SplitHostPort true "[2001:db8::5]".toList = .error missingPort ∧
    NewAddress true exParsed6.InternalAddr = some exParsed6 ∧
    NewAddress true exParsed6.ExternalAddr = some exParsed6 ∧
    exParsed6.Port = "80" :=
  ⟨by decide, by decide, by decide, rfl,
    (newAddress_roundtrip_canonical_literal true "[2001:db8::5]" exParsed6
      (by decide) (by decide) (by decide)).1,
    (newAddress_roundtrip_canonical_literal true "[2001:db8::5]" exParsed6
      (by decide) (by decide) (by decide)).2.1,
    ((newAddress_roundtrip_canonical_literal true "[2001:db8::5]" exParsed6
      (by decide) (by decide) (by decide)).2.2 rfl).1⟩

/-! ## The life of a listener -/

theorem live_option_cancel (P : Prop) [Decidable P] (c ctx : Ctx) (cs : List Ctx) :
    (if P ∧ c ∉ ctx :: cs then some c else none)
      = Option.filter (fun c => decide (c ≠ ctx)) (if P ∧ c ∉ cs then some c else none) := by
  by_cases hP : P
  · by_cases h4 : c = ctx
    · subst h4
      by_cases h2 : c ∈ cs
      · simp [hP, h2, Option.filter]
      · simp [hP, h2, Option.filter]
    · by_cases h2 : c ∈ cs
      · simp [hP, h2, h4, Option.filter]
      · simp [hP, h2, h4, Option.filter]
  · simp [hP, Option.filter]

theorem liveLog_cancel (p : Nat) (ctx : Ctx) (cs : List Ctx) (log : List (Ctx × HTTPServer)) :
    liveLog p (ctx :: cs) log = (liveLog p cs log).filter fun c => decide (c ≠ ctx) := by
  unfold liveLog
  rw [List.filter_filterMap]
  apply List.filterMap_congr
  intro e _
  exact live_option_cancel _ _ _ _

theorem liveDone_cancel (p : Nat) (ctx : Ctx) (cs : List Ctx) (gs : List Goroutine) :
    gs.filterMap (liveDoneOf p (ctx :: cs))
      = (gs.filterMap (liveDoneOf p cs)).filter fun c => decide (c ≠ ctx) := by
  rw [List.filter_filterMap]
  apply List.filterMap_congr
  intro g _
  cases g with
  | releaseLease c k => rfl
  | teardown q k => rfl
  | wgDone c q => exact live_option_cancel _ _ _ _

/-- The cancellation of a scope keeps the bookkeeping. -/
theorem inv_after_cancel {binds : List Address} {m : RebindManager}
    {log : List (Ctx × HTTPServer)} (hi : ListenerInv binds m log) (ctx : Ctx) :
    ListenerInv binds (m.cancel ctx) log where
  ptrs := hi.ptrs
  count := hi.count
  released := hi.released
  stopped := hi.stopped
  teardowns := hi.teardowns
  registry := hi.registry
  keys := hi.keys
  keyOf := hi.keyOf
  history := by
    intro p
    show liveLog p (ctx :: m.cancelled) log
      = m.goroutines.filterMap (liveDoneOf p (ctx :: m.cancelled))
    rw [liveLog_cancel, liveDone_cancel, hi.history p]
  logged := hi.logged

theorem runGoroutine_wgDone {m : RebindManager} {i : Nat} {c : Ctx} {p : Nat} {st : ServerState}
    (hg : m.goroutines.get? i = some (.wgDone c p)) (hc : c ∈ m.cancelled)
    (hs : m.heap.get? p = some st) (hw : st.WG ≠ 0) :
    m.runGoroutine i = some { m with
      heap := m.heap.set p { st with WG := st.WG - 1, released := st.released || st.WG = 1 }
      goroutines := m.goroutines.eraseIdx i } := by
  unfold RebindManager.runGoroutine
  simp only [hg, hc, if_true, hs, hw, if_false]

theorem runGoroutine_teardown {m : RebindManager} {i : Nat} {k : String} {p : Nat}
    {st : ServerState}
    (hg : m.goroutines.get? i = some (.teardown p k))
    (hs : m.heap.get? p = some st) (hr : st.released = true) (hw : st.WG = 0) :
    m.runGoroutine i = some { m with
      heap := m.heap.set p { st with stopped := true }
      HTTPServers := mapDelete k m.HTTPServers
      goroutines := m.goroutines.eraseIdx i } := by
  unfold RebindManager.runGoroutine
  simp only [hg, hs, hr, if_true, hw, ne_eq, not_true_eq_false, if_false]

theorem heap_get_set {heap : List ServerState} {p q : Nat} {st st1 : ServerState}
    (hs : heap.get? p = some st) (st2 : ServerState)
    (h : (heap.set p st2).get? q = some st1) :
    (q = p ∧ st1 = st2) ∨ (q ≠ p ∧ heap.get? q = some st1) := by
  by_cases hq : q = p
  · left
    subst hq
    have hlt : q < heap.length := by
      rcases List.get?_eq_some.mp hs with ⟨hlt, _⟩
      exact hlt
    rw [List.get?_eq_getElem?, List.getElem?_set_eq_of_lt _ hlt] at h
    simp only [Option.some.injEq] at h
    exact ⟨rfl, h.symm⟩
  · right
    refine ⟨hq, ?_⟩
    rw [List.get?_eq_getElem?, List.getElem?_set_ne (fun e => hq e.symm)] at h
    rw [List.get?_eq_getElem?]
    exact h

/-- A decrement that can run finds its listener with a counter above zero, and
the bookkeeping holds after it. -/
theorem inv_after_wgDone {binds : List Address} {m : RebindManager}
    {log : List (Ctx × HTTPServer)} (hi : ListenerInv binds m log) {i : Nat} {c : Ctx} {p : Nat}
    (hg : m.goroutines.get? i = some (.wgDone c p)) (hc : c ∈ m.cancelled) :
    ∃ st, m.heap.get? p = some st ∧ st.WG ≠ 0 ∧
      ListenerInv binds { m with
        heap := m.heap.set p { st with WG := st.WG - 1, released := st.released || st.WG = 1 }
        goroutines := m.goroutines.eraseIdx i } log := by
  have hmem : Goroutine.wgDone c p ∈ m.goroutines := List.get?_mem hg
  have hp : p < m.heap.length := hi.ptrs _ hmem
  have hs : m.heap.get? p = some (m.heap.get ⟨p, hp⟩) := List.get?_eq_get hp
  generalize m.heap.get ⟨p, hp⟩ = st at hs
  have hcnt := hi.count p st hs
  have hin : c ∈ m.goroutines.filterMap (doneOf p) :=
    List.mem_filterMap.2 ⟨_, hmem, by simp [doneOf]⟩
  have hw : st.WG ≠ 0 := by
    have := List.length_pos_of_mem hin
    omega
  have herase := filterMap_eraseIdx_some (doneOf p) m.goroutines i _ c hg (by simp [doneOf])
  have hother : ∀ q, q ≠ p → (m.goroutines.eraseIdx i).filterMap (doneOf q)
      = m.goroutines.filterMap (doneOf q) := by
    intro q hq
    exact filterMap_eraseIdx_none _ _ _ _ hg (by
      have : ¬ p = q := fun e => hq e.symm
      simp [doneOf, this])
  have htd : ∀ q, (m.goroutines.eraseIdx i).filterMap (teardownOf q)
      = m.goroutines.filterMap (teardownOf q) := fun q =>
    filterMap_eraseIdx_none _ _ _ _ hg rfl
  have hlive : ∀ q, (m.goroutines.eraseIdx i).filterMap (liveDoneOf q m.cancelled)
      = m.goroutines.filterMap (liveDoneOf q m.cancelled) := fun q =>
    filterMap_eraseIdx_none _ _ _ _ hg (by simp [liveDoneOf, hc])
  refine ⟨st, hs, hw, ?_⟩
  refine
    { ptrs := ?_, count := ?_, released := ?_, stopped := ?_, teardowns := ?_,
      registry := ?_, keys := hi.keys, keyOf := hi.keyOf, history := ?_, logged := ?_ }
  · intro g hg1
    have := hi.ptrs g (List.mem_of_mem_eraseIdx hg1)
    simpa [List.length_set] using this
  · intro q st1 h1
    rcases heap_get_set hs _ h1 with ⟨hq, h2⟩ | ⟨hq, h2⟩
    · subst hq
      subst h2
      show st.WG - 1 = _
      rw [herase.length_eq, List.length_erase_of_mem hin, ← hcnt]
    · show st1.WG = _
      rw [hother q hq]
      exact hi.count q st1 h2
  · intro q st1 h1
    rcases heap_get_set hs _ h1 with ⟨hq, h2⟩ | ⟨hq, h2⟩
    · subst h2
      have hr := hi.released p st hs
      have hrf : st.released = false := by
        cases hb : st.released with
        | false => rfl
        | true => exact absurd (hr.1 hb) hw
      show (st.released || decide (st.WG = 1)) = true ↔ st.WG - 1 = 0
      rw [hrf]
      simp only [Bool.false_or, decide_eq_true_eq]
      omega
    · exact hi.released q st1 h2
  · intro q st1 h1
    rcases heap_get_set hs _ h1 with ⟨hq, h2⟩ | ⟨hq, h2⟩
    · subst h2
      intro hst
      have := hi.stopped p st hs hst
      show (st.released || decide (st.WG = 1)) = true
      rw [this]
      rfl
    · exact hi.stopped q st1 h2
  · intro q st1 h1
    show ((m.goroutines.eraseIdx i).filterMap (teardownOf q)).length = _
    rw [htd q]
    rcases heap_get_set hs _ h1 with ⟨hq, h2⟩ | ⟨hq, h2⟩
    · subst hq
      subst h2
      exact hi.teardowns q st hs
    · exact hi.teardowns q st1 h2
  · intro q k
    show k ∈ (m.goroutines.eraseIdx i).filterMap (teardownOf q) ↔ _
    rw [htd q]
    exact hi.registry q k
  · intro q
    show liveLog q m.cancelled log = (m.goroutines.eraseIdx i).filterMap (liveDoneOf q m.cancelled)
    rw [hlive q]
    exact hi.history q
  · intro e he
    have := hi.logged e he
    simpa [List.length_set] using this

theorem mem_mapDelete {κ α : Type} [DecidableEq κ] (k : κ) :
    ∀ (l : List (κ × α)) (e : κ × α), e ∈ mapDelete k l ↔ e ∈ l ∧ e.1 ≠ k := by
  intro l
  induction l with
  | nil => intro e; simp [mapDelete]
  | cons x l ih =>
    obtain ⟨k1, v1⟩ := x
    intro e
    by_cases hk : k1 = k
    · simp only [mapDelete, hk, if_true, ih, List.mem_cons]
      constructor
      · rintro ⟨h1, h2⟩
        exact ⟨Or.inr h1, h2⟩
      · rintro ⟨h1 | h1, h2⟩
        · rw [h1] at h2
          exact absurd rfl h2
        · exact ⟨h1, h2⟩
    · simp only [mapDelete, hk, if_false, List.mem_cons, ih]
      constructor
      · rintro (h1 | ⟨h1, h2⟩)
        · rw [h1]
          exact ⟨Or.inl rfl, hk⟩
        · exact ⟨Or.inr h1, h2⟩
      · rintro ⟨h1 | h1, h2⟩
        · exact Or.inl h1
        · exact Or.inr ⟨h1, h2⟩

/-- A teardown that can run finds its listener with the counter at zero, and
the bookkeeping holds after it. -/
theorem inv_after_teardown {binds : List Address} {m : RebindManager}
    {log : List (Ctx × HTTPServer)} (hi : ListenerInv binds m log) {i : Nat} {k : String}
    {p : Nat} {st : ServerState}
    (hg : m.goroutines.get? i = some (.teardown p k))
    (hs : m.heap.get? p = some st) (hr : st.released = true) :
    st.WG = 0 ∧
      ListenerInv binds { m with
        heap := m.heap.set p { st with stopped := true }
        HTTPServers := mapDelete k m.HTTPServers
        goroutines := m.goroutines.eraseIdx i } log := by
  have hmem : Goroutine.teardown p k ∈ m.goroutines := List.get?_mem hg
  have hw : st.WG = 0 := (hi.released p st hs).1 hr
  have hk : k ∈ m.goroutines.filterMap (teardownOf p) :=
    List.mem_filterMap.2 ⟨_, hmem, by simp [teardownOf]⟩
  have hlen := hi.teardowns p st hs
  have hpos := List.length_pos_of_mem hk
  have hstop : st.stopped = false := by
    cases hb : st.stopped with
    | false => rfl
    | true =>
      rw [hb] at hlen
      simp only [if_true] at hlen
      omega
  have hone : (m.goroutines.filterMap (teardownOf p)).length = 1 := by
    rw [hlen, hstop]
    rfl
  have honly : ∀ k1, k1 ∈ m.goroutines.filterMap (teardownOf p) → k1 = k := by
    intro k1 hk1
    obtain ⟨a, ha⟩ := List.length_eq_one.mp hone
    rw [ha] at hk hk1
    simp only [List.mem_singleton] at hk hk1
    rw [hk, hk1]
  have herase := filterMap_eraseIdx_some (teardownOf p) m.goroutines i _ k hg
    (by simp [teardownOf])
  have hnil : (m.goroutines.eraseIdx i).filterMap (teardownOf p) = [] := by
    apply List.eq_nil_of_length_eq_zero
    rw [herase.length_eq, List.length_erase_of_mem hk, hone]
  have hother : ∀ q, q ≠ p → (m.goroutines.eraseIdx i).filterMap (teardownOf q)
      = m.goroutines.filterMap (teardownOf q) := by
    intro q hq
    exact filterMap_eraseIdx_none _ _ _ _ hg (by
      have : ¬ p = q := fun e => hq e.symm
      simp [teardownOf, this])
  have hdone : ∀ q, (m.goroutines.eraseIdx i).filterMap (doneOf q)
      = m.goroutines.filterMap (doneOf q) := fun q =>
    filterMap_eraseIdx_none _ _ _ _ hg rfl
  have hlive : ∀ q, (m.goroutines.eraseIdx i).filterMap (liveDoneOf q m.cancelled)
      = m.goroutines.filterMap (liveDoneOf q m.cancelled) := fun q =>
    filterMap_eraseIdx_none _ _ _ _ hg rfl
  refine ⟨hw, ?_⟩
  refine
    { ptrs := ?_, count := ?_, released := ?_, stopped := ?_, teardowns := ?_,
      registry := ?_, keys := ?_, keyOf := ?_, history := ?_, logged := ?_ }
  · intro g hg1
    have := hi.ptrs g (List.mem_of_mem_eraseIdx hg1)
    simpa [List.length_set] using this
  · intro q st1 h1
    show st1.WG = ((m.goroutines.eraseIdx i).filterMap (doneOf q)).length
    rw [hdone q]
    rcases heap_get_set hs _ h1 with ⟨hq, h2⟩ | ⟨hq, h2⟩
    · subst hq
      subst h2
      exact hi.count q st hs
    · exact hi.count q st1 h2
  · intro q st1 h1
    rcases heap_get_set hs _ h1 with ⟨hq, h2⟩ | ⟨hq, h2⟩
    · subst h2
      exact hi.released p st hs
    · exact hi.released q st1 h2
  · intro q st1 h1
    rcases heap_get_set hs _ h1 with ⟨hq, h2⟩ | ⟨hq, h2⟩
    · subst h2
      intro _
      exact hr
    · exact hi.stopped q st1 h2
  · intro q st1 h1
    show ((m.goroutines.eraseIdx i).filterMap (teardownOf q)).length = _
    rcases heap_get_set hs _ h1 with ⟨hq, h2⟩ | ⟨hq, h2⟩
    · subst hq
      subst h2
      rw [hnil]
      rfl
    · rw [hother q hq]
      exact hi.teardowns q st1 h2
  · intro q k1
    show k1 ∈ (m.goroutines.eraseIdx i).filterMap (teardownOf q) ↔
      ∃ srv, (k1, srv) ∈ mapDelete k m.HTTPServers ∧ srv.ptr = q
    by_cases hq : q = p
    · subst hq
      rw [hnil]
      constructor
      · intro h
        simp at h
      · rintro ⟨srv, h1, h2⟩
        exfalso
        obtain ⟨h3, h4⟩ := (mem_mapDelete k _ _).1 h1
        exact h4 (honly k1 ((hi.registry q k1).2 ⟨srv, h3, h2⟩))
    · rw [hother q hq]
      constructor
      · intro h
        obtain ⟨srv, h1, h2⟩ := (hi.registry q k1).1 h
        refine ⟨srv, (mem_mapDelete k _ _).2 ⟨h1, ?_⟩, h2⟩
        intro hkk
        simp only at hkk
        obtain ⟨srv0, h3, h4⟩ := (hi.registry p k).1 hk
        rw [hkk] at h1
        have := hi.keys k srv srv0 h1 h3
        rw [this, h4] at h2
        exact hq h2.symm
      · rintro ⟨srv, h1, h2⟩
        exact (hi.registry q k1).2 ⟨srv, ((mem_mapDelete k _ _).1 h1).1, h2⟩
  · intro k1 s1 s2 h1 h2
    exact hi.keys k1 s1 s2 ((mem_mapDelete k _ _).1 h1).1 ((mem_mapDelete k _ _).1 h2).1
  · intro e he
    exact hi.keyOf e ((mem_mapDelete k _ _).1 he).1
  · intro q
    show liveLog q m.cancelled log = (m.goroutines.eraseIdx i).filterMap (liveDoneOf q m.cancelled)
    rw [hlive q]
    exact hi.history q
  · intro e he
    have := hi.logged e he
    simpa [List.length_set] using this

theorem firstReady_some (m : RebindManager) : ∀ (gs : List Goroutine) (k i : Nat),
    firstReady m gs k = some i →
      k ≤ i ∧ ∃ g, gs.get? (i - k) = some g ∧ g.ready m = true := by
  intro gs
  induction gs with
  | nil => intro k i h; simp [firstReady] at h
  | cons g gs ih =>
    intro k i h
    simp only [firstReady] at h
    by_cases hr : g.ready m = true
    · simp only [hr, if_true, Option.some.injEq] at h
      subst h
      exact ⟨Nat.le_refl _, g, by simp, hr⟩
    · simp only [hr, if_false] at h
      obtain ⟨h1, g1, h2, h3⟩ := ih (k + 1) i h
      refine ⟨by omega, g1, ?_, h3⟩
      have : i - k = (i - (k + 1)) + 1 := by omega
      rw [this, List.get?_cons_succ]
      exact h2

theorem firstReady_none (m : RebindManager) : ∀ (gs : List Goroutine) (k : Nat),
    firstReady m gs k = none → ∀ g ∈ gs, g.ready m = false := by
  intro gs
  induction gs with
  | nil => intro k _ g hg; simp at hg
  | cons g gs ih =>
    intro k h g1 hg1
    simp only [firstReady] at h
    by_cases hr : g.ready m = true
    · simp [hr] at h
    · simp only [hr, if_false] at h
      rcases List.mem_cons.mp hg1 with h1 | h1
      · rw [h1]
        simpa using hr
      · exact ih (k + 1) h g1 h1

/-- A goroutine that can run does not fault, leaves the list, and keeps the
bookkeeping; the set of cancelled scopes is not written. -/
theorem inv_after_ready {binds : List Address} {m : RebindManager}
    {log : List (Ctx × HTTPServer)} (hi : ListenerInv binds m log) {i : Nat} {g : Goroutine}
    (hg : m.goroutines.get? i = some g) (hr : g.ready m = true) :
    ∃ m1, m.runGoroutine i = some m1 ∧ ListenerInv binds m1 log ∧
      m1.goroutines.length + 1 = m.goroutines.length ∧ m1.cancelled = m.cancelled := by
  have hlt : i < m.goroutines.length := by
    rcases List.get?_eq_some.mp hg with ⟨hlt, _⟩
    exact hlt
  have hlen : (m.goroutines.eraseIdx i).length + 1 = m.goroutines.length := by
    rw [List.length_eraseIdx_of_lt hlt]
    omega
  cases g with
  | releaseLease c k =>
    exact absurd (hi.ptrs _ (List.get?_mem hg)) (by simp [Goroutine.inHeap])
  | wgDone c p =>
    have hc : c ∈ m.cancelled := by simpa [Goroutine.ready] using hr
    obtain ⟨st, hs, hw, hinv⟩ := inv_after_wgDone hi hg hc
    exact ⟨_, runGoroutine_wgDone hg hc hs hw, hinv, hlen, rfl⟩
  | teardown p k =>
    have hp : p < m.heap.length := hi.ptrs _ (List.get?_mem hg)
    have hs : m.heap.get? p = some (m.heap.get ⟨p, hp⟩) := List.get?_eq_get hp
    generalize m.heap.get ⟨p, hp⟩ = st at hs
    have hrel : st.released = true := by
      simp only [Goroutine.ready, hs] at hr
      exact hr
    obtain ⟨hw, hinv⟩ := inv_after_teardown hi hg hs hrel
    exact ⟨_, runGoroutine_teardown hg hs hrel hw, hinv, hlen, rfl⟩

/-- The run of the goroutines that can run ends without a fault in a state
where none can run, and keeps the bookkeeping. -/
theorem settleLoop_inv {binds : List Address} {log : List (Ctx × HTTPServer)} :
    ∀ (fuel : Nat) (m : RebindManager), ListenerInv binds m log →
      m.goroutines.length ≤ fuel →
      ∃ m1, m.settleLoop fuel = some m1 ∧ ListenerInv binds m1 log ∧ Quiescent m1 ∧
        m1.cancelled = m.cancelled := by
  intro fuel
  induction fuel with
  | zero =>
    intro m hi hl
    refine ⟨m, rfl, hi, ?_, rfl⟩
    intro g hg
    have : m.goroutines = [] := List.eq_nil_of_length_eq_zero (by omega)
    rw [this] at hg
    simp at hg
  | succ fuel ih =>
    intro m hi hl
    cases hf : firstReady m m.goroutines 0 with
    | none =>
      refine ⟨m, ?_, hi, firstReady_none m _ 0 hf, rfl⟩
      simp only [RebindManager.settleLoop, hf]
    | some i =>
      obtain ⟨_, g, hg, hr⟩ := firstReady_some m _ 0 i hf
      rw [Nat.sub_zero] at hg
      obtain ⟨m1, h1, h2, h3, h4⟩ := inv_after_ready hi hg hr
      obtain ⟨m2, h5, h6, h7, h8⟩ := ih m1 h2 (by omega)
      refine ⟨m2, ?_, h6, h7, by rw [h8, h4]⟩
      simp only [RebindManager.settleLoop, hf, h1]
      exact h5

theorem settle_inv {binds : List Address} {log : List (Ctx × HTTPServer)} {m : RebindManager}
    (hi : ListenerInv binds m log) :
    ∃ m1, m.settle = some m1 ∧ ListenerInv binds m1 log ∧ Quiescent m1 ∧
      m1.cancelled = m.cancelled :=
  settleLoop_inv _ m hi (Nat.le_refl _)

theorem heap_get_modify {heap : List ServerState} {p q : Nat} {st st1 : ServerState}
    (f : ServerState → ServerState) (hs : heap.get? p = some st)
    (h : (heap.modify f p).get? q = some st1) :
    (q = p ∧ st1 = f st) ∨ (q ≠ p ∧ heap.get? q = some st1) := by
  by_cases hq : q = p
  · left
    subst hq
    rw [List.get?_eq_getElem?] at h hs
    rw [List.getElem?_modify_eq, hs] at h
    simp only [Option.map_eq_map, Option.map_some', Option.some.injEq] at h
    exact ⟨rfl, h.symm⟩
  · right
    refine ⟨hq, ?_⟩
    rw [List.get?_eq_getElem?] at h ⊢
    rw [List.getElem?_modify_ne _ _ (fun e => hq e.symm)] at h
    exact h

theorem heap_get_append {heap : List ServerState} {q : Nat} {x st1 : ServerState}
    (h : (heap ++ [x]).get? q = some st1) :
    (q < heap.length ∧ heap.get? q = some st1) ∨ (q = heap.length ∧ st1 = x) := by
  rw [List.get?_eq_getElem?] at h
  by_cases hq : q < heap.length
  · left
    rw [List.getElem?_append_left hq] at h
    exact ⟨hq, by rw [List.get?_eq_getElem?]; exact h⟩
  · right
    rw [List.getElem?_append_right (by omega)] at h
    have hlt : q - heap.length < 1 := by
      by_contra hc
      rw [List.getElem?_eq_none (by simp; omega)] at h
      exact Option.noConfusion h
    have h0 : q - heap.length = 0 := by omega
    rw [h0] at h
    simp only [List.getElem?_cons_zero, Option.some.injEq] at h
    exact ⟨by omega, h.symm⟩

theorem inHeap_mono {g : Goroutine} {n k : Nat} (h : g.inHeap n) (hk : n ≤ k) : g.inHeap k := by
  cases g with
  | releaseLease c key => exact h
  | wgDone c p =>
    have h1 : p < n := h
    exact (Nat.lt_of_lt_of_le h1 hk : p < k)
  | teardown p key =>
    have h1 : p < n := h
    exact (Nat.lt_of_lt_of_le h1 hk : p < k)

theorem filterMap_inHeap_nil {gs : List Goroutine} {n : Nat} (h : ∀ g ∈ gs, g.inHeap n) :
    gs.filterMap (doneOf n) = [] ∧ gs.filterMap (teardownOf n) = [] := by
  constructor
  · rw [List.filterMap_eq_nil_iff]
    intro g hg
    have hin := h g hg
    cases g with
    | releaseLease c key => rfl
    | teardown p key => rfl
    | wgDone c p =>
      have h1 : p < n := hin
      have : ¬ p = n := by omega
      simp [doneOf, this]
  · rw [List.filterMap_eq_nil_iff]
    intro g hg
    have hin := h g hg
    cases g with
    | releaseLease c key => rfl
    | wgDone c p => rfl
    | teardown p key =>
      have h1 : p < n := hin
      have : ¬ p = n := by omega
      simp [teardownOf, this]

theorem mapSet_new {κ α : Type} [DecidableEq κ] (k : κ) (v : α) :
    ∀ l : List (κ × α), (∀ e ∈ l, e.1 ≠ k) → mapSet k v l = l ++ [(k, v)] := by
  intro l
  induction l with
  | nil => intro _; rfl
  | cons x l ih =>
    obtain ⟨k1, v1⟩ := x
    intro h
    have h1 : ¬ k1 = k := h (k1, v1) (List.mem_cons_self _ _)
    simp only [mapSet, h1, if_false, List.cons_append]
    rw [ih (fun e he => h e (List.mem_cons_of_mem _ he))]

theorem liveLog_append (q : Nat) (cs : List Ctx) (log : List (Ctx × HTTPServer)) (ctx : Ctx)
    (srv : HTTPServer) :
    liveLog q cs (log ++ [(ctx, srv)])
      = liveLog q cs log ++ (if srv.ptr = q ∧ ctx ∉ cs then [ctx] else []) := by
  unfold liveLog
  rw [List.filterMap_append]
  congr 1
  by_cases h : srv.ptr = q ∧ ctx ∉ cs
  · simp only [List.filterMap_cons, h, not_false_eq_true, and_self, if_true, List.filterMap_nil]
  · simp only [List.filterMap_cons, h, if_false, List.filterMap_nil]

theorem liveDone_append (q : Nat) (cs : List Ctx) (gs : List Goroutine) (ctx : Ctx) (p : Nat) :
    (gs ++ [Goroutine.wgDone ctx p]).filterMap (liveDoneOf q cs)
      = gs.filterMap (liveDoneOf q cs) ++ (if p = q ∧ ctx ∉ cs then [ctx] else []) := by
  rw [List.filterMap_append]
  congr 1
  by_cases h : p = q ∧ ctx ∉ cs
  · simp only [List.filterMap_cons, liveDoneOf, h, not_false_eq_true, and_self, if_true,
      List.filterMap_nil]
  · simp only [List.filterMap_cons, liveDoneOf, h, if_false, List.filterMap_nil]

theorem done_append (q : Nat) (gs : List Goroutine) (ctx : Ctx) (p : Nat) :
    (gs ++ [Goroutine.wgDone ctx p]).filterMap (doneOf q)
      = gs.filterMap (doneOf q) ++ (if p = q then [ctx] else []) := by
  rw [List.filterMap_append]
  congr 1
  by_cases h : p = q
  · simp only [List.filterMap_cons, doneOf, h, if_true, List.filterMap_nil]
  · simp only [List.filterMap_cons, doneOf, h, if_false, List.filterMap_nil]

theorem teardown_append_done (q : Nat) (gs : List Goroutine) (ctx : Ctx) (p : Nat) :
    (gs ++ [Goroutine.wgDone ctx p]).filterMap (teardownOf q) = gs.filterMap (teardownOf q) := by
  rw [List.filterMap_append]
  simp [teardownOf]

theorem teardown_append (q : Nat) (gs : List Goroutine) (p : Nat) (k : String) :
    (gs ++ [Goroutine.teardown p k]).filterMap (teardownOf q)
      = gs.filterMap (teardownOf q) ++ (if p = q then [k] else []) := by
  rw [List.filterMap_append]
  congr 1
  by_cases h : p = q
  · simp only [List.filterMap_cons, teardownOf, h, if_true, List.filterMap_nil]
  · simp only [List.filterMap_cons, teardownOf, h, if_false, List.filterMap_nil]

theorem done_append_teardown (q : Nat) (gs : List Goroutine) (p : Nat) (k : String) :
    (gs ++ [Goroutine.teardown p k]).filterMap (doneOf q) = gs.filterMap (doneOf q) := by
  rw [List.filterMap_append]
  simp [doneOf]

theorem liveDone_append_teardown (q : Nat) (cs : List Ctx) (gs : List Goroutine) (p : Nat)
    (k : String) :
    (gs ++ [Goroutine.teardown p k]).filterMap (liveDoneOf q cs)
      = gs.filterMap (liveDoneOf q cs) := by
  rw [List.filterMap_append]
  simp [liveDoneOf]

/-- An acquisition that finds its listener in the registry, in a state where no
goroutine can run, keeps the bookkeeping. -/
theorem inv_after_found {binds : List Address} {m : RebindManager}
    {log : List (Ctx × HTTPServer)} (hi : ListenerInv binds m log) (hq : Quiescent m)
    {key : String} {srv : HTTPServer} (hreg : (key, srv) ∈ m.HTTPServers) (ctx : Ctx) :
    ListenerInv binds { m.wgAdd srv.ptr with
      goroutines := (m.wgAdd srv.ptr).goroutines ++ [.wgDone ctx srv.ptr] }
      (log ++ [(ctx, srv)]) := by
  have hk : key ∈ m.goroutines.filterMap (teardownOf srv.ptr) :=
    (hi.registry srv.ptr key).2 ⟨srv, hreg, rfl⟩
  obtain ⟨g, hg, hgk⟩ := List.mem_filterMap.1 hk
  have hp : srv.ptr < m.heap.length := by
    have hin := hi.ptrs g hg
    cases g with
    | releaseLease c k1 => simp [teardownOf] at hgk
    | wgDone c p1 => simp [teardownOf] at hgk
    | teardown p1 k1 =>
      simp only [teardownOf] at hgk
      by_cases hpp : p1 = srv.ptr
      · rw [← hpp]
        exact hin
      · simp [hpp] at hgk
  have hs : m.heap.get? srv.ptr = some (m.heap.get ⟨srv.ptr, hp⟩) := List.get?_eq_get hp
  generalize m.heap.get ⟨srv.ptr, hp⟩ = st at hs
  have hrel : st.released = false := by
    have hr := hq g hg
    cases g with
    | releaseLease c k1 => simp [teardownOf] at hgk
    | wgDone c p1 => simp [teardownOf] at hgk
    | teardown p1 k1 =>
      simp only [teardownOf] at hgk
      by_cases hpp : p1 = srv.ptr
      · rw [hpp] at hr
        simp only [Goroutine.ready, hs] at hr
        exact hr
      · simp [hpp] at hgk
  refine
    { ptrs := ?_, count := ?_, released := ?_, stopped := ?_, teardowns := ?_,
      registry := ?_, keys := hi.keys, keyOf := hi.keyOf, history := ?_, logged := ?_ }
  · intro g1 hg1
    show g1.inHeap (m.heap.modify _ srv.ptr).length
    rw [List.length_modify]
    rcases List.mem_append.mp hg1 with h | h
    · exact hi.ptrs g1 h
    · simp only [List.mem_singleton] at h
      rw [h]
      exact hp
  · intro q st1 h1
    show st1.WG = ((m.goroutines ++ [Goroutine.wgDone ctx srv.ptr]).filterMap (doneOf q)).length
    rw [done_append]
    rcases heap_get_modify _ hs h1 with ⟨hqq, h2⟩ | ⟨hqq, h2⟩
    · subst hqq
      subst h2
      simp only [if_true, List.length_append, List.length_singleton]
      rw [← hi.count srv.ptr st hs]
    · have hne : ¬ srv.ptr = q := fun e => hqq e.symm
      simp only [hne, if_false, List.append_nil]
      exact hi.count q st1 h2
  · intro q st1 h1
    rcases heap_get_modify _ hs h1 with ⟨hqq, h2⟩ | ⟨hqq, h2⟩
    · subst h2
      show st.released = true ↔ st.WG + 1 = 0
      rw [hrel]
      constructor
      · intro h
        exact Bool.noConfusion h
      · intro h
        omega
    · exact hi.released q st1 h2
  · intro q st1 h1
    rcases heap_get_modify _ hs h1 with ⟨hqq, h2⟩ | ⟨hqq, h2⟩
    · subst h2
      exact hi.stopped srv.ptr st hs
    · exact hi.stopped q st1 h2
  · intro q st1 h1
    show ((m.goroutines ++ [Goroutine.wgDone ctx srv.ptr]).filterMap (teardownOf q)).length = _
    rw [teardown_append_done]
    rcases heap_get_modify _ hs h1 with ⟨hqq, h2⟩ | ⟨hqq, h2⟩
    · subst hqq
      subst h2
      exact hi.teardowns srv.ptr st hs
    · exact hi.teardowns q st1 h2
  · intro q k1
    show k1 ∈ (m.goroutines ++ [Goroutine.wgDone ctx srv.ptr]).filterMap (teardownOf q) ↔ _
    rw [teardown_append_done]
    exact hi.registry q k1
  · intro q
    show liveLog q m.cancelled (log ++ [(ctx, srv)])
      = (m.goroutines ++ [Goroutine.wgDone ctx srv.ptr]).filterMap (liveDoneOf q m.cancelled)
    rw [liveLog_append, liveDone_append, hi.history q]
  · intro e he
    show e.2.ptr < (m.heap.modify _ srv.ptr).length
    rw [List.length_modify]
    rcases List.mem_append.mp he with h | h
    · exact hi.logged e h
    · simp only [List.mem_singleton] at h
      rw [h]
      exact hp

/-- An acquisition that finds no Equal listener in the registry allocates one
and keeps the bookkeeping, when the registry key tells the bind addresses
apart. -/
theorem inv_after_new {binds : List Address} {m : RebindManager}
    {log : List (Ctx × HTTPServer)} (hi : ListenerInv binds m log) (hf : KeysFaithful binds)
    {bindAddr : Address} (hB : bindAddr ∈ binds)
    (hnone : ∀ e ∈ m.HTTPServers, e.2.Address.Equal bindAddr = false) (ctx : Ctx) :
    ListenerInv binds { (m.CreateHTTPServer ctx bindAddr).2 with
      goroutines := (m.CreateHTTPServer ctx bindAddr).2.goroutines
        ++ [.wgDone ctx m.heap.length] }
      (log ++ [(ctx, (m.CreateHTTPServer ctx bindAddr).1)]) := by
  have hnokey : ∀ e ∈ m.HTTPServers, e.1 ≠ bindAddr.String := by
    intro e he hk
    obtain ⟨h1, h2⟩ := hi.keyOf e he
    have := hf _ h2 _ hB (by rw [← h1, hk])
    rw [hnone e he] at this
    exact Bool.noConfusion this
  have hreg : mapSet bindAddr.String (⟨m.heap.length, bindAddr⟩ : HTTPServer) m.HTTPServers
      = m.HTTPServers ++ [(bindAddr.String, ⟨m.heap.length, bindAddr⟩)] :=
    mapSet_new _ _ _ hnokey
  obtain ⟨hd0, ht0⟩ := filterMap_inHeap_nil hi.ptrs
  refine
    { ptrs := ?_, count := ?_, released := ?_, stopped := ?_, teardowns := ?_,
      registry := ?_, keys := ?_, keyOf := ?_, history := ?_, logged := ?_ }
  · intro g1 hg1
    show g1.inHeap (m.heap ++ [_]).length
    rw [List.length_append, List.length_singleton]
    have hg2 : g1 ∈ (m.goroutines ++ [Goroutine.teardown m.heap.length bindAddr.String])
        ++ [Goroutine.wgDone ctx m.heap.length] := hg1
    rcases List.mem_append.mp hg2 with h | h
    · rcases List.mem_append.mp h with h | h
      · exact inHeap_mono (hi.ptrs g1 h) (Nat.le_succ _)
      · simp only [List.mem_singleton] at h
        rw [h]
        exact Nat.lt_succ_self _
    · simp only [List.mem_singleton] at h
      rw [h]
      exact Nat.lt_succ_self _
  · intro q st1 h1
    show st1.WG = (((m.goroutines ++ [Goroutine.teardown m.heap.length bindAddr.String])
      ++ [Goroutine.wgDone ctx m.heap.length]).filterMap (doneOf q)).length
    rw [done_append, done_append_teardown]
    rcases heap_get_append h1 with ⟨hlt, h2⟩ | ⟨hqq, h2⟩
    · have hne : ¬ m.heap.length = q := by omega
      simp only [hne, if_false, List.append_nil]
      exact hi.count q st1 h2
    · subst hqq
      subst h2
      rw [hd0]
      simp
  · intro q st1 h1
    rcases heap_get_append h1 with ⟨hlt, h2⟩ | ⟨hqq, h2⟩
    · exact hi.released q st1 h2
    · subst h2
      constructor
      · intro h
        exact Bool.noConfusion h
      · intro h
        exact absurd h (by decide)
  · intro q st1 h1
    rcases heap_get_append h1 with ⟨hlt, h2⟩ | ⟨hqq, h2⟩
    · exact hi.stopped q st1 h2
    · subst h2
      intro h
      exact Bool.noConfusion h
  · intro q st1 h1
    show (((m.goroutines ++ [Goroutine.teardown m.heap.length bindAddr.String])
      ++ [Goroutine.wgDone ctx m.heap.length]).filterMap (teardownOf q)).length = _
    rw [teardown_append_done, teardown_append]
    rcases heap_get_append h1 with ⟨hlt, h2⟩ | ⟨hqq, h2⟩
    · have hne : ¬ m.heap.length = q := by omega
      simp only [hne, if_false, List.append_nil]
      exact hi.teardowns q st1 h2
    · subst hqq
      subst h2
      rw [ht0]
      simp
  · intro q k1
    show k1 ∈ ((m.goroutines ++ [Goroutine.teardown m.heap.length bindAddr.String])
        ++ [Goroutine.wgDone ctx m.heap.length]).filterMap (teardownOf q) ↔
      ∃ srv, (k1, srv) ∈ mapSet bindAddr.String
        (⟨m.heap.length, bindAddr⟩ : HTTPServer) m.HTTPServers ∧ srv.ptr = q
    rw [teardown_append_done, teardown_append, hreg]
    constructor
    · intro h
      rcases List.mem_append.mp h with h | h
      · obtain ⟨srv, h1, h2⟩ := (hi.registry q k1).1 h
        exact ⟨srv, List.mem_append_left _ h1, h2⟩
      · by_cases hn : m.heap.length = q
        · simp only [hn, if_true, List.mem_singleton] at h
          refine ⟨⟨m.heap.length, bindAddr⟩, ?_, hn⟩
          rw [h]
          exact List.mem_append_right _ (List.mem_singleton_self _)
        · simp [hn] at h
    · rintro ⟨srv, h1, h2⟩
      rcases List.mem_append.mp h1 with h | h
      · exact List.mem_append_left _ ((hi.registry q k1).2 ⟨srv, h, h2⟩)
      · simp only [List.mem_singleton, Prod.mk.injEq] at h
        apply List.mem_append_right
        have hn : m.heap.length = q := by
          rw [← h2, h.2]
        simp only [hn, if_true, List.mem_singleton]
        exact h.1
  · intro k1 s1 s2 h1 h2
    have h1a : (k1, s1) ∈ mapSet bindAddr.String
        (⟨m.heap.length, bindAddr⟩ : HTTPServer) m.HTTPServers := h1
    have h2a : (k1, s2) ∈ mapSet bindAddr.String
        (⟨m.heap.length, bindAddr⟩ : HTTPServer) m.HTTPServers := h2
    rw [hreg] at h1a h2a
    rcases List.mem_append.mp h1a with a | a <;> rcases List.mem_append.mp h2a with b | b
    · exact hi.keys k1 s1 s2 a b
    · simp only [List.mem_singleton, Prod.mk.injEq] at b
      exact absurd b.1 (hnokey _ a)
    · simp only [List.mem_singleton, Prod.mk.injEq] at a
      exact absurd a.1 (hnokey _ b)
    · simp only [List.mem_singleton, Prod.mk.injEq] at a b
      rw [a.2, b.2]
  · intro e he
    have hea : e ∈ mapSet bindAddr.String
        (⟨m.heap.length, bindAddr⟩ : HTTPServer) m.HTTPServers := he
    rw [hreg] at hea
    rcases List.mem_append.mp hea with a | a
    · exact hi.keyOf e a
    · simp only [List.mem_singleton] at a
      rw [a]
      exact ⟨rfl, hB⟩
  · intro q
    show liveLog q m.cancelled (log ++ [(ctx, (⟨m.heap.length, bindAddr⟩ : HTTPServer))])
      = ((m.goroutines ++ [Goroutine.teardown m.heap.length bindAddr.String])
        ++ [Goroutine.wgDone ctx m.heap.length]).filterMap (liveDoneOf q m.cancelled)
    rw [liveLog_append, liveDone_append, liveDone_append_teardown, hi.history q]
  · intro e he
    show e.2.ptr < (m.heap ++ [_]).length
    rw [List.length_append, List.length_singleton]
    rcases List.mem_append.mp he with h | h
    · exact Nat.lt_succ_of_lt (hi.logged e h)
    · simp only [List.mem_singleton] at h
      rw [h]
      exact Nat.lt_succ_self _

/-- Every acquisition in a state where no goroutine can run keeps the
bookkeeping. -/
theorem inv_after_acquire {binds : List Address} {m : RebindManager}
    {log : List (Ctx × HTTPServer)} (hi : ListenerInv binds m log) (hq : Quiescent m)
    (hf : KeysFaithful binds) (ctx : Ctx) (poolChoice victim : Address)
    (hB : ({ poolChoice with Port := victim.Port } : Address) ∈ binds) :
    ListenerInv binds (m.GetHTTPServer ctx poolChoice victim).2
      (log ++ [(ctx, (m.GetHTTPServer ctx poolChoice victim).1)]) := by
  have hBe : ({ poolChoice.Clone with Port := victim.Port } : Address)
      = { poolChoice with Port := victim.Port } := by rw [Address.Clone_eq]
  cases hfind : m.findServer { poolChoice.Clone with Port := victim.Port } with
  | some srv =>
    rw [GetHTTPServer_found ctx poolChoice victim hfind]
    obtain ⟨⟨key, hkey⟩, _⟩ := (findServer_spec m _).1 srv hfind
    exact inv_after_found hi hq hkey ctx
  | none =>
    rw [GetHTTPServer_new ctx poolChoice victim hfind]
    have hnone := (findServer_spec m _).2 hfind
    rw [hBe] at hnone ⊢
    exact inv_after_new hi hf hB hnone ctx

theorem GetHTTPServer_cancelled (m : RebindManager) (ctx : Ctx) (bind addr : Address) :
    (m.GetHTTPServer ctx bind addr).2.cancelled = m.cancelled := by
  cases hfind : m.findServer { bind.Clone with Port := addr.Port } with
  | some srv => rw [GetHTTPServer_found ctx bind addr hfind]; rfl
  | none => rw [GetHTTPServer_new ctx bind addr hfind]; rfl

/-- A sequence of events from a state with the bookkeeping, where no goroutine
can run, ends without a fault in such a state; the cancelled scopes and the
scopes of the log are those of the events. -/
theorem listenerRun_inv {binds : List Address} (hf : KeysFaithful binds) :
    ∀ (events : List ListenerEvent) (s : RebindManager × List (Ctx × HTTPServer)),
      ListenerInv binds s.1 s.2 → Quiescent s.1 → (∀ b ∈ bindAddrs events, b ∈ binds) →
      ∃ s1, listenerRun s events = some s1 ∧ ListenerInv binds s1.1 s1.2 ∧ Quiescent s1.1 ∧
        s1.1.cancelled = (cancelledScopes events).reverse ++ s.1.cancelled ∧
        s1.2.map Prod.fst = s.2.map Prod.fst ++ acquiringScopes events := by
  intro events
  induction events with
  | nil =>
    intro s hi hq _
    exact ⟨s, rfl, hi, hq, by simp [cancelledScopes], by simp [acquiringScopes]⟩
  | cons e es ih =>
    intro s hi hq hb
    cases e with
    | acquire ctx poolChoice victim =>
      have hB : ({ poolChoice with Port := victim.Port } : Address) ∈ binds :=
        hb _ (by simp [bindAddrs])
      have h1 := inv_after_acquire hi hq hf ctx poolChoice victim hB
      obtain ⟨m1, h2, h3, h4, h5⟩ := settle_inv h1
      have hstep : listenerStep s (.acquire ctx poolChoice victim)
          = some (m1, s.2 ++ [(ctx, (s.1.GetHTTPServer ctx poolChoice victim).1)]) := by
        simp only [listenerStep, h2, Option.map_some']
      obtain ⟨s2, h6, h7, h8, h9, h10⟩ := ih (m1, _) h3 h4
        (fun b hbm => hb b (by simp only [bindAddrs]; exact List.mem_cons_of_mem _ hbm))
      refine ⟨s2, ?_, h7, h8, ?_, ?_⟩
      · simp only [listenerRun, hstep]
        exact h6
      · rw [h9]
        simp only [cancelledScopes]
        rw [h5, GetHTTPServer_cancelled]
      · rw [h10]
        simp [acquiringScopes]
    | cancelScope ctx =>
      have h1 := inv_after_cancel hi ctx
      obtain ⟨m1, h2, h3, h4, h5⟩ := settle_inv h1
      have hstep : listenerStep s (.cancelScope ctx) = some (m1, s.2) := by
        simp only [listenerStep, h2, Option.map_some']
      obtain ⟨s2, h6, h7, h8, h9, h10⟩ := ih (m1, s.2) h3 h4
        (fun b hbm => hb b (by simp only [bindAddrs]; exact hbm))
      refine ⟨s2, ?_, h7, h8, ?_, ?_⟩
      · simp only [listenerRun, hstep]
        exact h6
      · rw [h9, h5]
        simp [cancelledScopes, RebindManager.cancel]
      · rw [h10]
        simp [acquiringScopes]

theorem inv_initial (binds : List Address) (base : String) (poolIPs : List Address) :
    ListenerInv binds (NewRebindManager base poolIPs) [] ∧
      Quiescent (NewRebindManager base poolIPs) := by
  constructor
  · refine
      { ptrs := ?_, count := ?_, released := ?_, stopped := ?_, teardowns := ?_,
        registry := ?_, keys := ?_, keyOf := ?_, history := ?_, logged := ?_ }
    · intro g hg; simp [NewRebindManager] at hg
    · intro p st h; simp [NewRebindManager] at h
    · intro p st h; simp [NewRebindManager] at h
    · intro p st h; simp [NewRebindManager] at h
    · intro p st h; simp [NewRebindManager] at h
    · intro p k; simp [NewRebindManager]
    · intro k s1 s2 h; simp [NewRebindManager] at h
    · intro e he; simp [NewRebindManager] at he
    · intro p; simp [NewRebindManager, liveLog]
    · intro e he; simp at he
  · intro g hg
    simp [NewRebindManager] at hg

/-- What the bookkeeping says about a listener in a state where no goroutine
can run. -/
theorem listener_facts {binds : List Address} {m : RebindManager}
    {log : List (Ctx × HTTPServer)} (hi : ListenerInv binds m log) (hq : Quiescent m)
    (p : Nat) (st : ServerState) (hs : m.heap.get? p = some st) :
    st.WG = liveAcquisitions p m.cancelled log ∧
    (0 < st.WG → st.stopped = false ∧ ∃ key srv, (key, srv) ∈ m.HTTPServers ∧ srv.ptr = p) ∧
    (st.WG = 0 → st.stopped = true ∧ ∀ e ∈ m.HTTPServers, e.2.ptr ≠ p) := by
  have hcongr : m.goroutines.filterMap (doneOf p)
      = m.goroutines.filterMap (liveDoneOf p m.cancelled) := by
    apply List.filterMap_congr
    intro g hg
    have hr := hq g hg
    cases g with
    | releaseLease c k => rfl
    | teardown q k => rfl
    | wgDone c q =>
      have hc : c ∉ m.cancelled := by simpa [Goroutine.ready] using hr
      simp [doneOf, liveDoneOf, hc]
  have hlen := hi.teardowns p st hs
  refine ⟨?_, ?_, ?_⟩
  · rw [hi.count p st hs, hcongr, ← hi.history p]
    rfl
  · intro hpos
    have hrel : st.released = false := by
      cases hb : st.released with
      | false => rfl
      | true =>
        have := (hi.released p st hs).1 hb
        omega
    have hstop : st.stopped = false := by
      cases hb : st.stopped with
      | false => rfl
      | true =>
        have := hi.stopped p st hs hb
        rw [hrel] at this
        exact Bool.noConfusion this
    refine ⟨hstop, ?_⟩
    rw [hstop] at hlen
    obtain ⟨k, hk⟩ := List.length_eq_one.mp hlen
    have hmem : k ∈ m.goroutines.filterMap (teardownOf p) := by
      rw [hk]
      exact List.mem_singleton_self _
    obtain ⟨srv, h1, h2⟩ := (hi.registry p k).1 hmem
    exact ⟨k, srv, h1, h2⟩
  · intro hz
    have hrel : st.released = true := (hi.released p st hs).2 hz
    have hstop : st.stopped = true := by
      cases hb : st.stopped with
      | true => rfl
      | false =>
        exfalso
        rw [hb] at hlen
        obtain ⟨k, hk⟩ := List.length_eq_one.mp hlen
        have hmem : k ∈ m.goroutines.filterMap (teardownOf p) := by
          rw [hk]
          exact List.mem_singleton_self _
        obtain ⟨g, hg, hgk⟩ := List.mem_filterMap.1 hmem
        have hr := hq g hg
        cases g with
        | releaseLease c k1 => simp [teardownOf] at hgk
        | wgDone c p1 => simp [teardownOf] at hgk
        | teardown p1 k1 =>
          simp only [teardownOf] at hgk
          by_cases hpp : p1 = p
          · rw [hpp] at hr
            simp only [Goroutine.ready, hs] at hr
            rw [hrel] at hr
            exact Bool.noConfusion hr
          · simp [hpp] at hgk
    refine ⟨hstop, ?_⟩
    intro e he hp
    rw [hstop] at hlen
    have hnil : m.goroutines.filterMap (teardownOf p) = [] :=
      List.eq_nil_of_length_eq_zero hlen
    have := (hi.registry p e.1).2 ⟨e.2, he, hp⟩
    rw [hnil] at this
    simp at this

/-- C14, the counterexample: after scope 1 has acquired the listener twice, the
counter of its WaitGroup is 2, the number of acquisitions of a live scope,
while one scope has acquired it; after MakeOffer under one scope the counter is
9. -/
theorem listener_refcount_scopes_counterexample :
    listenerRun (exManager, [])
        [.acquire 1 exPoolAddr exVictim, .acquire 1 exPoolAddr exVictim]
      = some exListenerTwice ∧
    exListenerTwice.1.heap.get? 0 = some ⟨2, false, false⟩ ∧
    exListenerTwice.1.cancelled = [] ∧
    liveScopes 0 exListenerTwice.1.cancelled exListenerTwice.2 = 1 ∧
    liveAcquisitions 0 exListenerTwice.1.cancelled exListenerTwice.2 = 2 ∧
    exManagerOffers.heap.get? 0 = some ⟨9, false, false⟩ := by
  decide

/-- C14, amended: from a new manager, every sequence of acquisitions and scope
cancellations, each followed by the run of the goroutines it wakes, ends
without a fault, provided the registry key tells the bind addresses apart.
Afterwards, for every listener, the counter of its WaitGroup equals the number
of acquisitions of that listener whose scope is not cancelled (an acquisition
counts once for each call, also when one scope makes several); while the
counter is above zero the listener is not stopped and is in the registry; when
the counter is zero it is stopped and no entry of the registry points to it. -/
theorem listener_refcount_tracks_live_acquisitions (base : String) (poolIPs : List Address)
    (events : List ListenerEvent) (hf : KeysFaithful (bindAddrs events)) :
    ∃ m log, listenerRun (NewRebindManager base poolIPs, []) events = some (m, log) ∧
      m.cancelled = (cancelledScopes events).reverse ∧
      log.map Prod.fst = acquiringScopes events ∧
      (∀ e ∈ log, e.2.ptr < m.heap.length) ∧
      ∀ p st, m.heap.get? p = some st →
        st.WG = liveAcquisitions p m.cancelled log ∧
        (0 < st.WG →
          st.stopped = false ∧ ∃ key srv, (key, srv) ∈ m.HTTPServers ∧ srv.ptr = p) ∧
        (st.WG = 0 → st.stopped = true ∧ ∀ e ∈ m.HTTPServers, e.2.ptr ≠ p) := by
  obtain ⟨h0, hq0⟩ := inv_initial (bindAddrs events) base poolIPs
  obtain ⟨s1, h1, h2, h3, h4, h5⟩ :=
    listenerRun_inv hf events (NewRebindManager base poolIPs, []) h0 hq0 (fun b hb => hb)
  refine ⟨s1.1, s1.2, h1, ?_, ?_, h2.logged, fun p st hs => listener_facts h2 h3 p st hs⟩
  · rw [h4]
    simp [NewRebindManager]
  · rw [h5]
    simp

/-- C14, the amended statement at work: scope 1 acquires the listener twice,
scope 2 once, and scope 1 is cancelled. -/
theorem listener_refcount_tracks_live_acquisitions_witness :
    KeysFaithful (bindAddrs exListenerEvents) ∧
    ∃ m log, listenerRun (NewRebindManager "r.test" [exPoolAddr], []) exListenerEvents
        = some (m, log) ∧
      m.cancelled = (cancelledScopes exListenerEvents).reverse ∧
      log.map Prod.fst = acquiringScopes exListenerEvents ∧
      (∀ e ∈ log, e.2.ptr < m.heap.length) ∧
      ∀ p st, m.heap.get? p = some st →
        st.WG = liveAcquisitions p m.cancelled log ∧
        (0 < st.WG →
          st.stopped = false ∧ ∃ key srv, (key, srv) ∈ m.HTTPServers ∧ srv.ptr = p) ∧
        (st.WG = 0 → st.stopped = true ∧ ∀ e ∈ m.HTTPServers, e.2.ptr ≠ p) :=
  ⟨by decide,
    listener_refcount_tracks_live_acquisitions "r.test" [exPoolAddr] exListenerEvents
      (by decide)⟩

end Jaqen
